import Mathlib

/-!
# Executive: a time-ordered event queue over a GLib list

A verification development for `src/main/c/executive.c`.

Modelling conventions.

* Pointers are natural numbers, `0` is `NULL`.
* An `Event*` stored in the `GList` is represented by the record it points to
  together with its address (`Event.addr`); the source never writes to an
  event after `executiveEventInit`, so a record and its address determine the
  heap cell.  Every pointer comparison of the source (`head == thiz->sentinel`,
  the search of `g_list_remove`) is a comparison of addresses.
* The result of each `malloc` is an input of the function that calls it
  (`0` when the allocation fails).
* Calls through user supplied function pointers (actions and environment
  destructors) are appended to a log.  What an action does to the scheduler
  while it runs is a parameter (`ActionSem`); `noReentry` is the action that
  leaves the scheduler alone.
* `while( true )` loops take a fuel argument; the public functions supply
  `length + 1`, which is shown to be enough.
* List lengths, the `int index` and the `size_t result` counters are natural
  numbers: a list is assumed to hold fewer than `2^31` nodes, so that neither
  `guint`, `int` nor `size_t` wraps.
* `timercmp` (libc) and `g_list_*` (GLib) are library code; they are
  transcribed from their published definitions.
-/

namespace Exec

/-! ## Data model -/

/-- A `struct timeval`: seconds and microseconds, both signed machine integers.
Only comparisons are performed on them. -/
structure Timeval where
  tv_sec : Int
  tv_usec : Int
  deriving DecidableEq, Repr

/-- The libc expression `timercmp(a, b, <)`:
`(a->tv_sec == b->tv_sec) ? (a->tv_usec < b->tv_usec) : (a->tv_sec < b->tv_sec)`. -/
def timercmp_lt (a b : Timeval) : Bool :=
  if a.tv_sec = b.tv_sec then decide (a.tv_usec < b.tv_usec) else decide (a.tv_sec < b.tv_sec)

/-- The libc expression `timercmp(a, b, >)`. -/
def timercmp_gt (a b : Timeval) : Bool :=
  if a.tv_sec = b.tv_sec then decide (a.tv_usec > b.tv_usec) else decide (a.tv_sec > b.tv_sec)

/-- The libc expression `timercmp(a, b, ==)`. -/
def timercmp_eq (a b : Timeval) : Bool :=
  if a.tv_sec = b.tv_sec then decide (a.tv_usec = b.tv_usec) else decide (a.tv_sec = b.tv_sec)

/-- The value of `INT_MAX` for a 32 bit `int`. -/
def INT_MAX : Int := 2147483647

/-- The time of the sentinel: `static struct timeval ARMAGEDDON`. -/
def ARMAGEDDON : Timeval := { tv_sec := INT_MAX, tv_usec := 999999 }

/-- A `struct Event` together with the address it is stored at. -/
structure Event where
  addr : Nat
  executive : Nat
  scheduledTime : Timeval
  action : Nat
  env : Nat
  envFree : Nat
  deriving DecidableEq, Repr

/-- A `struct Executive` together with the address it is stored at.  The
`sentinel` field is the pointer `thiz->sentinel` with the record it points to. -/
structure Executive where
  addr : Nat
  events : List Event
  sentinel : Event
  deriving DecidableEq, Repr

/-- A call made through a user supplied function pointer. -/
inductive Call where
  | action (f : Nat) (e : Event) (actualTime : Timeval)
  | envFree (f : Nat) (env : Nat)
  deriving DecidableEq, Repr

/-- The scheduler and the log of calls made so far. -/
structure State where
  exec : Executive
  log : List Call
  deriving DecidableEq, Repr

/-- The ways a run of the source can go wrong in this model. -/
inductive Fault where
  | nullDeref
  | outOfFuel
  deriving DecidableEq, Repr

/-- What a user action does to the scheduler state while it runs. -/
abbrev ActionSem := Nat → Event → Timeval → State → State

/-- An action that does not call back into the scheduler. -/
def noReentry : ActionSem := fun _ _ _ s => s

/-! ## GLib list primitives -/

/-- GLib `g_list_nth_data`: the data of the node at position `n`, `NULL`
(here `none`) when `n` is off the end of the list. -/
def g_list_nth_data (list : List Event) (n : Nat) : Option Event :=
  match list, n with
  | [], _ => none
  | x :: _, 0 => some x
  | _ :: xs, n + 1 => g_list_nth_data xs n

/-- GLib `g_list_remove`: unlinks the first node whose data pointer equals
`data`; the list is unchanged when there is none. -/
def g_list_remove (list : List Event) (data : Nat) : List Event :=
  match list with
  | [] => []
  | x :: xs => if x.addr = data then xs else x :: g_list_remove xs data

/-- GLib `g_list_length`. -/
def g_list_length (list : List Event) : Nat :=
  match list with
  | [] => 0
  | _ :: xs => g_list_length xs + 1

/-- GLib `g_list_insert_sorted`: walks forward while `func (data, node) > 0`
and a next node exists; links the new node after the last node when the
comparison is still positive there, before the current node otherwise. -/
def g_list_insert_sorted (list : List Event) (data : Event)
    (func : Event → Event → Int) : List Event :=
  match list with
  | [] => [data]
  | x :: xs =>
    if func data x > 0 then x :: g_list_insert_sorted xs data func
    else data :: x :: xs

/-- The address held by a possibly `NULL` event pointer. -/
def ptrOf (e : Option Event) : Nat :=
  match e with
  | none => 0
  | some x => x.addr

/-! ## Events -/

/-- Source `executiveEventInit`: fills the record at address `thiz`. -/
def executiveEventInit (thiz source : Nat) (scheduledTime : Timeval)
    (action env envFree : Nat) : Event :=
  { addr := thiz, executive := source, scheduledTime := scheduledTime,
    action := action, env := env, envFree := envFree }

/-- Source `executiveEventNew`; `p` is the result of its `malloc`. -/
def executiveEventNew (p source : Nat) (scheduledTime : Timeval)
    (action env envFree : Nat) : Option Event :=
  if p = 0 then none
  else some (executiveEventInit p source scheduledTime action env envFree)

/-- Source `executiveEventFree`: calls the destructor when both `env` and
`envFree` are non-null.  Returns the extended log. -/
def executiveEventFree (thiz : Event) (log : List Call) : List Call :=
  if thiz.env ≠ 0 ∧ thiz.envFree ≠ 0 then log ++ [Call.envFree thiz.envFree thiz.env]
  else log

/-- Source `executiveEventComparator`. -/
def executiveEventComparator (a b : Event) : Int :=
  if timercmp_lt a.scheduledTime b.scheduledTime then -1
  else if timercmp_gt a.scheduledTime b.scheduledTime then 1
  else 0

/-- Source `executiveEventExecutive`. -/
def executiveEventExecutive (e : Event) : Nat := e.executive

/-- Source `executiveEventScheduledTime`. -/
def executiveEventScheduledTime (e : Event) : Timeval := e.scheduledTime

/-- Source `executiveEventEnv`. -/
def executiveEventEnv (e : Event) : Nat := e.env

/-! ## The scheduler -/

/-- Source `executiveNew`; `self` and `p` are the results of the two calls of
`malloc`.  `none` is the `NULL` result.  The source does not check the
allocation of the sentinel; a scheduler whose sentinel pointer is `NULL` is
outside this model and is mapped to `none` as well. -/
def executiveNew (self p : Nat) : Option Executive :=
  if self = 0 then none
  else
    match executiveEventNew p 0 ARMAGEDDON 0 0 0 with
    | none => none
    | some sentinel =>
      some { addr := self, sentinel := sentinel,
             events := g_list_insert_sorted [] sentinel executiveEventComparator }

/-- Source `executiveLength`.  The list always holds the sentinel, so the
subtraction does not go below zero. -/
def executiveLength (thiz : Executive) : Nat :=
  g_list_length thiz.events - 1

/-- Source `executivePeek`.  The function performs no write; the scheduler is
returned next to the result to make that explicit.  The result is `none` when
the list has no node at position 0. -/
def executivePeek (thiz : Executive) : Executive × Option Timeval :=
  let head := g_list_nth_data thiz.events 0
  (thiz, head.map fun h => h.scheduledTime)

/-- Assignment `thiz->events = l`. -/
def State.setEvents (s : State) (l : List Event) : State :=
  { s with exec := { s.exec with events := l } }

/-- Source `executiveAddImpl`; `p` is the result of the `malloc` in
`executiveEventNew`.  When it is `NULL` the comparator called by
`g_list_insert_sorted` dereferences it (the list always holds the sentinel). -/
def executiveAddImpl (s : State) (p : Nat) (scheduledTime : Timeval)
    (action env envFree : Nat) : Except Fault (State × Nat) :=
  match executiveEventNew p s.exec.addr scheduledTime action env envFree with
  | none => .error .nullDeref
  | some e =>
    let s1 := s.setEvents (g_list_insert_sorted s.exec.events e executiveEventComparator)
    .ok (s1, executiveLength s1.exec)

/-- Source `executiveAdd`. -/
def executiveAdd (s : State) (p : Nat) (scheduledTime : Timeval) (action : Nat) :
    Except Fault (State × Nat) :=
  executiveAddImpl s p scheduledTime action 0 0

/-- Source `executiveAddWithEnv`. -/
def executiveAddWithEnv (s : State) (p : Nat) (scheduledTime : Timeval)
    (action env : Nat) : Except Fault (State × Nat) :=
  executiveAddImpl s p scheduledTime action env 0

/-- Source `executiveAddWithFreeFunc`. -/
def executiveAddWithFreeFunc (s : State) (p : Nat) (scheduledTime : Timeval)
    (action env envFree : Nat) : Except Fault (State × Nat) :=
  executiveAddImpl s p scheduledTime action env envFree

/-- Source `executiveFire`. -/
def executiveFire (act : ActionSem) (s : State) (actualTime : Timeval) :
    Except Fault State :=
  let head := g_list_nth_data s.exec.events 0
  if ptrOf head = s.exec.sentinel.addr then .ok s
  else
    match head with
    | none => .error .nullDeref
    | some h =>
      let s1 := s.setEvents (g_list_remove s.exec.events h.addr)
      let s2 :=
        if h.action ≠ 0 then
          act h.action h actualTime
            { s1 with log := s1.log ++ [Call.action h.action h actualTime] }
        else s1
      .ok { s2 with log := executiveEventFree h s2.log }

/-- The loop of source `executiveClear`. -/
def executiveClearLoop (fuel : Nat) (s : State) (result : Nat) :
    Except Fault (State × Nat) :=
  match fuel with
  | 0 => .error .outOfFuel
  | fuel + 1 =>
    let head := g_list_nth_data s.exec.events 0
    if ptrOf head = s.exec.sentinel.addr then .ok (s, result)
    else
      match head with
      | none => .error .nullDeref
      | some h =>
        let s1 := s.setEvents (g_list_remove s.exec.events h.addr)
        let s2 := { s1 with log := executiveEventFree h s1.log }
        executiveClearLoop fuel s2 (result + 1)

/-- Source `executiveClear`. -/
def executiveClear (s : State) : Except Fault (State × Nat) :=
  executiveClearLoop (s.exec.events.length + 1) s 0

/-- The loop of source `executiveClearMatchingTime`. -/
def executiveClearMatchingTimeLoop (fuel : Nat) (s : State) (tv : Timeval)
    (index result : Nat) : Except Fault (State × Nat) :=
  match fuel with
  | 0 => .error .outOfFuel
  | fuel + 1 =>
    let el := g_list_nth_data s.exec.events index
    if ptrOf el = s.exec.sentinel.addr then .ok (s, result)
    else
      match el with
      | none => .error .nullDeref
      | some e =>
        if timercmp_gt e.scheduledTime tv then .ok (s, result)
        else if timercmp_eq e.scheduledTime tv then
          let s1 := s.setEvents (g_list_remove s.exec.events e.addr)
          let s2 := { s1 with log := executiveEventFree e s1.log }
          executiveClearMatchingTimeLoop fuel s2 tv index (result + 1)
        else
          executiveClearMatchingTimeLoop fuel s tv (index + 1) result

/-- Source `executiveClearMatchingTime`. -/
def executiveClearMatchingTime (s : State) (tv : Timeval) : Except Fault (State × Nat) :=
  executiveClearMatchingTimeLoop (s.exec.events.length + 1) s tv 0 0

/-- The common loop shape of source `executiveClearMatchingAction`,
`executiveClearMatchingEnv` and `executiveClearMatchingActionAndEnv`; `test`
is the condition of the inner `if`. -/
def executiveClearMatchingLoop (test : Event → Bool) (fuel : Nat) (s : State)
    (index result : Nat) : Except Fault (State × Nat) :=
  match fuel with
  | 0 => .error .outOfFuel
  | fuel + 1 =>
    let el := g_list_nth_data s.exec.events index
    if ptrOf el = s.exec.sentinel.addr then .ok (s, result)
    else
      match el with
      | none => .error .nullDeref
      | some e =>
        if test e then
          let s1 := s.setEvents (g_list_remove s.exec.events e.addr)
          let s2 := { s1 with log := executiveEventFree e s1.log }
          executiveClearMatchingLoop test fuel s2 index (result + 1)
        else
          executiveClearMatchingLoop test fuel s (index + 1) result

/-- Source `executiveClearMatchingAction`. -/
def executiveClearMatchingAction (s : State) (a : Nat) : Except Fault (State × Nat) :=
  executiveClearMatchingLoop (fun el => decide (el.action = a))
    (s.exec.events.length + 1) s 0 0

/-- Source `executiveClearMatchingEnv`. -/
def executiveClearMatchingEnv (s : State) (env : Nat) : Except Fault (State × Nat) :=
  executiveClearMatchingLoop (fun el => decide (el.env = env))
    (s.exec.events.length + 1) s 0 0

/-- Source `executiveClearMatchingActionAndEnv`. -/
def executiveClearMatchingActionAndEnv (s : State) (a env : Nat) :
    Except Fault (State × Nat) :=
  executiveClearMatchingLoop (fun el => decide (el.action = a) && decide (el.env = env))
    (s.exec.events.length + 1) s 0 0

/-- Source `executiveFree`: disposes the sentinel with `executiveEventFree`;
`g_list_free` then releases the list nodes (not the events they point to) and
`free` the scheduler.  Returns the log after the call. -/
def executiveFree (s : State) : List Call :=
  executiveEventFree s.exec.sentinel s.log

/-! ## Sequences of calls -/

/-- One call of the public interface.  The add variants carry the result `p`
of the `malloc` made inside the call. -/
inductive Op where
  | add (p : Nat) (scheduledTime : Timeval) (action : Nat)
  | addWithEnv (p : Nat) (scheduledTime : Timeval) (action env : Nat)
  | addWithFreeFunc (p : Nat) (scheduledTime : Timeval) (action env envFree : Nat)
  | fire (actualTime : Timeval)
  | clear
  | clearMatchingTime (tv : Timeval)
  | clearMatchingAction (a : Nat)
  | clearMatchingEnv (env : Nat)
  | clearMatchingActionAndEnv (a env : Nat)
  deriving DecidableEq, Repr

/-- Runs one call; the second component is the value the call returns
(`0` for `executiveFire`, which returns nothing). -/
def step (act : ActionSem) (s : State) (op : Op) : Except Fault (State × Nat) :=
  match op with
  | .add p t a => executiveAdd s p t a
  | .addWithEnv p t a env => executiveAddWithEnv s p t a env
  | .addWithFreeFunc p t a env envFree => executiveAddWithFreeFunc s p t a env envFree
  | .fire t =>
    match executiveFire act s t with
    | .ok s1 => .ok (s1, 0)
    | .error f => .error f
  | .clear => executiveClear s
  | .clearMatchingTime tv => executiveClearMatchingTime s tv
  | .clearMatchingAction a => executiveClearMatchingAction s a
  | .clearMatchingEnv env => executiveClearMatchingEnv s env
  | .clearMatchingActionAndEnv a env => executiveClearMatchingActionAndEnv s a env

/-- Runs a sequence of calls, stopping at the first fault. -/
def run (act : ActionSem) (s : State) (ops : List Op) : Except Fault State :=
  match ops with
  | [] => .ok s
  | op :: rest =>
    match step act s op with
    | .ok (s1, _) => run act s1 rest
    | .error f => .error f

/-- The `malloc` result carried by a call, if the call allocates. -/
def Op.alloc (op : Op) : Option Nat :=
  match op with
  | .add p _ _ => some p
  | .addWithEnv p _ _ _ => some p
  | .addWithFreeFunc p _ _ _ _ => some p
  | _ => none

/-- The scheduled time passed to a call, if the call adds an event. -/
def Op.addTime (op : Op) : Option Timeval :=
  match op with
  | .add _ t _ => some t
  | .addWithEnv _ t _ _ => some t
  | .addWithFreeFunc _ t _ _ _ => some t
  | _ => none

/-- The allocation made by a call succeeded and returned an address that is
not the address of an event still in the list. -/
def allocOk (s : State) (op : Op) : Bool :=
  match op.alloc with
  | none => true
  | some p => decide (p ≠ 0) && decide (p ∉ s.exec.events.map Event.addr)

/-- Every allocation made along a sequence of calls is as in `allocOk`. -/
def allocsOk (act : ActionSem) (s : State) (ops : List Op) : Bool :=
  match ops with
  | [] => true
  | op :: rest =>
    allocOk s op &&
      match step act s op with
      | .ok (s1, _) => allocsOk act s1 rest
      | .error _ => true

/-- The state right after a successful `executiveNew`. -/
def fresh (ex : Executive) : State := { exec := ex, log := [] }

/-- A state obtained from `executiveNew` by a sequence of calls whose
allocations succeed, with actions that do not re-enter the scheduler. -/
def Reachable (s : State) : Prop :=
  ∃ self p ex ops, executiveNew self p = some ex ∧
    allocsOk noReentry (fresh ex) ops = true ∧ run noReentry (fresh ex) ops = .ok s

/-- An action in the style of `execActionFoo` of the demo `foobar.c`: it calls
`executiveAdd` on the scheduler of its handle, with itself as the action.  `p`
is the result of the `malloc` inside that add, and `next` computes the new
scheduled time from the scheduled time of the handle and the actual time (the
demo uses scheduled time plus five seconds).  The add only fails on a failed
allocation, which ends the program; the state is then left as it was. -/
def rescheduleAction (p : Nat) (next : Timeval → Timeval → Timeval) : ActionSem :=
  fun f e actualTime st =>
    match executiveAdd st p (next (executiveEventScheduledTime e) actualTime) f with
    | .ok (st1, _) => st1
    | .error _ => st

/-! ## Order on times and observations -/

/-- Lexicographic order on (seconds, microseconds), non-strict. -/
def lexLe (a b : Timeval) : Prop :=
  a.tv_sec < b.tv_sec ∨ (a.tv_sec = b.tv_sec ∧ a.tv_usec ≤ b.tv_usec)

/-- Lexicographic order on (seconds, microseconds), strict. -/
def lexLt (a b : Timeval) : Prop :=
  a.tv_sec < b.tv_sec ∨ (a.tv_sec = b.tv_sec ∧ a.tv_usec < b.tv_usec)

instance (a b : Timeval) : Decidable (lexLe a b) := by
  unfold lexLe; infer_instance

instance (a b : Timeval) : Decidable (lexLt a b) := by
  unfold lexLt; infer_instance

/-- The list is ordered non-decreasing by scheduled time. -/
def TimeSorted (l : List Event) : Prop :=
  l.Pairwise fun a b => lexLe a.scheduledTime b.scheduledTime

/-- The events handed to actions, in the order of the calls. -/
def firedEvents (log : List Call) : List Event :=
  log.filterMap fun c =>
    match c with
    | .action _ e _ => some e
    | .envFree _ _ => none

/-- The destructor calls of disposing the events of `l` one after the other. -/
def freeLog (l : List Event) (log : List Call) : List Call :=
  l.foldl (fun acc e => executiveEventFree e acc) log

/-- The user events of a scheduler: the nodes other than the sentinel. -/
def userEvents (thiz : Executive) : List Event :=
  thiz.events.filter fun e => decide (e.addr ≠ thiz.sentinel.addr)

/-! ## The shape of a reachable scheduler -/

/-- The event record an add call stores, for a scheduler at address `self`. -/
def Op.newEvent (self : Nat) (op : Op) : Option Event :=
  match op with
  | .add p t a => some (executiveEventInit p self t a 0 0)
  | .addWithEnv p t a env => some (executiveEventInit p self t a env 0)
  | .addWithFreeFunc p t a env envFree => some (executiveEventInit p self t a env envFree)
  | _ => none

/-- The test a clear-matching call applies to the events it scans. -/
def Op.matcher (op : Op) : Option (Event → Bool) :=
  match op with
  | .clearMatchingTime tv => some fun e => decide (e.scheduledTime = tv)
  | .clearMatchingAction a => some fun e => decide (e.action = a)
  | .clearMatchingEnv env => some fun e => decide (e.env = env)
  | .clearMatchingActionAndEnv a env => some fun e => decide (e.action = a) && decide (e.env = env)
  | _ => none

/-- The list of a scheduler at address `a` with sentinel `S` is
`pre ++ S :: post`: what holds of the parts in every reachable state. -/
structure Shape (a : Nat) (S : Event) (pre post : List Event) : Prop where
  self_ne : a ≠ 0
  sentinel_eq : S = executiveEventInit S.addr 0 ARMAGEDDON 0 0 0
  sentinel_ne : S.addr ≠ 0
  late : ∀ e ∈ post, lexLt ARMAGEDDON e.scheduledTime
  nodup : ((pre ++ S :: post).map Event.addr).Nodup
  sorted : TimeSorted (pre ++ S :: post)
  owner : ∀ e ∈ pre ++ post, e.executive = a ∧ e.addr ≠ 0

/-- Where a new event `e` goes, in terms of the parts of the list. -/
def Placed (e : Event) (pre post pre2 post2 : List Event) : Prop :=
  (lexLe e.scheduledTime ARMAGEDDON ∧
      pre2 = g_list_insert_sorted pre e executiveEventComparator ∧ post2 = post) ∨
  (lexLt ARMAGEDDON e.scheduledTime ∧ pre2 = pre ∧
      post2 = g_list_insert_sorted post e executiveEventComparator)

/-- What one call does to the parts `pre`, `post` of the list and to the log,
and the value `r` it returns. -/
def StepRel (a : Nat) (op : Op) (pre post : List Event) (log : List Call)
    (pre2 post2 : List Event) (log2 : List Call) (r : Nat) : Prop :=
  match op.newEvent a with
  | some e => log2 = log ∧ r = pre.length + post.length + 1 ∧ Placed e pre post pre2 post2
  | none =>
    match op.matcher with
    | some test =>
      pre2 = pre.filter (fun e => !test e) ∧ post2 = post ∧
        log2 = freeLog (pre.filter test) log ∧ r = (pre.filter test).length
    | none =>
      match op with
      | .fire now =>
        post2 = post ∧ r = 0 ∧
          ((pre = [] ∧ pre2 = [] ∧ log2 = log) ∨
           (∃ x, pre = x :: pre2 ∧
              log2 = executiveEventFree x
                (if x.action ≠ 0 then log ++ [Call.action x.action x now] else log)))
      | _ => pre2 = [] ∧ post2 = post ∧ log2 = freeLog pre log ∧ r = pre.length

/-! ## Reading the log -/

/-- The calls of actions in a log, in order. -/
def actionCalls (log : List Call) : List Call :=
  log.filter fun c =>
    match c with
    | .action _ _ _ => true
    | .envFree _ _ => false

/-- The calls of environment destructors in a log, in order. -/
def envFreeCalls (log : List Call) : List Call :=
  log.filter fun c =>
    match c with
    | .action _ _ _ => false
    | .envFree _ _ => true

/-- The calls made by disposing the events of `l`, one after the other, each
with `executiveEventFree`. -/
def disposals (l : List Event) : List Call :=
  l.flatMap fun e => executiveEventFree e []

/-! ## The scans of the clear functions -/

/-- The sentinel pointer is held by a node at position `index` or later: what
holds at the head of every iteration of a scan that started on a list holding
the sentinel. -/
def ScanInv (s : State) (index : Nat) : Prop :=
  ∃ k e, index ≤ k ∧ g_list_nth_data s.exec.events k = some e ∧
    e.addr = s.exec.sentinel.addr

/-- One iteration of a scan loop at `(s, index)` is safe and makes progress:
the lookup at `index` is inside the list, and the iteration either leaves the
loop, or goes on with one node less at the same index, or goes on with the
same list at the next index; in both cases the sentinel pointer is still at or
behind the index. -/
def IterOk (loop : Nat → State → Nat → Nat → Except Fault (State × Nat))
    (s : State) (index : Nat) : Prop :=
  index < s.exec.events.length ∧ (∃ el, g_list_nth_data s.exec.events index = some el) ∧
  ∀ fuel result,
    loop (fuel + 1) s index result = .ok (s, result) ∨
    (∃ s1, s1.exec.events.length + 1 = s.exec.events.length ∧ ScanInv s1 index ∧
      loop (fuel + 1) s index result = loop fuel s1 index (result + 1)) ∨
    (ScanInv s (index + 1) ∧
      loop (fuel + 1) s index result = loop fuel s (index + 1) result)

/-! ## Length accounting -/

/-- The three counts of the length accounting: calls of an add variant, calls
of `executiveFire` made while `executiveLength` was positive, and the sum of
the counts returned by `executiveClear` and the clear-matching variants. -/
structure Tally where
  adds : Nat
  fires : Nat
  removed : Nat
  deriving DecidableEq, Repr

/-- Updates the counts for a call `op` made in state `s` that returned `r`. -/
def Tally.record (t : Tally) (s : State) (op : Op) (r : Nat) : Tally :=
  match op with
  | .add _ _ _ => { t with adds := t.adds + 1 }
  | .addWithEnv _ _ _ _ => { t with adds := t.adds + 1 }
  | .addWithFreeFunc _ _ _ _ _ => { t with adds := t.adds + 1 }
  | .fire _ => if executiveLength s.exec > 0 then { t with fires := t.fires + 1 } else t
  | _ => { t with removed := t.removed + r }

/-- Runs a sequence of calls and keeps the counts. -/
def runTally (act : ActionSem) (s : State) (t : Tally) (ops : List Op) :
    Except Fault (State × Tally) :=
  match ops with
  | [] => .ok (s, t)
  | op :: rest =>
    match step act s op with
    | .ok (s1, r) => runTally act s1 (t.record s op r) rest
    | .error f => .error f

/-! ## Facts about the order on times -/

theorem Timeval.eq_iff (a b : Timeval) :
    a = b ↔ a.tv_sec = b.tv_sec ∧ a.tv_usec = b.tv_usec := by
  cases a; cases b; simp

theorem timercmp_lt_iff (a b : Timeval) : timercmp_lt a b = true ↔ lexLt a b := by
  unfold timercmp_lt lexLt
  split <;> simp <;> omega

theorem timercmp_gt_iff (a b : Timeval) : timercmp_gt a b = true ↔ lexLt b a := by
  unfold timercmp_gt lexLt
  split <;> simp <;> omega

theorem timercmp_eq_iff (a b : Timeval) : timercmp_eq a b = true ↔ a = b := by
  rw [Timeval.eq_iff]
  unfold timercmp_eq
  split <;> simp <;> omega

theorem not_lexLt_iff (a b : Timeval) : ¬ lexLt b a ↔ lexLe a b := by
  unfold lexLt lexLe; omega

theorem not_lexLe_iff (a b : Timeval) : ¬ lexLe a b ↔ lexLt b a := by
  unfold lexLt lexLe; omega

theorem lexLe_refl (a : Timeval) : lexLe a a := by
  unfold lexLe; omega

theorem lexLe_trans {a b c : Timeval} (h1 : lexLe a b) (h2 : lexLe b c) : lexLe a c := by
  unfold lexLe at *; omega

theorem lexLt_of_le_of_lt {a b c : Timeval} (h1 : lexLe a b) (h2 : lexLt b c) :
    lexLt a c := by
  unfold lexLe lexLt at *; omega

theorem lexLt_of_lt_of_le {a b c : Timeval} (h1 : lexLt a b) (h2 : lexLe b c) :
    lexLt a c := by
  unfold lexLe lexLt at *; omega

theorem lexLe_of_lt {a b : Timeval} (h : lexLt a b) : lexLe a b := by
  unfold lexLe lexLt at *; omega

theorem lexLt_irrefl (a : Timeval) : ¬ lexLt a a := by
  unfold lexLt; omega

theorem lexLe_antisymm {a b : Timeval} (h1 : lexLe a b) (h2 : lexLe b a) : a = b := by
  rw [Timeval.eq_iff]
  unfold lexLe at *; omega

theorem comparator_pos_iff (a b : Event) :
    executiveEventComparator a b > 0 ↔ lexLt b.scheduledTime a.scheduledTime := by
  unfold executiveEventComparator
  by_cases h1 : timercmp_lt a.scheduledTime b.scheduledTime = true
  · have h1p := (timercmp_lt_iff _ _).1 h1
    simp only [h1, if_true]
    constructor
    · intro h; omega
    · intro h
      unfold lexLt at *; omega
  · by_cases h2 : timercmp_gt a.scheduledTime b.scheduledTime = true
    · have := (timercmp_gt_iff _ _).1 h2
      simp [h1, h2, this]
    · have h2n : ¬ lexLt b.scheduledTime a.scheduledTime := fun h =>
        h2 ((timercmp_gt_iff _ _).2 h)
      simp [h1, h2, h2n]

/-! ## Facts about the list primitives -/

theorem g_list_length_eq (l : List Event) : g_list_length l = l.length := by
  induction l with
  | nil => rfl
  | cons x xs ih => simp [g_list_length, ih]

theorem g_list_nth_data_append (a : List Event) (x : Event) (b : List Event) :
    g_list_nth_data (a ++ x :: b) a.length = some x := by
  induction a with
  | nil => rfl
  | cons y ys ih => simpa [g_list_nth_data] using ih

theorem g_list_nth_data_none (l : List Event) (n : Nat) (h : l.length ≤ n) :
    g_list_nth_data l n = none := by
  induction l generalizing n with
  | nil => cases n <;> rfl
  | cons y ys ih =>
    cases n with
    | zero => simp at h
    | succ m =>
      simp only [g_list_nth_data]
      exact ih m (by simpa using h)

theorem g_list_remove_append (a : List Event) (x : Event) (b : List Event)
    (h : x.addr ∉ a.map Event.addr) :
    g_list_remove (a ++ x :: b) x.addr = a ++ b := by
  induction a with
  | nil => simp [g_list_remove]
  | cons y ys ih =>
    simp only [List.map_cons, List.mem_cons, not_or] at h
    have hy : ¬ y.addr = x.addr := fun e => h.1 e.symm
    simp [g_list_remove, hy, ih h.2]

theorem insert_sorted_perm (l : List Event) (e : Event) (f : Event → Event → Int) :
    (g_list_insert_sorted l e f).Perm (e :: l) := by
  induction l with
  | nil => simp [g_list_insert_sorted]
  | cons y ys ih =>
    unfold g_list_insert_sorted
    split
    · exact (List.Perm.cons y ih).trans (List.Perm.swap e y ys)
    · exact List.Perm.refl _

theorem mem_insert_sorted (l : List Event) (e x : Event) (f : Event → Event → Int) :
    x ∈ g_list_insert_sorted l e f ↔ x = e ∨ x ∈ l := by
  rw [(insert_sorted_perm l e f).mem_iff]; simp

theorem insert_sorted_length (l : List Event) (e : Event) (f : Event → Event → Int) :
    (g_list_insert_sorted l e f).length = l.length + 1 := by
  rw [(insert_sorted_perm l e f).length_eq]; simp

/-- Placement when the comparison is not positive at `x`: the new event goes
into the part of the list before `x`. -/
theorem insert_sorted_append_stop (a : List Event) (x : Event) (b : List Event)
    (e : Event) (f : Event → Event → Int) (h : ¬ f e x > 0) :
    g_list_insert_sorted (a ++ x :: b) e f = g_list_insert_sorted a e f ++ x :: b := by
  induction a with
  | nil => simp [g_list_insert_sorted, h]
  | cons y ys ih =>
    simp only [List.cons_append, g_list_insert_sorted]
    split <;> simp [ih]

/-- Placement when the comparison is positive on all of `a`: the walk passes `a`. -/
theorem insert_sorted_append_pass (a b : List Event) (e : Event)
    (f : Event → Event → Int) (h : ∀ x ∈ a, f e x > 0) :
    g_list_insert_sorted (a ++ b) e f = a ++ g_list_insert_sorted b e f := by
  induction a with
  | nil => simp
  | cons y ys ih =>
    have hy : f e y > 0 := h y (by simp)
    have ih2 := ih (fun x hx => h x (by simp [hx]))
    show g_list_insert_sorted (y :: (ys ++ b)) e f = y :: (ys ++ g_list_insert_sorted b e f)
    rw [g_list_insert_sorted, if_pos hy, ih2]

/-- The walk of the sorted insert splits a time-ordered list at the first event
whose time is not smaller than the new time. -/
theorem insert_sorted_split (l : List Event) (e : Event) (hs : TimeSorted l) :
    ∃ l1 l2, l = l1 ++ l2 ∧
      g_list_insert_sorted l e executiveEventComparator = l1 ++ e :: l2 ∧
      (∀ x ∈ l1, lexLt x.scheduledTime e.scheduledTime) ∧
      (∀ x ∈ l2, lexLe e.scheduledTime x.scheduledTime) := by
  induction l with
  | nil => exact ⟨[], [], rfl, rfl, by simp, by simp⟩
  | cons y ys ih =>
    have hs2 : TimeSorted ys := (List.pairwise_cons.1 hs).2
    have hy := (List.pairwise_cons.1 hs).1
    by_cases hc : executiveEventComparator e y > 0
    · obtain ⟨l1, l2, h1, h2, h3, h4⟩ := ih hs2
      refine ⟨y :: l1, l2, by simp [h1], ?_, ?_, h4⟩
      · simp [g_list_insert_sorted, hc, h2]
      · intro x hx
        rcases List.mem_cons.1 hx with rfl | hx
        · exact (comparator_pos_iff _ _).1 hc
        · exact h3 x hx
    · refine ⟨[], y :: ys, rfl, by simp [g_list_insert_sorted, hc], by simp, ?_⟩
      have hle : lexLe e.scheduledTime y.scheduledTime :=
        (not_lexLt_iff _ _).1 (fun h => hc ((comparator_pos_iff _ _).2 h))
      intro x hx
      rcases List.mem_cons.1 hx with rfl | hx
      · exact hle
      · exact lexLe_trans hle (hy x hx)

theorem insert_sorted_sorted (l : List Event) (e : Event) (hs : TimeSorted l) :
    TimeSorted (g_list_insert_sorted l e executiveEventComparator) := by
  obtain ⟨l1, l2, h1, h2, h3, h4⟩ := insert_sorted_split l e hs
  rw [h2]
  subst h1
  unfold TimeSorted at *
  rw [List.pairwise_append] at hs ⊢
  refine ⟨hs.1, ?_, ?_⟩
  · rw [List.pairwise_cons]
    exact ⟨h4, hs.2.1⟩
  · intro a ha b hb
    rcases List.mem_cons.1 hb with rfl | hb
    · exact lexLe_of_lt (h3 a ha)
    · exact hs.2.2 a ha b hb

/-! ## What the functions compute on a list that holds the sentinel -/

theorem freeLog_cons (x : Event) (l : List Event) (log : List Call) :
    freeLog (x :: l) log = freeLog l (executiveEventFree x log) := rfl

theorem freeLog_append (l1 l2 : List Event) (log : List Call) :
    freeLog (l1 ++ l2) log = freeLog l2 (freeLog l1 log) := by
  simp [freeLog, List.foldl_append]

theorem firedEvents_eventFree (x : Event) (log : List Call) :
    firedEvents (executiveEventFree x log) = firedEvents log := by
  unfold executiveEventFree
  split <;> simp [firedEvents, List.filterMap_append]

theorem firedEvents_freeLog (l : List Event) (log : List Call) :
    firedEvents (freeLog l log) = firedEvents log := by
  induction l generalizing log with
  | nil => rfl
  | cons x xs ih => rw [freeLog_cons, ih, firedEvents_eventFree]

/-- The loop of `executiveClear` disposes the events in front of the sentinel. -/
theorem clearLoop_spec (pre : List Event) :
    ∀ (fuel a : Nat) (S : Event) (post : List Event) (log : List Call) (result : Nat),
      (∀ x ∈ pre, x.addr ≠ S.addr) → pre.length < fuel →
      executiveClearLoop fuel ⟨⟨a, pre ++ S :: post, S⟩, log⟩ result =
        .ok (⟨⟨a, S :: post, S⟩, freeLog pre log⟩, result + pre.length) := by
  induction pre with
  | nil =>
    intro fuel a S post log result _ hf
    obtain ⟨f, rfl⟩ : ∃ f, fuel = f + 1 := ⟨fuel - 1, by simp at hf; omega⟩
    simp [executiveClearLoop, g_list_nth_data, ptrOf, freeLog]
  | cons x xs ih =>
    intro fuel a S post log result hne hf
    obtain ⟨f, rfl⟩ : ∃ f, fuel = f + 1 := ⟨fuel - 1, by simp at hf; omega⟩
    have hx : x.addr ≠ S.addr := hne x (by simp)
    have ih2 := ih f a S post (executiveEventFree x log) (result + 1)
      (fun y hy => hne y (by simp [hy])) (by simp at hf; omega)
    simp only [executiveClearLoop, List.cons_append, g_list_nth_data, ptrOf, hx, if_false,
      State.setEvents, g_list_remove, if_true]
    refine ih2.trans ?_
    rw [freeLog_cons]
    simp only [List.length_cons]
    congr 2
    omega

/-- The scan shared by the clear-matching functions removes, in front of the
sentinel, the events that pass the test and keeps the others in place. -/
theorem clearMatchingLoop_spec (test : Event → Bool) (todo : List Event) :
    ∀ (fuel a : Nat) (S : Event) (kept post : List Event) (log : List Call) (result : Nat),
      ((kept ++ todo ++ S :: post).map Event.addr).Nodup → todo.length < fuel →
      executiveClearMatchingLoop test fuel ⟨⟨a, kept ++ todo ++ S :: post, S⟩, log⟩
          kept.length result =
        .ok (⟨⟨a, kept ++ todo.filter (fun e => !test e) ++ S :: post, S⟩,
              freeLog (todo.filter test) log⟩, result + (todo.filter test).length) := by
  induction todo with
  | nil =>
    intro fuel a S kept post log result _ hf
    obtain ⟨f, rfl⟩ : ∃ f, fuel = f + 1 := ⟨fuel - 1, by simp at hf; omega⟩
    simp [executiveClearMatchingLoop, g_list_nth_data_append, ptrOf, freeLog]
  | cons x xs ih =>
    intro fuel a S kept post log result hnd hf
    obtain ⟨f, rfl⟩ : ∃ f, fuel = f + 1 := ⟨fuel - 1, by simp at hf; omega⟩
    have hf2 : xs.length < f := by simp at hf; omega
    have hl : kept ++ x :: xs ++ S :: post = kept ++ x :: (xs ++ S :: post) := by simp
    have hnd2 := hnd
    rw [hl, List.map_append, List.map_cons, List.nodup_append] at hnd2
    obtain ⟨_, hnd3, hdis⟩ := hnd2
    have hxk : x.addr ∉ kept.map Event.addr := fun h => hdis h (by simp)
    have hxS : x.addr ≠ S.addr := by
      intro h
      have := (List.nodup_cons.1 hnd3).1
      apply this
      simp [h]
    have hnth : g_list_nth_data (kept ++ x :: xs ++ S :: post) kept.length = some x := by
      rw [hl]; exact g_list_nth_data_append _ _ _
    rw [executiveClearMatchingLoop]
    simp only [hnth, ptrOf, hxS, if_false, State.setEvents]
    by_cases ht : test x = true
    · have hrem : g_list_remove (kept ++ x :: xs ++ S :: post) x.addr
          = kept ++ xs ++ S :: post := by
        rw [hl, g_list_remove_append _ _ _ hxk]; simp
      have hnd4 : ((kept ++ xs ++ S :: post).map Event.addr).Nodup := by
        refine List.Nodup.sublist ?_ hnd
        apply List.Sublist.map
        rw [hl]
        simp only [List.append_assoc]
        exact List.Sublist.append (List.Sublist.refl _) (List.sublist_cons_self _ _)
      have ih2 := ih f a S kept post (executiveEventFree x log) (result + 1) hnd4 hf2
      simp only [ht, if_true, hrem, ih2, List.filter_cons, Bool.not_true, freeLog_cons,
        List.length_cons]
      simp only [Bool.false_eq_true, if_false]
      congr 2
      omega
    · have ht2 : test x = false := by simpa using ht
      have hl2 : kept ++ x :: xs ++ S :: post = (kept ++ [x]) ++ xs ++ S :: post := by simp
      have hnd4 : (((kept ++ [x]) ++ xs ++ S :: post).map Event.addr).Nodup := by
        rw [← hl2]; exact hnd
      have ih2 := ih f a S (kept ++ [x]) post log result hnd4 hf2
      simp only [List.length_append, List.length_singleton] at ih2
      simp only [ht2, Bool.false_eq_true, if_false, hl2, ih2, List.filter_cons, Bool.not_false,
        if_true]
      simp

/-- In a time-ordered list whose first event is later than `tv`, no event has
time `tv`. -/
theorem filter_time_of_gt (tv : Timeval) (x : Event) (xs : List Event)
    (hs : TimeSorted (x :: xs)) (hgt : lexLt tv x.scheduledTime) :
    (x :: xs).filter (fun e => !decide (e.scheduledTime = tv)) = x :: xs ∧
      (x :: xs).filter (fun e => decide (e.scheduledTime = tv)) = [] := by
  have hall : ∀ y ∈ x :: xs, y.scheduledTime ≠ tv := by
    intro y hy h
    have hle : lexLe x.scheduledTime y.scheduledTime := by
      rcases List.mem_cons.1 hy with rfl | hy
      · exact lexLe_refl _
      · exact (List.pairwise_cons.1 hs).1 y hy
    rw [h] at hle
    exact lexLt_irrefl _ (lexLt_of_lt_of_le hgt hle)
  constructor
  · rw [List.filter_eq_self]
    intro y hy
    simpa using hall y hy
  · rw [List.filter_eq_nil_iff]
    intro y hy
    simpa using hall y hy

/-- The scan of `executiveClearMatchingTime` over a time-ordered stretch in
front of the sentinel removes the events whose time is `tv`; stopping at the
first later event loses nothing. -/
theorem clearMatchingTimeLoop_spec (tv : Timeval) (todo : List Event) :
    ∀ (fuel a : Nat) (S : Event) (kept post : List Event) (log : List Call) (result : Nat),
      ((kept ++ todo ++ S :: post).map Event.addr).Nodup → TimeSorted todo →
      todo.length < fuel →
      executiveClearMatchingTimeLoop fuel ⟨⟨a, kept ++ todo ++ S :: post, S⟩, log⟩ tv
          kept.length result =
        .ok (⟨⟨a, kept ++ todo.filter (fun e => !decide (e.scheduledTime = tv)) ++ S :: post, S⟩,
              freeLog (todo.filter fun e => decide (e.scheduledTime = tv)) log⟩,
            result + (todo.filter fun e => decide (e.scheduledTime = tv)).length) := by
  induction todo with
  | nil =>
    intro fuel a S kept post log result _ _ hf
    obtain ⟨f, rfl⟩ : ∃ f, fuel = f + 1 := ⟨fuel - 1, by simp at hf; omega⟩
    simp [executiveClearMatchingTimeLoop, g_list_nth_data_append, ptrOf, freeLog]
  | cons x xs ih =>
    intro fuel a S kept post log result hnd hs hf
    obtain ⟨f, rfl⟩ : ∃ f, fuel = f + 1 := ⟨fuel - 1, by simp at hf; omega⟩
    have hf2 : xs.length < f := by simp at hf; omega
    have hs2 : TimeSorted xs := (List.pairwise_cons.1 hs).2
    have hl : kept ++ x :: xs ++ S :: post = kept ++ x :: (xs ++ S :: post) := by simp
    have hnd2 := hnd
    rw [hl, List.map_append, List.map_cons, List.nodup_append] at hnd2
    obtain ⟨_, hnd3, hdis⟩ := hnd2
    have hxk : x.addr ∉ kept.map Event.addr := fun h => hdis h (by simp)
    have hxS : x.addr ≠ S.addr := by
      intro h
      have := (List.nodup_cons.1 hnd3).1
      apply this
      simp [h]
    have hnth : g_list_nth_data (kept ++ x :: xs ++ S :: post) kept.length = some x := by
      rw [hl]; exact g_list_nth_data_append _ _ _
    rw [executiveClearMatchingTimeLoop]
    simp only [hnth, ptrOf, hxS, if_false, State.setEvents]
    by_cases hgt : timercmp_gt x.scheduledTime tv = true
    · obtain ⟨h1, h2⟩ := filter_time_of_gt tv x xs hs ((timercmp_gt_iff _ _).1 hgt)
      simp only [hgt, if_true, h1, h2]
      simp [freeLog]
    · have hgt2 : timercmp_gt x.scheduledTime tv = false := by simpa using hgt
      simp only [hgt2, Bool.false_eq_true, if_false]
      by_cases ht : timercmp_eq x.scheduledTime tv = true
      · have hteq : x.scheduledTime = tv := (timercmp_eq_iff _ _).1 ht
        have hrem : g_list_remove (kept ++ x :: xs ++ S :: post) x.addr
            = kept ++ xs ++ S :: post := by
          rw [hl, g_list_remove_append _ _ _ hxk]; simp
        have hnd4 : ((kept ++ xs ++ S :: post).map Event.addr).Nodup := by
          refine List.Nodup.sublist ?_ hnd
          apply List.Sublist.map
          rw [hl]
          simp only [List.append_assoc]
          exact List.Sublist.append (List.Sublist.refl _) (List.sublist_cons_self _ _)
        have ih2 := ih f a S kept post (executiveEventFree x log) (result + 1) hnd4 hs2 hf2
        simp only [ht, if_true, hrem, ih2]
        simp only [List.filter_cons, hteq, decide_True, Bool.not_true, freeLog_cons,
          List.length_cons, Bool.false_eq_true, if_false, if_true]
        congr 2
        omega
      · have ht2 : timercmp_eq x.scheduledTime tv = false := by simpa using ht
        have hne : ¬ x.scheduledTime = tv := fun h => ht ((timercmp_eq_iff _ _).2 h)
        have hl2 : kept ++ x :: xs ++ S :: post = (kept ++ [x]) ++ xs ++ S :: post := by simp
        have hnd4 : (((kept ++ [x]) ++ xs ++ S :: post).map Event.addr).Nodup := by
          rw [← hl2]; exact hnd
        have ih2 := ih f a S (kept ++ [x]) post log result hnd4 hs2 hf2
        simp only [List.length_append, List.length_singleton] at ih2
        simp only [ht2, Bool.false_eq_true, if_false, hl2, ih2, List.filter_cons, hne,
          decide_False, Bool.not_false, if_true]
        simp

/-- Firing when the head is a user event: the head is unlinked, its action
(if any) is called, then it is disposed. -/
theorem fire_head (a : Nat) (x S : Event) (rest : List Event) (log : List Call)
    (actual : Timeval) (hx : x.addr ≠ S.addr) :
    executiveFire noReentry ⟨⟨a, x :: rest, S⟩, log⟩ actual =
      .ok ⟨⟨a, rest, S⟩,
        executiveEventFree x
          (if x.action ≠ 0 then log ++ [Call.action x.action x actual] else log)⟩ := by
  simp only [executiveFire, g_list_nth_data, ptrOf, hx, if_false, State.setEvents,
    g_list_remove, if_true, noReentry]
  split <;> rfl

/-- Firing when the head is the sentinel changes nothing. -/
theorem fire_sentinel (a : Nat) (S : Event) (post : List Event) (log : List Call)
    (actual : Timeval) (act : ActionSem) :
    executiveFire act ⟨⟨a, S :: post, S⟩, log⟩ actual = .ok ⟨⟨a, S :: post, S⟩, log⟩ := by
  simp [executiveFire, g_list_nth_data, ptrOf]

/-! ## The reachable shape is kept by every call -/

theorem Shape.sentinel_time {a : Nat} {S : Event} {pre post : List Event}
    (h : Shape a S pre post) : S.scheduledTime = ARMAGEDDON := by
  rw [h.sentinel_eq]; rfl

theorem Shape.early {a : Nat} {S : Event} {pre post : List Event}
    (h : Shape a S pre post) : ∀ e ∈ pre, lexLe e.scheduledTime ARMAGEDDON := by
  intro e he
  have hs := h.sorted
  unfold TimeSorted at hs
  rw [List.pairwise_append] at hs
  have := hs.2.2 e he S (by simp)
  rwa [h.sentinel_time] at this

theorem Shape.pre_ne {a : Nat} {S : Event} {pre post : List Event}
    (h : Shape a S pre post) : ∀ e ∈ pre, e.addr ≠ S.addr := by
  intro e he heq
  have hn := h.nodup
  rw [List.map_append, List.map_cons, List.nodup_append] at hn
  exact hn.2.2 (List.mem_map_of_mem _ he) (by simp [heq])

theorem Shape.post_ne {a : Nat} {S : Event} {pre post : List Event}
    (h : Shape a S pre post) : ∀ e ∈ post, e.addr ≠ S.addr := by
  intro e he heq
  have hn := h.nodup
  rw [List.map_append, List.map_cons, List.nodup_append] at hn
  have := (List.nodup_cons.1 hn.2.1).1
  exact this (by rw [← heq]; exact List.mem_map_of_mem _ he)

/-- Removing events in front of the sentinel keeps the shape. -/
theorem Shape.sublist {a : Nat} {S : Event} {pre pre2 post : List Event}
    (h : Shape a S pre post) (hsub : pre2.Sublist pre) : Shape a S pre2 post := by
  have hsub2 : (pre2 ++ S :: post).Sublist (pre ++ S :: post) :=
    List.Sublist.append hsub (List.Sublist.refl _)
  refine ⟨h.self_ne, h.sentinel_eq, h.sentinel_ne, h.late, ?_, ?_, ?_⟩
  · exact List.Nodup.sublist (List.Sublist.map _ hsub2) h.nodup
  · exact List.Pairwise.sublist hsub2 h.sorted
  · intro e he
    apply h.owner
    rcases List.mem_append.1 he with he | he
    · exact List.mem_append.2 (Or.inl (hsub.subset he))
    · exact List.mem_append.2 (Or.inr he)

/-- Adding an event at a fresh non-null address keeps the shape; the event
goes in front of the sentinel when its time is not later than armageddon and
behind it otherwise. -/
theorem Shape.insert {a : Nat} {S : Event} {pre post : List Event}
    (h : Shape a S pre post) (e : Event) (he0 : e.addr ≠ 0) (hex : e.executive = a)
    (hfresh : e.addr ∉ (pre ++ S :: post).map Event.addr) :
    ∃ pre2 post2,
      g_list_insert_sorted (pre ++ S :: post) e executiveEventComparator = pre2 ++ S :: post2 ∧
      Shape a S pre2 post2 ∧
      ((lexLe e.scheduledTime ARMAGEDDON ∧
          pre2 = g_list_insert_sorted pre e executiveEventComparator ∧ post2 = post) ∨
       (lexLt ARMAGEDDON e.scheduledTime ∧ pre2 = pre ∧
          post2 = g_list_insert_sorted post e executiveEventComparator)) := by
  have hnd : ((g_list_insert_sorted (pre ++ S :: post) e executiveEventComparator).map
      Event.addr).Nodup := by
    have hp := (insert_sorted_perm (pre ++ S :: post) e executiveEventComparator).map Event.addr
    rw [hp.nodup_iff, List.map_cons, List.nodup_cons]
    exact ⟨hfresh, h.nodup⟩
  have hso := insert_sorted_sorted (pre ++ S :: post) e h.sorted
  by_cases hle : lexLe e.scheduledTime ARMAGEDDON
  · have hstop : ¬ executiveEventComparator e S > 0 := by
      rw [comparator_pos_iff, h.sentinel_time]
      exact (not_lexLt_iff _ _).2 hle
    have heq := insert_sorted_append_stop pre S post e executiveEventComparator hstop
    refine ⟨_, post, heq, ?_, Or.inl ⟨hle, rfl, rfl⟩⟩
    refine ⟨h.self_ne, h.sentinel_eq, h.sentinel_ne, h.late, heq ▸ hnd, heq ▸ hso, ?_⟩
    intro x hx
    rcases List.mem_append.1 hx with hx | hx
    · rcases (mem_insert_sorted _ _ _ _).1 hx with rfl | hx
      · exact ⟨hex, he0⟩
      · exact h.owner x (List.mem_append.2 (Or.inl hx))
    · exact h.owner x (List.mem_append.2 (Or.inr hx))
  · have hlt : lexLt ARMAGEDDON e.scheduledTime := (not_lexLe_iff _ _).1 hle
    have hpass : ∀ x ∈ pre ++ [S], executiveEventComparator e x > 0 := by
      intro x hx
      rw [comparator_pos_iff]
      rcases List.mem_append.1 hx with hx | hx
      · exact lexLt_of_le_of_lt (h.early x hx) hlt
      · simp only [List.mem_singleton] at hx
        subst hx
        rw [h.sentinel_time]; exact hlt
    have heq : g_list_insert_sorted (pre ++ S :: post) e executiveEventComparator
        = pre ++ S :: g_list_insert_sorted post e executiveEventComparator := by
      have := insert_sorted_append_pass (pre ++ [S]) post e executiveEventComparator hpass
      simpa using this
    refine ⟨pre, _, heq, ?_, Or.inr ⟨hlt, rfl, rfl⟩⟩
    refine ⟨h.self_ne, h.sentinel_eq, h.sentinel_ne, ?_, heq ▸ hnd, heq ▸ hso, ?_⟩
    · intro x hx
      rcases (mem_insert_sorted _ _ _ _).1 hx with rfl | hx
      · exact hlt
      · exact h.late x hx
    · intro x hx
      rcases List.mem_append.1 hx with hx | hx
      · exact h.owner x (List.mem_append.2 (Or.inl hx))
      · rcases (mem_insert_sorted _ _ _ _).1 hx with rfl | hx
        · exact ⟨hex, he0⟩
        · exact h.owner x (List.mem_append.2 (Or.inr hx))

theorem addImpl_shape {a : Nat} {S : Event} {pre post : List Event} (log : List Call)
    (h : Shape a S pre post) (p : Nat) (t : Timeval) (ac env fr : Nat) (hp : p ≠ 0)
    (hfresh : p ∉ (pre ++ S :: post).map Event.addr) :
    ∃ pre2 post2,
      executiveAddImpl ⟨⟨a, pre ++ S :: post, S⟩, log⟩ p t ac env fr =
        .ok (⟨⟨a, pre2 ++ S :: post2, S⟩, log⟩, pre.length + post.length + 1) ∧
      Shape a S pre2 post2 ∧
      Placed (executiveEventInit p a t ac env fr) pre post pre2 post2 := by
  obtain ⟨pre2, post2, heq, hsh, hpl⟩ :=
    h.insert (executiveEventInit p a t ac env fr) hp rfl hfresh
  refine ⟨pre2, post2, ?_, hsh, hpl⟩
  have hlen : g_list_length (pre2 ++ S :: post2) - 1 = pre.length + post.length + 1 := by
    rw [← heq, g_list_length_eq, insert_sorted_length]
    simp
    omega
  simp only [executiveAddImpl, executiveEventNew, hp, if_false, State.setEvents, heq,
    executiveLength, hlen]

theorem allocOk_iff (s : State) (op : Op) (p : Nat) (h : op.alloc = some p) :
    allocOk s op = true ↔ p ≠ 0 ∧ p ∉ s.exec.events.map Event.addr := by
  simp [allocOk, h]

/-- One call on a scheduler of the reachable shape: it returns, the result has
the reachable shape again, and `StepRel` describes it. -/
theorem step_shape {a : Nat} {S : Event} {pre post : List Event} (log : List Call)
    (op : Op) (h : Shape a S pre post)
    (hal : allocOk ⟨⟨a, pre ++ S :: post, S⟩, log⟩ op = true) :
    ∃ pre2 post2 log2 r,
      step noReentry ⟨⟨a, pre ++ S :: post, S⟩, log⟩ op =
        .ok (⟨⟨a, pre2 ++ S :: post2, S⟩, log2⟩, r) ∧
      Shape a S pre2 post2 ∧ StepRel a op pre post log pre2 post2 log2 r := by
  have hnd0 : (([] ++ pre ++ S :: post).map Event.addr).Nodup := by simpa using h.nodup
  have hsp : TimeSorted pre := by
    have := h.sorted
    unfold TimeSorted at this
    rw [List.pairwise_append] at this
    exact this.1
  have hmatch : ∀ test : Event → Bool,
      executiveClearMatchingLoop test ((pre ++ S :: post).length + 1)
        ⟨⟨a, pre ++ S :: post, S⟩, log⟩ 0 0 =
      .ok (⟨⟨a, pre.filter (fun e => !test e) ++ S :: post, S⟩, freeLog (pre.filter test) log⟩,
        (pre.filter test).length) := by
    intro test
    have := clearMatchingLoop_spec test pre ((pre ++ S :: post).length + 1) a S [] post log 0
      hnd0 (by simp; omega)
    simpa using this
  cases op with
  | add p t ac =>
    obtain ⟨hp, hf⟩ := (allocOk_iff _ _ p (by rfl)).1 hal
    obtain ⟨pre2, post2, h1, h2, h3⟩ := addImpl_shape log h p t ac 0 0 hp hf
    exact ⟨pre2, post2, log, _, h1, h2, rfl, rfl, h3⟩
  | addWithEnv p t ac env =>
    obtain ⟨hp, hf⟩ := (allocOk_iff _ _ p (by rfl)).1 hal
    obtain ⟨pre2, post2, h1, h2, h3⟩ := addImpl_shape log h p t ac env 0 hp hf
    exact ⟨pre2, post2, log, _, h1, h2, rfl, rfl, h3⟩
  | addWithFreeFunc p t ac env fr =>
    obtain ⟨hp, hf⟩ := (allocOk_iff _ _ p (by rfl)).1 hal
    obtain ⟨pre2, post2, h1, h2, h3⟩ := addImpl_shape log h p t ac env fr hp hf
    exact ⟨pre2, post2, log, _, h1, h2, rfl, rfl, h3⟩
  | fire now =>
    cases pre with
    | nil =>
      refine ⟨[], post, log, 0, ?_, h, ?_⟩
      · simp only [step, List.nil_append, fire_sentinel]
      · exact ⟨rfl, rfl, Or.inl ⟨rfl, rfl, rfl⟩⟩
    | cons x xs =>
      have hx : x.addr ≠ S.addr := h.pre_ne x (by simp)
      refine ⟨xs, post, executiveEventFree x
          (if x.action ≠ 0 then log ++ [Call.action x.action x now] else log), 0, ?_,
          h.sublist (List.sublist_cons_self _ _), ?_⟩
      · simp only [step, List.cons_append, fire_head _ _ _ _ _ _ hx]
      · exact ⟨rfl, rfl, Or.inr ⟨x, rfl, rfl⟩⟩
  | clear =>
    refine ⟨[], post, freeLog pre log, pre.length, ?_, h.sublist (List.nil_sublist _), ?_⟩
    · have := clearLoop_spec pre ((pre ++ S :: post).length + 1) a S post log 0 h.pre_ne
        (by simp; omega)
      simpa [step, executiveClear] using this
    · exact ⟨rfl, rfl, rfl, rfl⟩
  | clearMatchingTime tv =>
    refine ⟨_, post, _, _, ?_, h.sublist (List.filter_sublist _), ⟨rfl, rfl, rfl, rfl⟩⟩
    have := clearMatchingTimeLoop_spec tv pre ((pre ++ S :: post).length + 1) a S [] post log 0
      hnd0 hsp (by simp; omega)
    simpa [step, executiveClearMatchingTime] using this
  | clearMatchingAction ac =>
    refine ⟨_, post, _, _, ?_, h.sublist (List.filter_sublist _), ⟨rfl, rfl, rfl, rfl⟩⟩
    exact hmatch fun el => decide (el.action = ac)
  | clearMatchingEnv env =>
    refine ⟨_, post, _, _, ?_, h.sublist (List.filter_sublist _), ⟨rfl, rfl, rfl, rfl⟩⟩
    exact hmatch fun el => decide (el.env = env)
  | clearMatchingActionAndEnv ac env =>
    refine ⟨_, post, _, _, ?_, h.sublist (List.filter_sublist _), ⟨rfl, rfl, rfl, rfl⟩⟩
    exact hmatch fun el => decide (el.action = ac) && decide (el.env = env)

theorem new_shape {self p : Nat} {ex : Executive} (h : executiveNew self p = some ex) :
    ex = ⟨self, [] ++ executiveEventInit p 0 ARMAGEDDON 0 0 0 :: [],
          executiveEventInit p 0 ARMAGEDDON 0 0 0⟩ ∧
      Shape self (executiveEventInit p 0 ARMAGEDDON 0 0 0) [] [] := by
  unfold executiveNew executiveEventNew at h
  by_cases h1 : self = 0
  · simp [h1] at h
  · by_cases h2 : p = 0
    · simp [h1, h2] at h
    · simp only [h1, h2, if_false, Option.some.injEq] at h
      refine ⟨h.symm, h1, rfl, h2, by simp, by simp, by simp [TimeSorted], by simp⟩

/-- A property of the parts of the list and of the log that every call of a
given kind `Q` preserves holds after every run of such calls; the run
returns. -/
theorem run_invariant {a : Nat} {S : Event} (Q : Op → Prop)
    (P : List Event → List Event → List Call → Prop)
    (hstep : ∀ op pre post log pre2 post2 log2 r, Q op → Shape a S pre post →
      P pre post log → StepRel a op pre post log pre2 post2 log2 r →
      Shape a S pre2 post2 → P pre2 post2 log2)
    (ops : List Op) :
    ∀ (pre post : List Event) (log : List Call), Shape a S pre post → P pre post log →
      (∀ op ∈ ops, Q op) →
      allocsOk noReentry ⟨⟨a, pre ++ S :: post, S⟩, log⟩ ops = true →
      ∃ pre2 post2 log2,
        run noReentry ⟨⟨a, pre ++ S :: post, S⟩, log⟩ ops =
          .ok ⟨⟨a, pre2 ++ S :: post2, S⟩, log2⟩ ∧
        Shape a S pre2 post2 ∧ P pre2 post2 log2 := by
  induction ops with
  | nil =>
    intro pre post log hsh hP _ _
    exact ⟨pre, post, log, rfl, hsh, hP⟩
  | cons op rest ih =>
    intro pre post log hsh hP hQ hal
    simp only [allocsOk, Bool.and_eq_true] at hal
    obtain ⟨pre1, post1, log1, r, h1, hsh1, hrel⟩ := step_shape log op hsh hal.1
    have hal2 := hal.2
    rw [h1] at hal2
    have hP1 := hstep op pre post log pre1 post1 log1 r (hQ op (by simp)) hsh hP hrel hsh1
    obtain ⟨pre2, post2, log2, h2, hsh2, hP2⟩ :=
      ih pre1 post1 log1 hsh1 hP1 (fun o ho => hQ o (by simp [ho])) hal2
    refine ⟨pre2, post2, log2, ?_, hsh2, hP2⟩
    simp only [run, h1, h2]

/-- Every reachable state has the reachable shape. -/
theorem Reachable.shape {s : State} (h : Reachable s) :
    ∃ a S pre post log, s = ⟨⟨a, pre ++ S :: post, S⟩, log⟩ ∧ Shape a S pre post := by
  obtain ⟨self, p, ex, ops, hnew, hal, hrun⟩ := h
  obtain ⟨hex, hsh⟩ := new_shape hnew
  subst hex
  obtain ⟨pre2, post2, log2, h2, hsh2, _⟩ :=
    run_invariant (fun _ => True) (fun _ _ _ => True)
      (fun _ _ _ _ _ _ _ _ _ _ _ _ _ => trivial) ops [] [] [] hsh trivial
      (fun _ _ => trivial) hal
  unfold fresh at hrun
  rw [h2] at hrun
  cases hrun
  exact ⟨self, _, pre2, post2, log2, rfl, hsh2⟩

theorem run_append (act : ActionSem) (s : State) (ops1 ops2 : List Op) :
    run act s (ops1 ++ ops2) =
      match run act s ops1 with
      | .ok s1 => run act s1 ops2
      | .error f => .error f := by
  induction ops1 generalizing s with
  | nil => rfl
  | cons op rest ih =>
    simp only [List.cons_append, run]
    cases hst : step act s op with
    | error f => rfl
    | ok v => exact ih v.1

theorem allocsOk_append (act : ActionSem) (s s1 : State) (ops1 ops2 : List Op)
    (hrun : run act s ops1 = .ok s1) :
    allocsOk act s (ops1 ++ ops2) = (allocsOk act s ops1 && allocsOk act s1 ops2) := by
  induction ops1 generalizing s with
  | nil =>
    simp only [run] at hrun
    cases hrun
    simp [allocsOk]
  | cons op rest ih =>
    simp only [run] at hrun
    simp only [List.cons_append, allocsOk]
    cases hst : step act s op with
    | error f => rw [hst] at hrun; cases hrun
    | ok v =>
      rw [hst] at hrun
      have ih2 := ih v.1 hrun
      show (allocOk s op && allocsOk act v.1 (rest ++ ops2)) = _
      rw [ih2, Bool.and_assoc]

/-- A reachable state followed by one more call is reachable. -/
theorem Reachable.step {s s1 : State} {op : Op} {r : Nat} (h : Reachable s)
    (hal : allocOk s op = true) (hst : Exec.step noReentry s op = .ok (s1, r)) :
    Reachable s1 := by
  obtain ⟨self, p, ex, ops, hnew, hals, hrun⟩ := h
  refine ⟨self, p, ex, ops ++ [op], hnew, ?_, ?_⟩
  · rw [allocsOk_append _ _ _ _ _ hrun, hals]
    simp [allocsOk, hal, hst]
  · rw [run_append, hrun]
    simp [run, hst]

/-! ## Firing order -/

/-- Two events with the same time, inserted one after the other into a
time-ordered list: the second is linked immediately in front of the first. -/
theorem insert_sorted_tie (l : List Event) (A B : Event) (hs : TimeSorted l)
    (hAB : B.scheduledTime = A.scheduledTime) :
    ∃ l1 l2, l = l1 ++ l2 ∧
      g_list_insert_sorted (g_list_insert_sorted l A executiveEventComparator) B
        executiveEventComparator = l1 ++ B :: A :: l2 ∧
      (∀ x ∈ l1, lexLt x.scheduledTime A.scheduledTime) ∧
      (∀ x ∈ l2, lexLe A.scheduledTime x.scheduledTime) := by
  obtain ⟨l1, l2, h1, h2, h3, h4⟩ := insert_sorted_split l A hs
  refine ⟨l1, l2, h1, ?_, h3, h4⟩
  rw [h2, insert_sorted_append_pass l1 (A :: l2) B executiveEventComparator]
  · have hstop : ¬ executiveEventComparator B A > 0 := by
      rw [comparator_pos_iff, hAB]
      exact lexLt_irrefl _
    simp [g_list_insert_sorted, hstop]
  · intro x hx
    rw [comparator_pos_iff, hAB]
    exact h3 x hx

/-- As many fires as there are user events in front remove exactly those. -/
theorem run_fires_front (l1 : List Event) :
    ∀ (nows : List Timeval) (a : Nat) (S : Event) (rest : List Event) (log : List Call),
      nows.length = l1.length → (∀ x ∈ l1, x.addr ≠ S.addr) →
      ∃ log2, run noReentry ⟨⟨a, l1 ++ rest, S⟩, log⟩ (nows.map Op.fire) =
        .ok ⟨⟨a, rest, S⟩, log2⟩ := by
  induction l1 with
  | nil =>
    intro nows a S rest log hlen _
    have : nows = [] := List.length_eq_zero.1 (by simpa using hlen)
    subst this
    exact ⟨log, rfl⟩
  | cons x xs ih =>
    intro nows a S rest log hlen hne
    cases nows with
    | nil => simp at hlen
    | cons n ns =>
      have hx : x.addr ≠ S.addr := hne x (by simp)
      obtain ⟨log2, h2⟩ := ih ns a S rest
        (executiveEventFree x (if x.action ≠ 0 then log ++ [Call.action x.action x n] else log))
        (by simpa using hlen) (fun y hy => hne y (by simp [hy]))
      refine ⟨log2, ?_⟩
      simp only [List.map_cons, run, step, List.cons_append, fire_head _ _ _ _ _ _ hx, h2]

/-- The number of events strictly earlier than `t` in a list split around `t`. -/
theorem filter_earlier_length (l1 l2 : List Event) (t : Timeval)
    (h1 : ∀ x ∈ l1, lexLt x.scheduledTime t) (h2 : ∀ x ∈ l2, lexLe t x.scheduledTime) :
    ((l1 ++ l2).filter fun e => decide (lexLt e.scheduledTime t)).length = l1.length := by
  rw [List.filter_append]
  have e1 : l1.filter (fun e => decide (lexLt e.scheduledTime t)) = l1 := by
    rw [List.filter_eq_self]
    intro x hx
    simpa using h1 x hx
  have e2 : l2.filter (fun e => decide (lexLt e.scheduledTime t)) = [] := by
    rw [List.filter_eq_nil_iff]
    intro x hx
    simpa using (not_lexLt_iff _ _).2 (h2 x hx)
  simp [e1, e2]

theorem firedEvents_fire (x : Event) (log : List Call) (now : Timeval) (hx : x.action ≠ 0) :
    firedEvents (executiveEventFree x
      (if x.action ≠ 0 then log ++ [Call.action x.action x now] else log)) =
      firedEvents log ++ [x] := by
  rw [firedEvents_eventFree]
  simp [hx, firedEvents, List.filterMap_append]

/-- C1 (as stated, refuted): on a fresh scheduler, add "A" (action 10) and then
"B" (action 11), both at time {5,0}, and fire twice: the actions run in the
order B, A, not in the order A, B that the claim promises. -/
theorem tie_fifo_counterexample :
    ∃ ex s, executiveNew 1 2 = some ex ∧
      allocsOk noReentry (fresh ex)
        [.add 3 ⟨5, 0⟩ 10, .add 4 ⟨5, 0⟩ 11, .fire ⟨9, 0⟩, .fire ⟨9, 0⟩] = true ∧
      run noReentry (fresh ex)
        [.add 3 ⟨5, 0⟩ 10, .add 4 ⟨5, 0⟩ 11, .fire ⟨9, 0⟩, .fire ⟨9, 0⟩] = .ok s ∧
      (firedEvents s.log).map Event.action = [11, 10] ∧
      (firedEvents s.log).map Event.action ≠ [10, 11] :=
  ⟨_, _, rfl, rfl, rfl, by decide, by decide⟩

/-- C1 (amended): newest first within a tie.  In every reachable scheduler, when
an event A and then an event B are added with the same scheduled time `t` not
later than armageddon, both with a non-null action, then after the `k` fires
that consume the `k` pending events strictly earlier than `t`, the next two
fires call the action of B first and the action of A second. -/
theorem tie_fires_newest_first (s : State) (hr : Reachable s) (t : Timeval)
    (ht : lexLe t ARMAGEDDON) (opA opB : Op) (A B : Event)
    (hA : opA.newEvent s.exec.addr = some A) (hB : opB.newEvent s.exec.addr = some B)
    (htA : A.scheduledTime = t) (htB : B.scheduledTime = t)
    (haA : A.action ≠ 0) (haB : B.action ≠ 0)
    (hal : allocsOk noReentry s [opA, opB] = true)
    (nows : List Timeval) (n1 n2 : Timeval)
    (hk : nows.length =
      (s.exec.events.filter fun e => decide (lexLt e.scheduledTime t)).length) :
    ∃ s1 s2, run noReentry s ([opA, opB] ++ nows.map Op.fire) = .ok s1 ∧
      run noReentry s1 [.fire n1, .fire n2] = .ok s2 ∧
      firedEvents s2.log = firedEvents s1.log ++ [B, A] := by
  obtain ⟨a, S, pre, post, log, rfl, hsh⟩ := hr.shape
  simp only [allocsOk, Bool.and_eq_true] at hal
  obtain ⟨pre1, post1, log1, r1, hst1, hsh1, hrel1⟩ := step_shape log opA hsh hal.1
  have hal2 := hal.2
  rw [hst1] at hal2
  simp only [Bool.and_eq_true] at hal2
  obtain ⟨pre2, post2, log2, r2, hst2, hsh2, hrel2⟩ := step_shape log1 opB hsh1 hal2.1
  simp only [StepRel, hA] at hrel1
  simp only [StepRel, hB] at hrel2
  have hnltA : ¬ lexLt ARMAGEDDON A.scheduledTime := by
    rw [htA]; exact (not_lexLt_iff _ _).2 ht
  have hnltB : ¬ lexLt ARMAGEDDON B.scheduledTime := by
    rw [htB]; exact (not_lexLt_iff _ _).2 ht
  obtain ⟨hl1, -, hp1⟩ := hrel1
  obtain ⟨hl2, -, hp2⟩ := hrel2
  rcases hp1 with ⟨-, hpre1, hpost1⟩ | ⟨h, -⟩
  swap
  · exact absurd h hnltA
  rcases hp2 with ⟨-, hpre2, hpost2⟩ | ⟨h, -⟩
  swap
  · exact absurd h hnltB
  subst hl1 hl2 hpost1 hpost2
  have hspre : TimeSorted pre := by
    have := hsh.sorted
    unfold TimeSorted at this
    rw [List.pairwise_append] at this
    exact this.1
  obtain ⟨l1, l2, hsplit, htie, hlt, hle⟩ :=
    insert_sorted_tie pre A B hspre (by rw [htA, htB])
  rw [hpre1] at hpre2
  rw [htie] at hpre2
  have hcount : nows.length = l1.length := by
    rw [hk]
    show ((pre ++ S :: post2).filter fun e => decide (lexLt e.scheduledTime t)).length = _
    rw [hsplit, List.append_assoc]
    apply filter_earlier_length
    · intro x hx; rw [← htA]; exact hlt x hx
    · intro x hx
      rcases List.mem_append.1 hx with hx | hx
      · rw [← htA]; exact hle x hx
      · rcases List.mem_cons.1 hx with rfl | hx
        · rw [hsh.sentinel_time]; exact ht
        · exact lexLe_trans ht (lexLe_of_lt (hsh.late x hx))
  subst hpre2
  have hne := hsh2.pre_ne
  obtain ⟨log3, hfires⟩ := run_fires_front l1 nows a S (B :: A :: l2 ++ S :: post2) log2
    hcount (fun x hx => hne x (by simp [hx]))
  have hBne : B.addr ≠ S.addr := hne B (by simp)
  have hAne : A.addr ≠ S.addr := hne A (by simp)
  refine ⟨⟨⟨a, B :: A :: l2 ++ S :: post2, S⟩, log3⟩,
    ⟨⟨a, l2 ++ S :: post2, S⟩, executiveEventFree A
      (if A.action ≠ 0 then
        executiveEventFree B
          (if B.action ≠ 0 then log3 ++ [Call.action B.action B n1] else log3) ++
          [Call.action A.action A n2]
       else executiveEventFree B
          (if B.action ≠ 0 then log3 ++ [Call.action B.action B n1] else log3))⟩, ?_, ?_, ?_⟩
  · simp only [List.cons_append, List.nil_append, run, hst1, hst2]
    simpa using hfires
  · simp only [run, step, List.cons_append, fire_head _ _ _ _ _ _ hBne,
      fire_head _ _ _ _ _ _ hAne]
  · simp only [firedEvents_fire _ _ _ haA, firedEvents_fire _ _ _ haB, List.append_assoc,
      List.singleton_append]

/-- C1 (amended), at a concrete input: an event at {1,0} is pending, A and B are
added at {5,0}; after one fire the next two fires call B, then A. -/
theorem tie_fires_newest_first_witness :
    ∃ s1 s2,
      run noReentry ⟨⟨1, [⟨5, 1, ⟨1, 0⟩, 9, 0, 0⟩, ⟨2, 0, ARMAGEDDON, 0, 0, 0⟩],
          ⟨2, 0, ARMAGEDDON, 0, 0, 0⟩⟩, []⟩
        ([.add 3 ⟨5, 0⟩ 10, .add 4 ⟨5, 0⟩ 11] ++ [(⟨8, 0⟩ : Timeval)].map Op.fire) = .ok s1 ∧
      run noReentry s1 [.fire ⟨9, 0⟩, .fire ⟨9, 1⟩] = .ok s2 ∧
      firedEvents s2.log = firedEvents s1.log ++
        [⟨4, 1, ⟨5, 0⟩, 11, 0, 0⟩, ⟨3, 1, ⟨5, 0⟩, 10, 0, 0⟩] :=
  tie_fires_newest_first _ ⟨1, 2, _, [.add 5 ⟨1, 0⟩ 9], rfl, rfl, rfl⟩ ⟨5, 0⟩ (by decide)
    (.add 3 ⟨5, 0⟩ 10) (.add 4 ⟨5, 0⟩ 11) _ _ rfl rfl rfl rfl (by decide) (by decide)
    (by decide) [⟨8, 0⟩] ⟨9, 0⟩ ⟨9, 1⟩ (by decide)

/-! ## Insertion -/

/-- An add call whose allocation succeeded links the new record with
`g_list_insert_sorted` and returns the new length. -/
theorem step_add_eq (act : ActionSem) (s : State) (op : Op) (e : Event)
    (he : op.newEvent s.exec.addr = some e) (hp : e.addr ≠ 0) :
    step act s op =
      .ok (s.setEvents (g_list_insert_sorted s.exec.events e executiveEventComparator),
        executiveLength
          (s.setEvents (g_list_insert_sorted s.exec.events e executiveEventComparator)).exec) := by
  cases op <;> simp only [Op.newEvent, Option.some.injEq] at he <;> first
    | (subst he
       have hp2 : ¬ (_ : Nat) = 0 := hp
       simp only [step, executiveAdd, executiveAddWithEnv, executiveAddWithFreeFunc,
         executiveAddImpl, executiveEventNew, executiveEventInit] at hp2 ⊢
       simp only [hp2, if_false])
    | cases he

/-- C2 (as stated, refuted): the list holds A at {5,0} in front of the sentinel;
adding B at {5,0} links B in front of A, although the time of A is not later
than the new time, so B does not sit after all events with time at most `t`. -/
theorem insert_position_counterexample :
    executiveAdd
        ⟨⟨1, [⟨3, 1, ⟨5, 0⟩, 10, 0, 0⟩, ⟨2, 0, ARMAGEDDON, 0, 0, 0⟩],
          ⟨2, 0, ARMAGEDDON, 0, 0, 0⟩⟩, []⟩ 4 ⟨5, 0⟩ 11 =
      .ok (⟨⟨1, [⟨4, 1, ⟨5, 0⟩, 11, 0, 0⟩, ⟨3, 1, ⟨5, 0⟩, 10, 0, 0⟩,
          ⟨2, 0, ARMAGEDDON, 0, 0, 0⟩], ⟨2, 0, ARMAGEDDON, 0, 0, 0⟩⟩, []⟩, 2) ∧
      TimeSorted [⟨3, 1, ⟨5, 0⟩, 10, 0, 0⟩, ⟨2, 0, ARMAGEDDON, 0, 0, 0⟩] ∧
      lexLe (⟨3, 1, ⟨5, 0⟩, 10, 0, 0⟩ : Event).scheduledTime ⟨5, 0⟩ := by
  refine ⟨rfl, ?_, by decide⟩
  simp only [TimeSorted, List.pairwise_cons, List.mem_cons, List.mem_singleton, forall_eq_or_imp,
    forall_eq, List.not_mem_nil, false_implies, implies_true, List.Pairwise.nil, and_true]
  decide

/-- C2 (amended): for a time-ordered list, each add call (with a successful
allocation) links the new event after all previously present events whose time
is strictly earlier than the new time and in front of every previously present
event whose time is equal to or later than the new time; the previously present
events keep their order. -/
theorem insert_position (act : ActionSem) (s : State) (op : Op) (e : Event)
    (hs : TimeSorted s.exec.events) (he : op.newEvent s.exec.addr = some e)
    (hp : e.addr ≠ 0) :
    ∃ l1 l2, s.exec.events = l1 ++ l2 ∧
      step act s op = .ok (s.setEvents (l1 ++ e :: l2), s.exec.events.length) ∧
      (∀ x ∈ l1, lexLt x.scheduledTime e.scheduledTime) ∧
      (∀ x ∈ l2, lexLe e.scheduledTime x.scheduledTime) := by
  obtain ⟨l1, l2, h1, h2, h3, h4⟩ := insert_sorted_split s.exec.events e hs
  refine ⟨l1, l2, h1, ?_, h3, h4⟩
  have hlen : executiveLength (s.setEvents (l1 ++ e :: l2)).exec = s.exec.events.length := by
    simp only [executiveLength, State.setEvents, g_list_length_eq, ← h2, insert_sorted_length]
    omega
  rw [step_add_eq act s op e he hp, h2, hlen]

/-- C2 (amended), at a concrete input: events at {1,0}, {5,0}, {7,0} are
pending and an event at {5,0} is added with `executiveAddWithEnv`. -/
theorem insert_position_witness :
    ∃ l1 l2,
      [(⟨3, 1, ⟨1, 0⟩, 10, 0, 0⟩ : Event), ⟨4, 1, ⟨5, 0⟩, 10, 0, 0⟩, ⟨5, 1, ⟨7, 0⟩, 10, 0, 0⟩,
        ⟨2, 0, ARMAGEDDON, 0, 0, 0⟩] = l1 ++ l2 ∧
      step noReentry
        ⟨⟨1, [⟨3, 1, ⟨1, 0⟩, 10, 0, 0⟩, ⟨4, 1, ⟨5, 0⟩, 10, 0, 0⟩, ⟨5, 1, ⟨7, 0⟩, 10, 0, 0⟩,
          ⟨2, 0, ARMAGEDDON, 0, 0, 0⟩], ⟨2, 0, ARMAGEDDON, 0, 0, 0⟩⟩, []⟩
        (.addWithEnv 6 ⟨5, 0⟩ 11 77) =
        .ok ((⟨⟨1, [⟨3, 1, ⟨1, 0⟩, 10, 0, 0⟩, ⟨4, 1, ⟨5, 0⟩, 10, 0, 0⟩,
          ⟨5, 1, ⟨7, 0⟩, 10, 0, 0⟩, ⟨2, 0, ARMAGEDDON, 0, 0, 0⟩],
          ⟨2, 0, ARMAGEDDON, 0, 0, 0⟩⟩, []⟩ : State).setEvents
            (l1 ++ ⟨6, 1, ⟨5, 0⟩, 11, 77, 0⟩ :: l2), 4) ∧
      (∀ x ∈ l1, lexLt x.scheduledTime (⟨6, 1, ⟨5, 0⟩, 11, 77, 0⟩ : Event).scheduledTime) ∧
      (∀ x ∈ l2, lexLe (⟨6, 1, ⟨5, 0⟩, 11, 77, 0⟩ : Event).scheduledTime x.scheduledTime) :=
  insert_position noReentry
    ⟨⟨1, [⟨3, 1, ⟨1, 0⟩, 10, 0, 0⟩, ⟨4, 1, ⟨5, 0⟩, 10, 0, 0⟩, ⟨5, 1, ⟨7, 0⟩, 10, 0, 0⟩,
      ⟨2, 0, ARMAGEDDON, 0, 0, 0⟩], ⟨2, 0, ARMAGEDDON, 0, 0, 0⟩⟩, []⟩
    (.addWithEnv 6 ⟨5, 0⟩ 11 77) ⟨6, 1, ⟨5, 0⟩, 11, 77, 0⟩
    (by
      simp only [TimeSorted, List.pairwise_cons, List.mem_cons, List.mem_singleton,
        forall_eq_or_imp, forall_eq, List.not_mem_nil, false_implies, implies_true,
        List.Pairwise.nil, and_true]
      decide)
    rfl (by decide)

theorem allocsOk_append_left (act : ActionSem) (s : State) (ops1 ops2 : List Op)
    (h : allocsOk act s (ops1 ++ ops2) = true) : allocsOk act s ops1 = true := by
  induction ops1 generalizing s with
  | nil => rfl
  | cons op rest ih =>
    simp only [List.cons_append, allocsOk, Bool.and_eq_true] at h ⊢
    refine ⟨h.1, ?_⟩
    cases hst : step act s op with
    | error f => rfl
    | ok v =>
      have h2 := h.2
      rw [hst] at h2
      exact ih v.1 h2

theorem Shape.sorted_pre {a : Nat} {S : Event} {pre post : List Event}
    (h : Shape a S pre post) : TimeSorted pre := by
  have := h.sorted
  unfold TimeSorted at this
  rw [List.pairwise_append] at this
  exact this.1

/-- C3: for every sequence of add calls on a fresh scheduler (allocations
succeeding) followed by a sequence of executiveFire calls, with actions that do
not re-enter the scheduler, the run returns and the scheduled times of the
events handed to the actions, in call order, are non-decreasing in the
lexicographic order on (seconds, microseconds). -/
theorem fire_order (self p : Nat) (ex : Executive) (adds fires : List Op)
    (hnew : executiveNew self p = some ex)
    (hadds : ∀ op ∈ adds, op.alloc.isSome = true)
    (hfires : ∀ op ∈ fires, ∃ now, op = Op.fire now)
    (hal : allocsOk noReentry (fresh ex) (adds ++ fires) = true) :
    ∃ s, run noReentry (fresh ex) (adds ++ fires) = .ok s ∧
      ((firedEvents s.log).map executiveEventScheduledTime).Pairwise lexLe := by
  obtain ⟨hex, hsh⟩ := new_shape hnew
  subst hex
  obtain ⟨pre1, post1, log1, hrun1, hsh1, hlog1⟩ :=
    run_invariant (fun op => op.alloc.isSome = true) (fun _ _ log => log = [])
      (by
        intro op pre post log pre2 post2 log2 r hq _ hP hrel _
        cases op <;> simp [Op.alloc] at hq <;>
          simp only [StepRel, Op.newEvent] at hrel <;> rw [hrel.1, hP])
      adds [] [] [] hsh rfl hadds (allocsOk_append_left _ _ _ _ hal)
  subst hlog1
  have hal2 : allocsOk noReentry
      ⟨⟨self, pre1 ++ executiveEventInit p 0 ARMAGEDDON 0 0 0 :: post1,
        executiveEventInit p 0 ARMAGEDDON 0 0 0⟩, []⟩ fires = true := by
    have := allocsOk_append noReentry _ _ adds fires hrun1
    unfold fresh at hal
    rw [this, Bool.and_eq_true] at hal
    exact hal.2
  obtain ⟨pre2, post2, log2, hrun2, _, hP2⟩ :=
    run_invariant (fun op => ∃ now, op = Op.fire now)
      (fun pre _ log => TimeSorted (firedEvents log ++ pre))
      (by
        intro op pre post log pre2 post2 log2 r hq _ hP hrel _
        obtain ⟨now, rfl⟩ := hq
        simp only [StepRel, Op.newEvent, Op.matcher] at hrel
        rcases hrel.2.2 with ⟨h1, h2, h3⟩ | ⟨x, h1, h2⟩
        · rw [h2, h3, ← h1]; exact hP
        · subst h1
          rw [h2, firedEvents_eventFree]
          by_cases hx : x.action ≠ 0
          · rw [if_pos hx]
            have : firedEvents (log ++ [Call.action x.action x now]) = firedEvents log ++ [x] := by
              simp [firedEvents, List.filterMap_append]
            rw [this]
            simpa using hP
          · rw [if_neg hx]
            refine List.Pairwise.sublist ?_ hP
            exact List.Sublist.append (List.Sublist.refl _) (List.sublist_cons_self _ _))
      fires pre1 post1 [] hsh1 (by simpa [firedEvents] using hsh1.sorted_pre) hfires hal2
  refine ⟨⟨⟨self, pre2 ++ executiveEventInit p 0 ARMAGEDDON 0 0 0 :: post2,
    executiveEventInit p 0 ARMAGEDDON 0 0 0⟩, log2⟩, ?_, ?_⟩
  · unfold fresh
    rw [run_append, hrun1]
    exact hrun2
  · have h3 : TimeSorted (firedEvents log2) :=
      List.Pairwise.sublist (List.sublist_append_left _ _) hP2
    unfold TimeSorted at h3
    rw [List.pairwise_map]
    exact h3

/-- C3, at a concrete input: adds at {3,0}, {1,0}, {2,0} and three fires; the
recorded seconds are 1, 2, 3. -/
theorem fire_order_witness :
    (∃ s, run noReentry (fresh ⟨1, [⟨2, 0, ARMAGEDDON, 0, 0, 0⟩], ⟨2, 0, ARMAGEDDON, 0, 0, 0⟩⟩)
        ([.add 3 ⟨3, 0⟩ 10, .add 4 ⟨1, 0⟩ 10, .add 5 ⟨2, 0⟩ 10] ++
          [.fire ⟨9, 0⟩, .fire ⟨9, 0⟩, .fire ⟨9, 0⟩]) = .ok s ∧
      ((firedEvents s.log).map executiveEventScheduledTime).Pairwise lexLe) ∧
    (run noReentry (fresh ⟨1, [⟨2, 0, ARMAGEDDON, 0, 0, 0⟩], ⟨2, 0, ARMAGEDDON, 0, 0, 0⟩⟩)
        ([.add 3 ⟨3, 0⟩ 10, .add 4 ⟨1, 0⟩ 10, .add 5 ⟨2, 0⟩ 10] ++
          [.fire ⟨9, 0⟩, .fire ⟨9, 0⟩, .fire ⟨9, 0⟩])).map
      (fun s => (firedEvents s.log).map fun e => (executiveEventScheduledTime e).tv_sec) =
      .ok [1, 2, 3] :=
  ⟨fire_order 1 2 ⟨1, [⟨2, 0, ARMAGEDDON, 0, 0, 0⟩], ⟨2, 0, ARMAGEDDON, 0, 0, 0⟩⟩
      [.add 3 ⟨3, 0⟩ 10, .add 4 ⟨1, 0⟩ 10, .add 5 ⟨2, 0⟩ 10]
      [.fire ⟨9, 0⟩, .fire ⟨9, 0⟩, .fire ⟨9, 0⟩] rfl (by decide)
      (by
        intro op hop
        simp only [List.mem_cons, List.mem_singleton, List.not_mem_nil, or_false] at hop
        rcases hop with rfl | rfl | rfl <;> exact ⟨_, rfl⟩)
      rfl,
    rfl⟩

/-! ## Invariants of the list -/

/-- C4: the event list of every scheduler reachable from executiveNew (the
fresh scheduler included) is ordered non-decreasing by scheduled time, and each
of the operations add, add with env, add with free function, fire, clear and
the four clear-matching variants returns and leaves the list ordered. -/
theorem sorted_invariant (s : State) (hr : Reachable s) :
    TimeSorted s.exec.events ∧
      ∀ op, allocOk s op = true →
        ∃ s1 r, step noReentry s op = .ok (s1, r) ∧ TimeSorted s1.exec.events := by
  obtain ⟨a, S, pre, post, log, rfl, hsh⟩ := hr.shape
  refine ⟨hsh.sorted, ?_⟩
  intro op hal
  obtain ⟨pre2, post2, log2, r, h1, hsh2, _⟩ := step_shape log op hsh hal
  exact ⟨_, r, h1, hsh2.sorted⟩

/-- C4, at a concrete input: the fresh scheduler, and an add at {4,0} into a
list holding an event at {7,0}. -/
theorem sorted_invariant_witness :
    (TimeSorted (fresh ⟨1, [⟨2, 0, ARMAGEDDON, 0, 0, 0⟩],
        ⟨2, 0, ARMAGEDDON, 0, 0, 0⟩⟩).exec.events ∧
      ∀ op, allocOk (fresh ⟨1, [⟨2, 0, ARMAGEDDON, 0, 0, 0⟩],
          ⟨2, 0, ARMAGEDDON, 0, 0, 0⟩⟩) op = true →
        ∃ s1 r, step noReentry (fresh ⟨1, [⟨2, 0, ARMAGEDDON, 0, 0, 0⟩],
          ⟨2, 0, ARMAGEDDON, 0, 0, 0⟩⟩) op = .ok (s1, r) ∧ TimeSorted s1.exec.events) ∧
    (TimeSorted (⟨⟨1, [⟨3, 1, ⟨7, 0⟩, 10, 0, 0⟩, ⟨2, 0, ARMAGEDDON, 0, 0, 0⟩],
        ⟨2, 0, ARMAGEDDON, 0, 0, 0⟩⟩, []⟩ : State).exec.events ∧
      ∀ op, allocOk (⟨⟨1, [⟨3, 1, ⟨7, 0⟩, 10, 0, 0⟩, ⟨2, 0, ARMAGEDDON, 0, 0, 0⟩],
          ⟨2, 0, ARMAGEDDON, 0, 0, 0⟩⟩, []⟩ : State) op = true →
        ∃ s1 r, step noReentry (⟨⟨1, [⟨3, 1, ⟨7, 0⟩, 10, 0, 0⟩, ⟨2, 0, ARMAGEDDON, 0, 0, 0⟩],
          ⟨2, 0, ARMAGEDDON, 0, 0, 0⟩⟩, []⟩ : State) op = .ok (s1, r) ∧
          TimeSorted s1.exec.events) :=
  ⟨sorted_invariant _ ⟨1, 2, _, [], rfl, rfl, rfl⟩,
    sorted_invariant _ ⟨1, 2, _, [.add 3 ⟨7, 0⟩ 10], rfl, rfl, rfl⟩⟩

/-- C5: in every reachable scheduler executivePeek returns a time (the time of
the head) that is not later than the scheduled time of any event in the list,
in particular of any pending user event, and it returns the scheduler
unchanged. -/
theorem peek_earliest (s : State) (hr : Reachable s) :
    ∃ t, executivePeek s.exec = (s.exec, some t) ∧
      (∀ e ∈ s.exec.events, lexLe t e.scheduledTime) ∧
      (∀ e ∈ userEvents s.exec, lexLe t e.scheduledTime) := by
  obtain ⟨a, S, pre, post, log, rfl, hsh⟩ := hr.shape
  have hs := hsh.sorted
  have key : ∀ l : List Event, l ≠ [] → TimeSorted l →
      ∃ t, (g_list_nth_data l 0).map (fun h => h.scheduledTime) = some t ∧
        ∀ e ∈ l, lexLe t e.scheduledTime := by
    intro l hl hsl
    cases l with
    | nil => exact absurd rfl hl
    | cons x xs =>
      refine ⟨x.scheduledTime, rfl, ?_⟩
      intro e he
      rcases List.mem_cons.1 he with rfl | he
      · exact lexLe_refl _
      · exact (List.pairwise_cons.1 hsl).1 e he
  obtain ⟨t, ht1, ht2⟩ := key (pre ++ S :: post) (by simp) hs
  refine ⟨t, ?_, ht2, ?_⟩
  · simp only [executivePeek, ht1]
  · intro e he
    exact ht2 e (List.mem_of_mem_filter he)

/-- C5, at a concrete input: events at {3,0} and {1,0} were added; peek
returns {1,0}. -/
theorem peek_earliest_witness :
    executivePeek (⟨⟨1, [⟨4, 1, ⟨1, 0⟩, 10, 0, 0⟩, ⟨3, 1, ⟨3, 0⟩, 10, 0, 0⟩,
        ⟨2, 0, ARMAGEDDON, 0, 0, 0⟩], ⟨2, 0, ARMAGEDDON, 0, 0, 0⟩⟩, []⟩ : State).exec =
      ((⟨⟨1, [⟨4, 1, ⟨1, 0⟩, 10, 0, 0⟩, ⟨3, 1, ⟨3, 0⟩, 10, 0, 0⟩,
        ⟨2, 0, ARMAGEDDON, 0, 0, 0⟩], ⟨2, 0, ARMAGEDDON, 0, 0, 0⟩⟩, []⟩ : State).exec,
        some ⟨1, 0⟩) ∧
    ∃ t, executivePeek (⟨⟨1, [⟨4, 1, ⟨1, 0⟩, 10, 0, 0⟩, ⟨3, 1, ⟨3, 0⟩, 10, 0, 0⟩,
        ⟨2, 0, ARMAGEDDON, 0, 0, 0⟩], ⟨2, 0, ARMAGEDDON, 0, 0, 0⟩⟩, []⟩ : State).exec =
      ((⟨⟨1, [⟨4, 1, ⟨1, 0⟩, 10, 0, 0⟩, ⟨3, 1, ⟨3, 0⟩, 10, 0, 0⟩,
        ⟨2, 0, ARMAGEDDON, 0, 0, 0⟩], ⟨2, 0, ARMAGEDDON, 0, 0, 0⟩⟩, []⟩ : State).exec,
        some t) ∧
      (∀ e ∈ (⟨⟨1, [⟨4, 1, ⟨1, 0⟩, 10, 0, 0⟩, ⟨3, 1, ⟨3, 0⟩, 10, 0, 0⟩,
        ⟨2, 0, ARMAGEDDON, 0, 0, 0⟩], ⟨2, 0, ARMAGEDDON, 0, 0, 0⟩⟩, []⟩ : State).exec.events,
        lexLe t e.scheduledTime) ∧
      (∀ e ∈ userEvents (⟨⟨1, [⟨4, 1, ⟨1, 0⟩, 10, 0, 0⟩, ⟨3, 1, ⟨3, 0⟩, 10, 0, 0⟩,
        ⟨2, 0, ARMAGEDDON, 0, 0, 0⟩], ⟨2, 0, ARMAGEDDON, 0, 0, 0⟩⟩, []⟩ : State).exec,
        lexLe t e.scheduledTime) :=
  ⟨rfl, peek_earliest _ ⟨1, 2, _, [.add 3 ⟨3, 0⟩ 10, .add 4 ⟨1, 0⟩ 10], rfl, rfl, rfl⟩⟩

/-! ## Schedulers without events later than armageddon -/

/-- When no event of the list is later than armageddon, nothing follows the
sentinel. -/
theorem Shape.post_nil {a : Nat} {S : Event} {pre post : List Event}
    (h : Shape a S pre post)
    (hle : ∀ e ∈ pre ++ S :: post, lexLe e.scheduledTime ARMAGEDDON) : post = [] := by
  cases post with
  | nil => rfl
  | cons x xs =>
    exfalso
    have h1 := h.late x (by simp)
    have h2 := hle x (by simp)
    exact lexLt_irrefl _ (lexLt_of_lt_of_le h1 h2)

theorem userEvents_shape {a : Nat} {S : Event} {pre post : List Event}
    (h : Shape a S pre post) : userEvents ⟨a, pre ++ S :: post, S⟩ = pre ++ post := by
  have e1 : pre.filter (fun e => decide (e.addr ≠ S.addr)) = pre := by
    rw [List.filter_eq_self]
    intro x hx
    simpa using h.pre_ne x hx
  have e2 : post.filter (fun e => decide (e.addr ≠ S.addr)) = post := by
    rw [List.filter_eq_self]
    intro x hx
    simpa using h.post_ne x hx
  simp only [userEvents, List.filter_append, List.filter_cons, e1, e2]
  simp

theorem executiveLength_shape (a : Nat) (S : Event) (pre post : List Event) :
    executiveLength ⟨a, pre ++ S :: post, S⟩ = pre.length + post.length := by
  simp only [executiveLength, g_list_length_eq, List.length_append, List.length_cons]
  omega

/-- C6 (the code at the failing input): after one add of an event with action
10 at {2147483648, 0}, one second after INT_MAX, the scheduler is reachable,
executiveLength is 1 and that event is pending; the head of the list is the
sentinel, so executiveFire, whatever the action does and whatever actual time
is passed, returns with the scheduler as it was: nothing is removed, the
length stays 1 and the action is not called. -/
theorem fire_skips_late_event :
    ∃ s, Reachable s ∧ 0 < executiveLength s.exec ∧
      (∃ e ∈ userEvents s.exec, e.action = 10) ∧ s.log = [] ∧
      ∀ (act : ActionSem) (actualTime : Timeval), executiveFire act s actualTime = .ok s :=
  ⟨⟨⟨1, [⟨2, 0, ARMAGEDDON, 0, 0, 0⟩, ⟨3, 1, ⟨2147483648, 0⟩, 10, 0, 0⟩],
      ⟨2, 0, ARMAGEDDON, 0, 0, 0⟩⟩, []⟩,
    ⟨1, 2, _, [.add 3 ⟨2147483648, 0⟩ 10], rfl, rfl, rfl⟩, by decide,
    ⟨⟨3, 1, ⟨2147483648, 0⟩, 10, 0, 0⟩, by decide, rfl⟩, rfl, fun _ _ => rfl⟩

/-- In every reachable scheduler with executiveLength > 0 in which
no pending event is later than armageddon, executiveFire (with an action that
does not re-enter) unlinks exactly the head event, which is a user event:
the other events stay in order and the length drops by one.  When the action of
the head is non-null the log gains exactly one action call, with the head as
handle (so `executiveEventEnv` of the handle is the stored env) and the given
actual time, followed by the destructor call of the disposal if there is one;
when the action is null no action call is logged. -/
theorem fire_effect (s : State) (hr : Reachable s) (actual : Timeval)
    (hlen : 0 < executiveLength s.exec)
    (hle : ∀ e ∈ s.exec.events, lexLe e.scheduledTime ARMAGEDDON) :
    ∃ h rest, s.exec.events = h :: rest ∧ h.addr ≠ s.exec.sentinel.addr ∧
      executiveFire noReentry s actual =
        .ok ⟨{ s.exec with events := rest },
          executiveEventFree h
            (if h.action ≠ 0 then s.log ++ [Call.action h.action h actual] else s.log)⟩ ∧
      executiveLength { s.exec with events := rest } + 1 = executiveLength s.exec ∧
      firedEvents (executiveEventFree h
            (if h.action ≠ 0 then s.log ++ [Call.action h.action h actual] else s.log)) =
        firedEvents s.log ++ (if h.action ≠ 0 then [h] else []) := by
  obtain ⟨a, S, pre, post, log, rfl, hsh⟩ := hr.shape
  have hpost := hsh.post_nil hle
  subst hpost
  rw [executiveLength_shape] at hlen
  cases pre with
  | nil => simp at hlen
  | cons x xs =>
    have hx : x.addr ≠ S.addr := hsh.pre_ne x (by simp)
    refine ⟨x, xs ++ [S], rfl, hx, fire_head _ _ _ _ _ _ hx, ?_, ?_⟩
    · simp only [executiveLength, g_list_length_eq, List.length_append, List.length_cons,
        List.length_nil, List.cons_append]
      omega
    · rw [firedEvents_eventFree]
      by_cases ha : x.action ≠ 0
      · simp [ha, firedEvents, List.filterMap_append]
      · simp [ha]

/-- At a concrete input of the theorem above: with `i` at address 100,
`executiveAddWithEnv (S, {21,22}, increment, &i)` and then one fire: the
action is called once with env `&i`, and the length is 0 afterwards. -/
theorem fire_effect_witness :
    (∃ h rest,
      (⟨⟨1, [⟨3, 1, ⟨21, 22⟩, 7, 100, 0⟩, ⟨2, 0, ARMAGEDDON, 0, 0, 0⟩],
        ⟨2, 0, ARMAGEDDON, 0, 0, 0⟩⟩, []⟩ : State).exec.events = h :: rest ∧
      h.addr ≠ (⟨⟨1, [⟨3, 1, ⟨21, 22⟩, 7, 100, 0⟩, ⟨2, 0, ARMAGEDDON, 0, 0, 0⟩],
        ⟨2, 0, ARMAGEDDON, 0, 0, 0⟩⟩, []⟩ : State).exec.sentinel.addr ∧
      executiveFire noReentry
          ⟨⟨1, [⟨3, 1, ⟨21, 22⟩, 7, 100, 0⟩, ⟨2, 0, ARMAGEDDON, 0, 0, 0⟩],
            ⟨2, 0, ARMAGEDDON, 0, 0, 0⟩⟩, []⟩ ⟨50, 0⟩ =
        .ok ⟨{ (⟨⟨1, [⟨3, 1, ⟨21, 22⟩, 7, 100, 0⟩, ⟨2, 0, ARMAGEDDON, 0, 0, 0⟩],
            ⟨2, 0, ARMAGEDDON, 0, 0, 0⟩⟩, []⟩ : State).exec with events := rest },
          executiveEventFree h
            (if h.action ≠ 0 then [] ++ [Call.action h.action h ⟨50, 0⟩] else [])⟩ ∧
      executiveLength { (⟨⟨1, [⟨3, 1, ⟨21, 22⟩, 7, 100, 0⟩, ⟨2, 0, ARMAGEDDON, 0, 0, 0⟩],
            ⟨2, 0, ARMAGEDDON, 0, 0, 0⟩⟩, []⟩ : State).exec with events := rest } + 1 =
        executiveLength (⟨⟨1, [⟨3, 1, ⟨21, 22⟩, 7, 100, 0⟩, ⟨2, 0, ARMAGEDDON, 0, 0, 0⟩],
            ⟨2, 0, ARMAGEDDON, 0, 0, 0⟩⟩, []⟩ : State).exec ∧
      firedEvents (executiveEventFree h
            (if h.action ≠ 0 then [] ++ [Call.action h.action h ⟨50, 0⟩] else [])) =
        firedEvents [] ++ (if h.action ≠ 0 then [h] else [])) ∧
    (run noReentry (fresh ⟨1, [⟨2, 0, ARMAGEDDON, 0, 0, 0⟩], ⟨2, 0, ARMAGEDDON, 0, 0, 0⟩⟩)
        [.addWithEnv 3 ⟨21, 22⟩ 7 100, .fire ⟨50, 0⟩]).map
      (fun s => (s.log, executiveLength s.exec)) =
      .ok ([Call.action 7 ⟨3, 1, ⟨21, 22⟩, 7, 100, 0⟩ ⟨50, 0⟩], 0) :=
  ⟨fire_effect
      ⟨⟨1, [⟨3, 1, ⟨21, 22⟩, 7, 100, 0⟩, ⟨2, 0, ARMAGEDDON, 0, 0, 0⟩],
        ⟨2, 0, ARMAGEDDON, 0, 0, 0⟩⟩, []⟩
      ⟨1, 2, _, [.addWithEnv 3 ⟨21, 22⟩ 7 100], rfl, rfl, rfl⟩ ⟨50, 0⟩ (by decide)
      (by
        intro e he
        simp only [List.mem_cons, List.mem_singleton, List.not_mem_nil, or_false] at he
        rcases he with rfl | rfl <;> decide),
    rfl⟩

theorem filter_length_split (test : Event → Bool) (l : List Event) :
    (l.filter fun e => !test e).length + (l.filter test).length = l.length := by
  induction l with
  | nil => rfl
  | cons x xs ih =>
    cases hx : test x <;> simp [List.filter_cons, hx] <;> omega

/-- One call on a list with nothing behind the sentinel, no add later than
armageddon: nothing is behind the sentinel afterwards and the counts move with
the length. -/
theorem stepRel_tally {a : Nat} {S : Event} {op : Op} {pre pre2 post2 : List Event}
    {log log2 : List Call} {r : Nat} (t : Tally)
    (hrel : StepRel a op pre [] log pre2 post2 log2 r)
    (ht : ∀ tv, op.addTime = some tv → lexLe tv ARMAGEDDON) :
    post2 = [] ∧
      pre2.length + (t.record ⟨⟨a, pre ++ [S], S⟩, log⟩ op r).fires +
          (t.record ⟨⟨a, pre ++ [S], S⟩, log⟩ op r).removed + t.adds =
        pre.length + t.fires + t.removed +
          (t.record ⟨⟨a, pre ++ [S], S⟩, log⟩ op r).adds := by
  have hadd : ∀ e : Event, lexLe e.scheduledTime ARMAGEDDON → Placed e pre [] pre2 post2 →
      post2 = [] ∧ pre2.length = pre.length + 1 := by
    intro e hle hpl
    rcases hpl with ⟨-, h1, h2⟩ | ⟨h, -⟩
    · exact ⟨h2, by rw [h1, insert_sorted_length]⟩
    · exact absurd h ((not_lexLt_iff _ _).2 hle)
  have hlen : executiveLength ⟨a, pre ++ [S], S⟩ = pre.length := by
    rw [executiveLength_shape]; rfl
  cases op with
  | add p tv ac =>
    simp only [StepRel, Op.newEvent] at hrel
    obtain ⟨h1, h2⟩ := hadd _ (ht tv rfl) hrel.2.2
    simp only [Tally.record]
    exact ⟨h1, by omega⟩
  | addWithEnv p tv ac env =>
    simp only [StepRel, Op.newEvent] at hrel
    obtain ⟨h1, h2⟩ := hadd _ (ht tv rfl) hrel.2.2
    simp only [Tally.record]
    exact ⟨h1, by omega⟩
  | addWithFreeFunc p tv ac env fr =>
    simp only [StepRel, Op.newEvent] at hrel
    obtain ⟨h1, h2⟩ := hadd _ (ht tv rfl) hrel.2.2
    simp only [Tally.record]
    exact ⟨h1, by omega⟩
  | fire now =>
    simp only [StepRel, Op.newEvent, Op.matcher] at hrel
    obtain ⟨h1, -, h3⟩ := hrel
    refine ⟨h1, ?_⟩
    simp only [Tally.record, hlen]
    rcases h3 with ⟨h4, h5, -⟩ | ⟨x, h4, -⟩
    · subst h4 h5
      simp
    · subst h4
      simp
      omega
  | clear =>
    simp only [StepRel, Op.newEvent, Op.matcher] at hrel
    obtain ⟨h1, h2, -, h4⟩ := hrel
    subst h1 h4
    simp only [Tally.record]
    exact ⟨h2, by simp; omega⟩
  | clearMatchingTime tv =>
    simp only [StepRel, Op.newEvent, Op.matcher] at hrel
    obtain ⟨h1, h2, -, h4⟩ := hrel
    have := filter_length_split (fun e => decide (e.scheduledTime = tv)) pre
    subst h1 h4
    simp only [Tally.record]
    exact ⟨h2, by omega⟩
  | clearMatchingAction ac =>
    simp only [StepRel, Op.newEvent, Op.matcher] at hrel
    obtain ⟨h1, h2, -, h4⟩ := hrel
    have := filter_length_split (fun e => decide (e.action = ac)) pre
    subst h1 h4
    simp only [Tally.record]
    exact ⟨h2, by omega⟩
  | clearMatchingEnv env =>
    simp only [StepRel, Op.newEvent, Op.matcher] at hrel
    obtain ⟨h1, h2, -, h4⟩ := hrel
    have := filter_length_split (fun e => decide (e.env = env)) pre
    subst h1 h4
    simp only [Tally.record]
    exact ⟨h2, by omega⟩
  | clearMatchingActionAndEnv ac env =>
    simp only [StepRel, Op.newEvent, Op.matcher] at hrel
    obtain ⟨h1, h2, -, h4⟩ := hrel
    have := filter_length_split (fun e => decide (e.action = ac) && decide (e.env = env)) pre
    subst h1 h4
    simp only [Tally.record]
    exact ⟨h2, by omega⟩

theorem runTally_balance {a : Nat} {S : Event} (ops : List Op) :
    ∀ (pre : List Event) (log : List Call) (t : Tally), Shape a S pre [] →
      (∀ op ∈ ops, ∀ tv, op.addTime = some tv → lexLe tv ARMAGEDDON) →
      allocsOk noReentry ⟨⟨a, pre ++ [S], S⟩, log⟩ ops = true →
      pre.length + t.fires + t.removed = t.adds →
      ∃ pre2 log2 t2,
        runTally noReentry ⟨⟨a, pre ++ [S], S⟩, log⟩ t ops =
          .ok (⟨⟨a, pre2 ++ [S], S⟩, log2⟩, t2) ∧
        pre2.length + t2.fires + t2.removed = t2.adds := by
  induction ops with
  | nil =>
    intro pre log t _ _ _ hb
    exact ⟨pre, log, t, rfl, hb⟩
  | cons op rest ih =>
    intro pre log t hsh htimes hal hb
    simp only [allocsOk, Bool.and_eq_true] at hal
    obtain ⟨pre1, post1, log1, r, h1, hsh1, hrel⟩ := step_shape log op hsh hal.1
    have hal2 := hal.2
    rw [h1] at hal2
    obtain ⟨hp, hcount⟩ := stepRel_tally (S := S) t hrel (htimes op (by simp))
    subst hp
    obtain ⟨pre2, log2, t2, h2, hb2⟩ := ih pre1 log1
      (t.record ⟨⟨a, pre ++ [S], S⟩, log⟩ op r) hsh1
      (fun o ho => htimes o (by simp [ho])) hal2 (by omega)
    refine ⟨pre2, log2, t2, ?_, hb2⟩
    simp only [runTally, h1, h2]

/-- C7 (the code at the failing input): after an add at {2147483648, 0}, one
second after INT_MAX, and one fire (made while executiveLength was 1, and
which removes nothing because the head is the sentinel) executiveLength is 1,
while adds - fires - removed is 0. -/
theorem length_accounting_late_event :
    ∃ ex s t, executiveNew 1 2 = some ex ∧
      allocsOk noReentry (fresh ex) [.add 3 ⟨2147483648, 0⟩ 10, .fire ⟨0, 0⟩] = true ∧
      runTally noReentry (fresh ex) ⟨0, 0, 0⟩
        [.add 3 ⟨2147483648, 0⟩ 10, .fire ⟨0, 0⟩] = .ok (s, t) ∧
      executiveLength s.exec = 1 ∧ t.adds - t.fires - t.removed = 0 :=
  ⟨_, _, _, rfl, rfl, rfl, by decide, by decide⟩

/-- For any finite sequence of operations applied to a fresh
scheduler in which no add is scheduled later than armageddon (allocations
succeeding, actions not re-entering), the run returns and executiveLength
equals the number of add calls minus the number of executiveFire calls made
while executiveLength was > 0 minus the sum of the counts returned by
executiveClear and the clear-matching calls. -/
theorem length_accounting (self p : Nat) (ex : Executive) (ops : List Op)
    (hnew : executiveNew self p = some ex)
    (htimes : ∀ op ∈ ops, ∀ tv, op.addTime = some tv → lexLe tv ARMAGEDDON)
    (hal : allocsOk noReentry (fresh ex) ops = true) :
    ∃ s t, runTally noReentry (fresh ex) ⟨0, 0, 0⟩ ops = .ok (s, t) ∧
      executiveLength s.exec = t.adds - t.fires - t.removed ∧
      t.fires + t.removed ≤ t.adds := by
  obtain ⟨hex, hsh⟩ := new_shape hnew
  subst hex
  obtain ⟨pre2, log2, t2, h2, hb2⟩ :=
    runTally_balance ops [] [] ⟨0, 0, 0⟩ hsh htimes hal rfl
  refine ⟨⟨⟨self, pre2 ++ [executiveEventInit p 0 ARMAGEDDON 0 0 0],
    executiveEventInit p 0 ARMAGEDDON 0 0 0⟩, log2⟩, t2, h2, ?_, by omega⟩
  have := executiveLength_shape self (executiveEventInit p 0 ARMAGEDDON 0 0 0) pre2 []
  simp only [List.length_nil] at this
  rw [this]
  omega

/-- At a concrete input of the theorem above: three adds, a fire, a clear by action
that removes one event, a fire, and a fire on the empty scheduler. -/
theorem length_accounting_witness :
    (∃ s t, runTally noReentry
        (fresh ⟨1, [⟨2, 0, ARMAGEDDON, 0, 0, 0⟩], ⟨2, 0, ARMAGEDDON, 0, 0, 0⟩⟩) ⟨0, 0, 0⟩
        [.add 3 ⟨3, 0⟩ 10, .addWithEnv 4 ⟨1, 0⟩ 11 50, .addWithFreeFunc 5 ⟨2, 0⟩ 12 60 70,
          .fire ⟨9, 0⟩, .clearMatchingAction 10, .fire ⟨9, 0⟩, .fire ⟨9, 0⟩] = .ok (s, t) ∧
      executiveLength s.exec = t.adds - t.fires - t.removed ∧
      t.fires + t.removed ≤ t.adds) ∧
    (runTally noReentry
        (fresh ⟨1, [⟨2, 0, ARMAGEDDON, 0, 0, 0⟩], ⟨2, 0, ARMAGEDDON, 0, 0, 0⟩⟩) ⟨0, 0, 0⟩
        [.add 3 ⟨3, 0⟩ 10, .addWithEnv 4 ⟨1, 0⟩ 11 50, .addWithFreeFunc 5 ⟨2, 0⟩ 12 60 70,
          .fire ⟨9, 0⟩, .clearMatchingAction 10, .fire ⟨9, 0⟩, .fire ⟨9, 0⟩]).map
      (fun v => (executiveLength v.1.exec, v.2)) = .ok (0, ⟨3, 2, 1⟩) :=
  ⟨length_accounting 1 2 ⟨1, [⟨2, 0, ARMAGEDDON, 0, 0, 0⟩], ⟨2, 0, ARMAGEDDON, 0, 0, 0⟩⟩
      [.add 3 ⟨3, 0⟩ 10, .addWithEnv 4 ⟨1, 0⟩ 11 50, .addWithFreeFunc 5 ⟨2, 0⟩ 12 60 70,
        .fire ⟨9, 0⟩, .clearMatchingAction 10, .fire ⟨9, 0⟩, .fire ⟨9, 0⟩] rfl
      (by
        intro op hop tv htv
        simp only [List.mem_cons, List.mem_singleton, List.not_mem_nil, or_false] at hop
        rcases hop with rfl | rfl | rfl | rfl | rfl | rfl | rfl <;>
          simp only [Op.addTime, Option.some.injEq] at htv <;> first
            | (subst htv; decide)
            | cases htv)
      rfl,
    rfl⟩

/-! ## Return value of add -/

theorem addImpl_returns (s : State) (hr : Reachable s) (p : Nat) (hp : p ≠ 0)
    (t : Timeval) (ac env fr : Nat) :
    ∃ s1, executiveAddImpl s p t ac env fr = .ok (s1, executiveLength s.exec + 1) ∧
      executiveLength s1.exec = executiveLength s.exec + 1 := by
  obtain ⟨a, S, pre, post, log, rfl, hsh⟩ := hr.shape
  have hlen : executiveLength
      ((⟨⟨a, pre ++ S :: post, S⟩, log⟩ : State).setEvents
        (g_list_insert_sorted (pre ++ S :: post)
          (executiveEventInit p a t ac env fr) executiveEventComparator)).exec =
      executiveLength (⟨⟨a, pre ++ S :: post, S⟩, log⟩ : State).exec + 1 := by
    simp only [executiveLength, State.setEvents, g_list_length_eq, insert_sorted_length,
      List.length_append, List.length_cons]
    omega
  refine ⟨_, ?_, hlen⟩
  simp only [executiveAddImpl, executiveEventNew, hp, if_false, hlen]

/-- C8: in every reachable scheduler with executiveLength n, each of
executiveAdd, executiveAddWithEnv and executiveAddWithFreeFunc (allocation
succeeding) returns n + 1, and n + 1 is executiveLength after the call. -/
theorem add_returns_length (s : State) (hr : Reachable s) (p : Nat) (hp : p ≠ 0)
    (t : Timeval) (ac env fr : Nat) :
    (∃ s1, executiveAdd s p t ac = .ok (s1, executiveLength s.exec + 1) ∧
      executiveLength s1.exec = executiveLength s.exec + 1) ∧
    (∃ s1, executiveAddWithEnv s p t ac env = .ok (s1, executiveLength s.exec + 1) ∧
      executiveLength s1.exec = executiveLength s.exec + 1) ∧
    (∃ s1, executiveAddWithFreeFunc s p t ac env fr =
        .ok (s1, executiveLength s.exec + 1) ∧
      executiveLength s1.exec = executiveLength s.exec + 1) :=
  ⟨addImpl_returns s hr p hp t ac 0 0, addImpl_returns s hr p hp t ac env 0,
    addImpl_returns s hr p hp t ac env fr⟩

/-- C8, at a concrete input: one event is pending (length 1); each add
variant returns 2. -/
theorem add_returns_length_witness :
    (4 : Nat) ≠ 0 ∧
    executiveLength (⟨⟨1, [⟨3, 1, ⟨7, 0⟩, 10, 0, 0⟩, ⟨2, 0, ARMAGEDDON, 0, 0, 0⟩],
        ⟨2, 0, ARMAGEDDON, 0, 0, 0⟩⟩, []⟩ : State).exec = 1 ∧
    ((∃ s1, executiveAdd ⟨⟨1, [⟨3, 1, ⟨7, 0⟩, 10, 0, 0⟩, ⟨2, 0, ARMAGEDDON, 0, 0, 0⟩],
        ⟨2, 0, ARMAGEDDON, 0, 0, 0⟩⟩, []⟩ 4 ⟨9, 5⟩ 11 =
        .ok (s1, executiveLength (⟨⟨1, [⟨3, 1, ⟨7, 0⟩, 10, 0, 0⟩,
          ⟨2, 0, ARMAGEDDON, 0, 0, 0⟩], ⟨2, 0, ARMAGEDDON, 0, 0, 0⟩⟩, []⟩ : State).exec + 1) ∧
      executiveLength s1.exec = executiveLength (⟨⟨1, [⟨3, 1, ⟨7, 0⟩, 10, 0, 0⟩,
          ⟨2, 0, ARMAGEDDON, 0, 0, 0⟩], ⟨2, 0, ARMAGEDDON, 0, 0, 0⟩⟩, []⟩ : State).exec + 1) ∧
    (∃ s1, executiveAddWithEnv ⟨⟨1, [⟨3, 1, ⟨7, 0⟩, 10, 0, 0⟩, ⟨2, 0, ARMAGEDDON, 0, 0, 0⟩],
        ⟨2, 0, ARMAGEDDON, 0, 0, 0⟩⟩, []⟩ 4 ⟨9, 5⟩ 11 60 =
        .ok (s1, executiveLength (⟨⟨1, [⟨3, 1, ⟨7, 0⟩, 10, 0, 0⟩,
          ⟨2, 0, ARMAGEDDON, 0, 0, 0⟩], ⟨2, 0, ARMAGEDDON, 0, 0, 0⟩⟩, []⟩ : State).exec + 1) ∧
      executiveLength s1.exec = executiveLength (⟨⟨1, [⟨3, 1, ⟨7, 0⟩, 10, 0, 0⟩,
          ⟨2, 0, ARMAGEDDON, 0, 0, 0⟩], ⟨2, 0, ARMAGEDDON, 0, 0, 0⟩⟩, []⟩ : State).exec + 1) ∧
    (∃ s1, executiveAddWithFreeFunc ⟨⟨1, [⟨3, 1, ⟨7, 0⟩, 10, 0, 0⟩,
        ⟨2, 0, ARMAGEDDON, 0, 0, 0⟩], ⟨2, 0, ARMAGEDDON, 0, 0, 0⟩⟩, []⟩ 4 ⟨9, 5⟩ 11 60 70 =
        .ok (s1, executiveLength (⟨⟨1, [⟨3, 1, ⟨7, 0⟩, 10, 0, 0⟩,
          ⟨2, 0, ARMAGEDDON, 0, 0, 0⟩], ⟨2, 0, ARMAGEDDON, 0, 0, 0⟩⟩, []⟩ : State).exec + 1) ∧
      executiveLength s1.exec = executiveLength (⟨⟨1, [⟨3, 1, ⟨7, 0⟩, 10, 0, 0⟩,
          ⟨2, 0, ARMAGEDDON, 0, 0, 0⟩], ⟨2, 0, ARMAGEDDON, 0, 0, 0⟩⟩, []⟩ : State).exec + 1)) :=
  ⟨by decide, by decide,
    add_returns_length
      ⟨⟨1, [⟨3, 1, ⟨7, 0⟩, 10, 0, 0⟩, ⟨2, 0, ARMAGEDDON, 0, 0, 0⟩],
        ⟨2, 0, ARMAGEDDON, 0, 0, 0⟩⟩, []⟩
      ⟨1, 2, _, [.add 3 ⟨7, 0⟩ 10], rfl, rfl, rfl⟩ 4 (by decide) ⟨9, 5⟩ 11 60 70⟩

/-! ## Clearing -/

/-- C9 (the code at the failing input): after one add at {2147483648, 0}, one
second after INT_MAX, the scheduler is reachable with executiveLength 1;
executiveClear returns 0 and leaves the scheduler as it was, the user event
still in the list. -/
theorem clear_leaves_late_event :
    ∃ s, Reachable s ∧ executiveLength s.exec = 1 ∧ executiveClear s = .ok (s, 0) :=
  ⟨⟨⟨1, [⟨2, 0, ARMAGEDDON, 0, 0, 0⟩, ⟨3, 1, ⟨2147483648, 0⟩, 10, 0, 0⟩],
      ⟨2, 0, ARMAGEDDON, 0, 0, 0⟩⟩, []⟩,
    ⟨1, 2, _, [.add 3 ⟨2147483648, 0⟩ 10], rfl, rfl, rfl⟩, by decide, rfl⟩

/-- In every reachable scheduler in which no pending event is
later than armageddon, executiveClear removes every user event (disposing them
in list order), returns executiveLength as it was before the call, and
afterwards only the sentinel remains and executiveLength is 0. -/
theorem clear_all (s : State) (hr : Reachable s)
    (hle : ∀ e ∈ s.exec.events, lexLe e.scheduledTime ARMAGEDDON) :
    executiveClear s =
        .ok (⟨{ s.exec with events := [s.exec.sentinel] },
          freeLog (userEvents s.exec) s.log⟩, executiveLength s.exec) ∧
      executiveLength { s.exec with events := [s.exec.sentinel] } = 0 ∧
      userEvents { s.exec with events := [s.exec.sentinel] } = [] := by
  obtain ⟨a, S, pre, post, log, rfl, hsh⟩ := hr.shape
  have hpost := hsh.post_nil hle
  subst hpost
  refine ⟨?_, by simp [executiveLength, g_list_length], by simp [userEvents]⟩
  have h1 := clearLoop_spec pre ((pre ++ [S]).length + 1) a S [] log 0 hsh.pre_ne
    (by simp; omega)
  have h2 := userEvents_shape hsh
  have h3 := executiveLength_shape a S pre []
  simp only [executiveClear, h1, h2, h3]
  simp

/-- At a concrete input of the theorem above: one add at {10,0}, then clear returns 1. -/
theorem clear_all_witness :
    executiveClear ⟨⟨1, [⟨3, 1, ⟨10, 0⟩, 10, 0, 0⟩, ⟨2, 0, ARMAGEDDON, 0, 0, 0⟩],
        ⟨2, 0, ARMAGEDDON, 0, 0, 0⟩⟩, []⟩ =
      .ok (⟨⟨1, [⟨2, 0, ARMAGEDDON, 0, 0, 0⟩], ⟨2, 0, ARMAGEDDON, 0, 0, 0⟩⟩, []⟩, 1) ∧
    (executiveClear ⟨⟨1, [⟨3, 1, ⟨10, 0⟩, 10, 0, 0⟩, ⟨2, 0, ARMAGEDDON, 0, 0, 0⟩],
        ⟨2, 0, ARMAGEDDON, 0, 0, 0⟩⟩, []⟩ =
        .ok (⟨{ (⟨⟨1, [⟨3, 1, ⟨10, 0⟩, 10, 0, 0⟩, ⟨2, 0, ARMAGEDDON, 0, 0, 0⟩],
            ⟨2, 0, ARMAGEDDON, 0, 0, 0⟩⟩, []⟩ : State).exec with
              events := [⟨2, 0, ARMAGEDDON, 0, 0, 0⟩] },
          freeLog (userEvents (⟨⟨1, [⟨3, 1, ⟨10, 0⟩, 10, 0, 0⟩, ⟨2, 0, ARMAGEDDON, 0, 0, 0⟩],
            ⟨2, 0, ARMAGEDDON, 0, 0, 0⟩⟩, []⟩ : State).exec) []⟩,
          executiveLength (⟨⟨1, [⟨3, 1, ⟨10, 0⟩, 10, 0, 0⟩, ⟨2, 0, ARMAGEDDON, 0, 0, 0⟩],
            ⟨2, 0, ARMAGEDDON, 0, 0, 0⟩⟩, []⟩ : State).exec) ∧
      executiveLength { (⟨⟨1, [⟨3, 1, ⟨10, 0⟩, 10, 0, 0⟩, ⟨2, 0, ARMAGEDDON, 0, 0, 0⟩],
            ⟨2, 0, ARMAGEDDON, 0, 0, 0⟩⟩, []⟩ : State).exec with
              events := [⟨2, 0, ARMAGEDDON, 0, 0, 0⟩] } = 0 ∧
      userEvents { (⟨⟨1, [⟨3, 1, ⟨10, 0⟩, 10, 0, 0⟩, ⟨2, 0, ARMAGEDDON, 0, 0, 0⟩],
            ⟨2, 0, ARMAGEDDON, 0, 0, 0⟩⟩, []⟩ : State).exec with
              events := [⟨2, 0, ARMAGEDDON, 0, 0, 0⟩] } = []) :=
  ⟨rfl, clear_all
      ⟨⟨1, [⟨3, 1, ⟨10, 0⟩, 10, 0, 0⟩, ⟨2, 0, ARMAGEDDON, 0, 0, 0⟩],
        ⟨2, 0, ARMAGEDDON, 0, 0, 0⟩⟩, []⟩
      ⟨1, 2, _, [.add 3 ⟨10, 0⟩ 10], rfl, rfl, rfl⟩
      (by
        intro e he
        simp only [List.mem_cons, List.mem_singleton, List.not_mem_nil, or_false] at he
        rcases he with rfl | rfl <;> decide)⟩

/-- C10 (the code at the failing input): after one add at {2147483648, 0},
one second after INT_MAX, the scheduler is reachable; executiveClearMatchingTime
for that very time returns 0 and leaves the event with that time in the list,
because the scan stops at the sentinel in front of it. -/
theorem clear_matching_time_leaves_late_event :
    ∃ s, Reachable s ∧
      (∃ e ∈ userEvents s.exec, e.scheduledTime = ⟨2147483648, 0⟩) ∧
      executiveClearMatchingTime s ⟨2147483648, 0⟩ = .ok (s, 0) :=
  ⟨⟨⟨1, [⟨2, 0, ARMAGEDDON, 0, 0, 0⟩, ⟨3, 1, ⟨2147483648, 0⟩, 10, 0, 0⟩],
      ⟨2, 0, ARMAGEDDON, 0, 0, 0⟩⟩, []⟩,
    ⟨1, 2, _, [.add 3 ⟨2147483648, 0⟩ 10], rfl, rfl, rfl⟩,
    ⟨⟨3, 1, ⟨2147483648, 0⟩, 10, 0, 0⟩, by decide, rfl⟩, rfl⟩

/-- In every reachable scheduler and for every time `tv` not
later than armageddon, executiveClearMatchingTime removes exactly the pending
user events whose scheduled time equals `tv` (disposing them in list order),
leaves every other event in place and in order, and returns the number
removed; stopping the scan at the first later event loses nothing. -/
theorem clear_matching_time_exact (s : State) (hr : Reachable s) (tv : Timeval)
    (htv : lexLe tv ARMAGEDDON) :
    executiveClearMatchingTime s tv =
      .ok (⟨{ s.exec with events := s.exec.events.filter (fun e =>
              decide (e.addr = s.exec.sentinel.addr) || !decide (e.scheduledTime = tv)) },
          freeLog ((userEvents s.exec).filter fun e => decide (e.scheduledTime = tv)) s.log⟩,
        ((userEvents s.exec).filter fun e => decide (e.scheduledTime = tv)).length) := by
  obtain ⟨a, S, pre, post, log, rfl, hsh⟩ := hr.shape
  obtain ⟨pre2, post2, log2, r, h1, -, hrel⟩ :=
    step_shape log (.clearMatchingTime tv) hsh rfl
  simp only [StepRel, Op.newEvent, Op.matcher] at hrel
  obtain ⟨hp, hq, hl, hr2⟩ := hrel
  have hpostne : ∀ x ∈ post, ¬ x.scheduledTime = tv := by
    intro x hx h
    have := hsh.late x hx
    rw [h] at this
    exact lexLt_irrefl _ (lexLt_of_lt_of_le this htv)
  have e1 : post.filter (fun e => decide (e.scheduledTime = tv)) = [] := by
    rw [List.filter_eq_nil_iff]
    intro x hx
    simpa using hpostne x hx
  have e2 : (pre ++ S :: post).filter (fun e =>
      decide (e.addr = S.addr) || !decide (e.scheduledTime = tv)) =
      pre.filter (fun e => !decide (e.scheduledTime = tv)) ++ S :: post := by
    have e3 : pre.filter (fun e => decide (e.addr = S.addr) || !decide (e.scheduledTime = tv))
        = pre.filter (fun e => !decide (e.scheduledTime = tv)) := by
      apply List.filter_congr
      intro x hx
      have := hsh.pre_ne x hx
      simp [this]
    have e4 : post.filter (fun e => decide (e.addr = S.addr) || !decide (e.scheduledTime = tv))
        = post := by
      rw [List.filter_eq_self]
      intro x hx
      simp [hpostne x hx]
    simp only [List.filter_append, List.filter_cons, e3, e4]
    simp
  have h2 := userEvents_shape hsh
  have h3 : executiveClearMatchingTime ⟨⟨a, pre ++ S :: post, S⟩, log⟩ tv =
      .ok (⟨⟨a, pre2 ++ S :: post2, S⟩, log2⟩, r) := h1
  rw [h3]
  simp only [h2, e2, List.filter_append, e1, List.append_nil]
  subst hp hq hl hr2
  rfl

/-- At a concrete input of the theorem above: times {1,0}, {2,0}, {2,0}, {3,0};
clearing {2,0} returns 2 and leaves {1,0}, {3,0} in front of the sentinel. -/
theorem clear_matching_time_exact_witness :
    executiveClearMatchingTime
        ⟨⟨1, [⟨3, 1, ⟨1, 0⟩, 10, 0, 0⟩, ⟨5, 1, ⟨2, 0⟩, 10, 0, 0⟩, ⟨4, 1, ⟨2, 0⟩, 10, 0, 0⟩,
          ⟨6, 1, ⟨3, 0⟩, 10, 0, 0⟩, ⟨2, 0, ARMAGEDDON, 0, 0, 0⟩],
          ⟨2, 0, ARMAGEDDON, 0, 0, 0⟩⟩, []⟩ ⟨2, 0⟩ =
      .ok (⟨⟨1, [⟨3, 1, ⟨1, 0⟩, 10, 0, 0⟩, ⟨6, 1, ⟨3, 0⟩, 10, 0, 0⟩,
          ⟨2, 0, ARMAGEDDON, 0, 0, 0⟩], ⟨2, 0, ARMAGEDDON, 0, 0, 0⟩⟩, []⟩, 2) :=
  clear_matching_time_exact
    ⟨⟨1, [⟨3, 1, ⟨1, 0⟩, 10, 0, 0⟩, ⟨5, 1, ⟨2, 0⟩, 10, 0, 0⟩, ⟨4, 1, ⟨2, 0⟩, 10, 0, 0⟩,
      ⟨6, 1, ⟨3, 0⟩, 10, 0, 0⟩, ⟨2, 0, ARMAGEDDON, 0, 0, 0⟩],
      ⟨2, 0, ARMAGEDDON, 0, 0, 0⟩⟩, []⟩
    ⟨1, 2, _, [.add 3 ⟨1, 0⟩ 10, .add 4 ⟨2, 0⟩ 10, .add 5 ⟨2, 0⟩ 10, .add 6 ⟨3, 0⟩ 10],
      rfl, rfl, rfl⟩
    ⟨2, 0⟩ (by decide)

/-! ## Disposal of events -/

theorem eventFree_eq (e : Event) (log : List Call) :
    executiveEventFree e log = log ++ executiveEventFree e [] := by
  unfold executiveEventFree
  split <;> simp

theorem freeLog_eq (l : List Event) (log : List Call) :
    freeLog l log = log ++ disposals l := by
  induction l generalizing log with
  | nil => simp [freeLog, disposals]
  | cons x xs ih =>
    rw [freeLog_cons, ih, eventFree_eq x log]
    simp [disposals, List.flatMap_cons]

theorem actionCalls_append (l1 l2 : List Call) :
    actionCalls (l1 ++ l2) = actionCalls l1 ++ actionCalls l2 := by
  simp [actionCalls]

theorem envFreeCalls_append (l1 l2 : List Call) :
    envFreeCalls (l1 ++ l2) = envFreeCalls l1 ++ envFreeCalls l2 := by
  simp [envFreeCalls]

theorem actionCalls_eventFree (e : Event) : actionCalls (executiveEventFree e []) = [] := by
  unfold executiveEventFree
  split <;> simp [actionCalls]

theorem envFreeCalls_eventFree (e : Event) :
    envFreeCalls (executiveEventFree e []) = executiveEventFree e [] := by
  unfold executiveEventFree
  split <;> simp [envFreeCalls]

theorem actionCalls_disposals (l : List Event) : actionCalls (disposals l) = [] := by
  induction l with
  | nil => rfl
  | cons x xs ih =>
    simp only [disposals, List.flatMap_cons] at ih ⊢
    rw [actionCalls_append, actionCalls_eventFree, ih]
    rfl

theorem envFreeCalls_disposals (l : List Event) :
    envFreeCalls (disposals l) = disposals l := by
  induction l with
  | nil => rfl
  | cons x xs ih =>
    simp only [disposals, List.flatMap_cons] at ih ⊢
    rw [envFreeCalls_append, envFreeCalls_eventFree, ih]

/-- A call that adds nothing, in terms of the parts of the list: the events
`removed` leave the front part, the log gains the action call of a fire (if
any) and then the disposals of the removed events, in order. -/
theorem stepRel_removed {a : Nat} {op : Op} {pre post pre2 post2 : List Event}
    {log log2 : List Call} {r : Nat}
    (hrel : StepRel a op pre post log pre2 post2 log2 r) (hop : op.newEvent a = none) :
    ∃ removed acts, pre.Perm (removed ++ pre2) ∧ removed.Sublist pre ∧ post2 = post ∧
      log2 = log ++ acts ++ disposals removed ∧
      ((∃ now, op = Op.fire now ∧ r = 0 ∧
          ((removed = [] ∧ acts = [] ∧ pre = []) ∨
           ∃ x, removed = [x] ∧ pre = x :: pre2 ∧
             acts = if x.action ≠ 0 then [Call.action x.action x now] else [])) ∨
       ((∀ now, op ≠ Op.fire now) ∧ acts = [] ∧ r = removed.length ∧
          ((op = Op.clear ∧ removed = pre) ∨
           ∃ test, op.matcher = some test ∧ removed = pre.filter test ∧
             pre2 = pre.filter fun e => !test e))) := by
  have hmatch : ∀ test : Event → Bool, op.matcher = some test → (∀ now, op ≠ Op.fire now) →
      pre2 = pre.filter (fun e => !test e) ∧ post2 = post ∧
        log2 = freeLog (pre.filter test) log ∧ r = (pre.filter test).length →
      ∃ removed acts, pre.Perm (removed ++ pre2) ∧ removed.Sublist pre ∧ post2 = post ∧
      log2 = log ++ acts ++ disposals removed ∧
      ((∃ now, op = Op.fire now ∧ r = 0 ∧
          ((removed = [] ∧ acts = [] ∧ pre = []) ∨
           ∃ x, removed = [x] ∧ pre = x :: pre2 ∧
             acts = if x.action ≠ 0 then [Call.action x.action x now] else [])) ∨
       ((∀ now, op ≠ Op.fire now) ∧ acts = [] ∧ r = removed.length ∧
          ((op = Op.clear ∧ removed = pre) ∨
           ∃ test, op.matcher = some test ∧ removed = pre.filter test ∧
             pre2 = pre.filter fun e => !test e))) := by
    intro test hm hnf ⟨h1, h2, h3, h4⟩
    refine ⟨pre.filter test, [], ?_, List.filter_sublist _, h2, ?_,
      Or.inr ⟨hnf, rfl, h4, Or.inr ⟨test, hm, rfl, h1⟩⟩⟩
    · rw [h1]; exact (List.filter_append_perm test pre).symm
    · rw [h3, freeLog_eq]; simp
  cases op with
  | add p t ac => simp [Op.newEvent] at hop
  | addWithEnv p t ac env => simp [Op.newEvent] at hop
  | addWithFreeFunc p t ac env fr => simp [Op.newEvent] at hop
  | fire now =>
    simp only [StepRel, Op.newEvent, Op.matcher] at hrel
    obtain ⟨h1, h2, h3⟩ := hrel
    rcases h3 with ⟨h4, h5, h6⟩ | ⟨x, h4, h5⟩
    · subst h4 h5 h6
      exact ⟨[], [], by simp, List.Sublist.refl _, h1, by simp [disposals],
        Or.inl ⟨now, rfl, h2, Or.inl ⟨rfl, rfl, rfl⟩⟩⟩
    · subst h4
      refine ⟨[x], if x.action ≠ 0 then [Call.action x.action x now] else [], by simp,
        by simp, h1, ?_, Or.inl ⟨now, rfl, h2, Or.inr ⟨x, rfl, rfl, rfl⟩⟩⟩
      rw [h5, eventFree_eq]
      by_cases hx : x.action ≠ 0
      · simp [hx, disposals]
      · simp [hx, disposals]
  | clear =>
    simp only [StepRel, Op.newEvent, Op.matcher] at hrel
    obtain ⟨h1, h2, h3, h4⟩ := hrel
    subst h1
    refine ⟨pre, [], by simp, List.Sublist.refl _, h2, ?_,
      Or.inr ⟨(fun now h => by cases h), rfl, h4, Or.inl ⟨rfl, rfl⟩⟩⟩
    rw [h3, freeLog_eq]; simp
  | clearMatchingTime tv =>
    exact hmatch _ rfl (fun now h => by cases h)
      (by simpa [StepRel, Op.newEvent, Op.matcher] using hrel)
  | clearMatchingAction ac =>
    exact hmatch _ rfl (fun now h => by cases h)
      (by simpa [StepRel, Op.newEvent, Op.matcher] using hrel)
  | clearMatchingEnv env =>
    exact hmatch _ rfl (fun now h => by cases h)
      (by simpa [StepRel, Op.newEvent, Op.matcher] using hrel)
  | clearMatchingActionAndEnv ac env =>
    exact hmatch _ rfl (fun now h => by cases h) (by
      simp only [StepRel, Op.newEvent, Op.matcher] at hrel
      exact hrel)

theorem newEvent_none_iff (a : Nat) (op : Op) : op.newEvent a = none ↔ op.alloc = none := by
  cases op <;> simp [Op.newEvent, Op.alloc]

theorem allocOk_of_alloc_none (s : State) (op : Op) (h : op.alloc = none) :
    allocOk s op = true := by
  simp [allocOk, h]

/-- A call that adds nothing, on a reachable state: it returns, the sentinel
stays, the events `removed` are user events that leave the list, and the log
gains the action call of a fire (if any) followed by the disposals of the
removed events. -/
theorem step_disposes (s : State) (hr : Reachable s) (op : Op) (hop : op.alloc = none) :
    ∃ s1 r removed acts, step noReentry s op = .ok (s1, r) ∧
      s1.exec.sentinel = s.exec.sentinel ∧
      s.exec.events.Perm (removed ++ s1.exec.events) ∧
      removed.Sublist (userEvents s.exec) ∧
      s1.log = s.log ++ acts ++ disposals removed ∧
      ((∃ now, op = Op.fire now ∧ r = 0 ∧ removed.length ≤ 1 ∧
          acts = removed.flatMap fun x =>
            if x.action ≠ 0 then [Call.action x.action x now] else []) ∨
       ((∀ now, op ≠ Op.fire now) ∧ acts = [] ∧ r = removed.length)) := by
  obtain ⟨a, S, pre, post, log, rfl, hsh⟩ := hr.shape
  obtain ⟨pre2, post2, log2, r, h1, -, hrel⟩ :=
    step_shape log op hsh (allocOk_of_alloc_none _ op hop)
  obtain ⟨removed, acts, hperm, hsub, hpost, hlog, halt⟩ :=
    stepRel_removed hrel ((newEvent_none_iff a op).2 hop)
  subst hpost
  refine ⟨_, r, removed, acts, h1, rfl, ?_, ?_, hlog, ?_⟩
  · show (pre ++ S :: post2).Perm (removed ++ (pre2 ++ S :: post2))
    rw [← List.append_assoc]
    exact List.Perm.append_right _ hperm
  · rw [userEvents_shape hsh]
    exact hsub.trans (List.sublist_append_left _ _)
  · rcases halt with ⟨now, h2, h3, h4⟩ | ⟨h2, h3, h4, -⟩
    · refine Or.inl ⟨now, h2, h3, ?_⟩
      rcases h4 with ⟨h5, h6, -⟩ | ⟨x, h5, -, h6⟩
      · subst h5 h6; simp
      · subst h5 h6; simp
    · exact Or.inr ⟨h2, h3, h4⟩

/-! ## Clearing by action and by environment -/

/-- The scan shared by the three identity-matching clears, on a reachable
scheduler with nothing later than armageddon: exactly the user events that
pass the test are removed. -/
theorem matching_exact (s : State) (hr : Reachable s)
    (hle : ∀ e ∈ s.exec.events, lexLe e.scheduledTime ARMAGEDDON) (test : Event → Bool) :
    executiveClearMatchingLoop test (s.exec.events.length + 1) s 0 0 =
      .ok (⟨{ s.exec with events := s.exec.events.filter (fun e =>
              decide (e.addr = s.exec.sentinel.addr) || !test e) },
          freeLog ((userEvents s.exec).filter test) s.log⟩,
        ((userEvents s.exec).filter test).length) := by
  obtain ⟨a, S, pre, post, log, rfl, hsh⟩ := hr.shape
  have hpost := hsh.post_nil hle
  subst hpost
  have hnd0 : (([] ++ pre ++ S :: []).map Event.addr).Nodup := by simpa using hsh.nodup
  have h1 := clearMatchingLoop_spec test pre ((pre ++ [S]).length + 1) a S [] [] log 0
    hnd0 (by simp; omega)
  have h2 := userEvents_shape hsh
  have e3 : (pre ++ [S]).filter (fun e => decide (e.addr = S.addr) || !test e)
      = pre.filter (fun e => !test e) ++ [S] := by
    have e4 : pre.filter (fun e => decide (e.addr = S.addr) || !test e)
        = pre.filter (fun e => !test e) := by
      apply List.filter_congr
      intro x hx
      have := hsh.pre_ne x hx
      simp [this]
    simp [List.filter_append, List.filter_cons, e4]
  simp only [List.nil_append, List.length_nil, Nat.zero_add] at h1
  simp only [h1, h2, e3, List.append_nil]

/-- C11 (the code at the failing input): after one add at {2147483648, 0},
one second after INT_MAX, with action 10, the scheduler is reachable and a
user event with action 10 is pending; executiveClearMatchingAction for action
10 returns 0 and leaves the scheduler as it was. -/
theorem clear_matching_action_leaves_late_event :
    ∃ s, Reachable s ∧ (∃ e ∈ userEvents s.exec, e.action = 10) ∧
      executiveClearMatchingAction s 10 = .ok (s, 0) :=
  ⟨⟨⟨1, [⟨2, 0, ARMAGEDDON, 0, 0, 0⟩, ⟨3, 1, ⟨2147483648, 0⟩, 10, 0, 0⟩],
      ⟨2, 0, ARMAGEDDON, 0, 0, 0⟩⟩, []⟩,
    ⟨1, 2, _, [.add 3 ⟨2147483648, 0⟩ 10], rfl, rfl, rfl⟩,
    ⟨⟨3, 1, ⟨2147483648, 0⟩, 10, 0, 0⟩, by decide, rfl⟩, rfl⟩

/-- In every reachable scheduler in which no pending event is
later than armageddon, and for every action reference `a` (null included),
executiveClearMatchingAction removes every pending user event whose action is
`a` and no other event (the sentinel, whose action is null, stays), disposes
the removed events in list order and returns their number. -/
theorem clear_matching_action_exact (s : State) (hr : Reachable s) (a : Nat)
    (hle : ∀ e ∈ s.exec.events, lexLe e.scheduledTime ARMAGEDDON) :
    executiveClearMatchingAction s a =
      .ok (⟨{ s.exec with events := s.exec.events.filter (fun e =>
              decide (e.addr = s.exec.sentinel.addr) || !decide (e.action = a)) },
          freeLog ((userEvents s.exec).filter fun e => decide (e.action = a)) s.log⟩,
        ((userEvents s.exec).filter fun e => decide (e.action = a)).length) := by
  unfold executiveClearMatchingAction
  exact matching_exact s hr hle fun el => decide (el.action = a)

/-- At a concrete input of the theorem above: events with actions 10, 0, 10 are
pending; clearing the null action removes the one user event with a null
action, returns 1 and keeps the sentinel. -/
theorem clear_matching_action_exact_witness :
    executiveClearMatchingAction
        ⟨⟨1, [⟨3, 1, ⟨1, 0⟩, 10, 0, 0⟩, ⟨4, 1, ⟨2, 0⟩, 0, 0, 0⟩, ⟨5, 1, ⟨3, 0⟩, 10, 0, 0⟩,
          ⟨2, 0, ARMAGEDDON, 0, 0, 0⟩], ⟨2, 0, ARMAGEDDON, 0, 0, 0⟩⟩, []⟩ 0 =
      .ok (⟨⟨1, [⟨3, 1, ⟨1, 0⟩, 10, 0, 0⟩, ⟨5, 1, ⟨3, 0⟩, 10, 0, 0⟩,
          ⟨2, 0, ARMAGEDDON, 0, 0, 0⟩], ⟨2, 0, ARMAGEDDON, 0, 0, 0⟩⟩, []⟩, 1) :=
  clear_matching_action_exact
    ⟨⟨1, [⟨3, 1, ⟨1, 0⟩, 10, 0, 0⟩, ⟨4, 1, ⟨2, 0⟩, 0, 0, 0⟩, ⟨5, 1, ⟨3, 0⟩, 10, 0, 0⟩,
      ⟨2, 0, ARMAGEDDON, 0, 0, 0⟩], ⟨2, 0, ARMAGEDDON, 0, 0, 0⟩⟩, []⟩
    ⟨1, 2, _, [.add 3 ⟨1, 0⟩ 10, .add 4 ⟨2, 0⟩ 0, .add 5 ⟨3, 0⟩ 10], rfl, rfl, rfl⟩ 0
    (by
      intro e he
      simp only [List.mem_cons, List.mem_singleton, List.not_mem_nil, or_false] at he
      rcases he with rfl | rfl | rfl | rfl <;> decide)

/-- C12 (the code at the failing input): after one add with env 100 at
{2147483648, 0}, one second after INT_MAX, the scheduler is reachable and a
user event with env 100 is pending; executiveClearMatchingEnv for env 100
returns 0 and leaves the scheduler as it was. -/
theorem clear_matching_env_leaves_late_event :
    ∃ s, Reachable s ∧ (∃ e ∈ userEvents s.exec, e.env = 100) ∧
      executiveClearMatchingEnv s 100 = .ok (s, 0) :=
  ⟨⟨⟨1, [⟨2, 0, ARMAGEDDON, 0, 0, 0⟩, ⟨3, 1, ⟨2147483648, 0⟩, 10, 100, 0⟩],
      ⟨2, 0, ARMAGEDDON, 0, 0, 0⟩⟩, []⟩,
    ⟨1, 2, _, [.addWithEnv 3 ⟨2147483648, 0⟩ 10 100], rfl, rfl, rfl⟩,
    ⟨⟨3, 1, ⟨2147483648, 0⟩, 10, 100, 0⟩, by decide, rfl⟩, rfl⟩

/-- In every reachable scheduler in which no pending event is
later than armageddon, and for every env reference (null included),
executiveClearMatchingEnv removes every pending user event whose env is that
reference and no other event (the sentinel, whose env is null, stays),
disposes the removed events in list order and returns their number. -/
theorem clear_matching_env_exact (s : State) (hr : Reachable s) (env : Nat)
    (hle : ∀ e ∈ s.exec.events, lexLe e.scheduledTime ARMAGEDDON) :
    executiveClearMatchingEnv s env =
      .ok (⟨{ s.exec with events := s.exec.events.filter (fun e =>
              decide (e.addr = s.exec.sentinel.addr) || !decide (e.env = env)) },
          freeLog ((userEvents s.exec).filter fun e => decide (e.env = env)) s.log⟩,
        ((userEvents s.exec).filter fun e => decide (e.env = env)).length) := by
  unfold executiveClearMatchingEnv
  exact matching_exact s hr hle fun el => decide (el.env = env)

/-- At a concrete input of the theorem above: events with env 100 (destructor 200),
env 0 and env 100 are pending; clearing env 100 removes the first and the
third, calls the destructor of the first, and returns 2. -/
theorem clear_matching_env_exact_witness :
    executiveClearMatchingEnv
        ⟨⟨1, [⟨3, 1, ⟨1, 0⟩, 10, 100, 200⟩, ⟨4, 1, ⟨2, 0⟩, 10, 0, 0⟩,
          ⟨5, 1, ⟨3, 0⟩, 11, 100, 0⟩, ⟨2, 0, ARMAGEDDON, 0, 0, 0⟩],
          ⟨2, 0, ARMAGEDDON, 0, 0, 0⟩⟩, []⟩ 100 =
      .ok (⟨⟨1, [⟨4, 1, ⟨2, 0⟩, 10, 0, 0⟩, ⟨2, 0, ARMAGEDDON, 0, 0, 0⟩],
          ⟨2, 0, ARMAGEDDON, 0, 0, 0⟩⟩, [Call.envFree 200 100]⟩, 2) :=
  clear_matching_env_exact
    ⟨⟨1, [⟨3, 1, ⟨1, 0⟩, 10, 100, 200⟩, ⟨4, 1, ⟨2, 0⟩, 10, 0, 0⟩,
      ⟨5, 1, ⟨3, 0⟩, 11, 100, 0⟩, ⟨2, 0, ARMAGEDDON, 0, 0, 0⟩],
      ⟨2, 0, ARMAGEDDON, 0, 0, 0⟩⟩, []⟩
    ⟨1, 2, _, [.addWithFreeFunc 3 ⟨1, 0⟩ 10 100 200, .add 4 ⟨2, 0⟩ 10,
      .addWithEnv 5 ⟨3, 0⟩ 11 100], rfl, rfl, rfl⟩ 100
    (by
      intro e he
      simp only [List.mem_cons, List.mem_singleton, List.not_mem_nil, or_false] at he
      rcases he with rfl | rfl | rfl | rfl <;> decide)

/-- C13 (the code at the failing input): after one add with action 10 and env
100 at {2147483648, 0}, one second after INT_MAX, the scheduler is reachable
and a user event with that action and env is pending;
executiveClearMatchingActionAndEnv for action 10 and env 100 returns 0 and
leaves the scheduler as it was. -/
theorem clear_matching_action_env_leaves_late_event :
    ∃ s, Reachable s ∧ (∃ e ∈ userEvents s.exec, e.action = 10 ∧ e.env = 100) ∧
      executiveClearMatchingActionAndEnv s 10 100 = .ok (s, 0) :=
  ⟨⟨⟨1, [⟨2, 0, ARMAGEDDON, 0, 0, 0⟩, ⟨3, 1, ⟨2147483648, 0⟩, 10, 100, 0⟩],
      ⟨2, 0, ARMAGEDDON, 0, 0, 0⟩⟩, []⟩,
    ⟨1, 2, _, [.addWithEnv 3 ⟨2147483648, 0⟩ 10 100], rfl, rfl, rfl⟩,
    ⟨⟨3, 1, ⟨2147483648, 0⟩, 10, 100, 0⟩, by decide, by decide⟩, rfl⟩

/-- In every reachable scheduler in which no pending event is
later than armageddon, executiveClearMatchingActionAndEnv removes exactly the
pending user events whose action is `a` and whose env is `env` (an event that
matches only one of the two stays, and so does the sentinel), disposes the
removed events in list order and returns their number. -/
theorem clear_matching_action_env_exact (s : State) (hr : Reachable s) (a env : Nat)
    (hle : ∀ e ∈ s.exec.events, lexLe e.scheduledTime ARMAGEDDON) :
    executiveClearMatchingActionAndEnv s a env =
      .ok (⟨{ s.exec with events := s.exec.events.filter (fun e =>
              decide (e.addr = s.exec.sentinel.addr) ||
                !(decide (e.action = a) && decide (e.env = env))) },
          freeLog ((userEvents s.exec).filter fun e =>
            decide (e.action = a) && decide (e.env = env)) s.log⟩,
        ((userEvents s.exec).filter fun e =>
            decide (e.action = a) && decide (e.env = env)).length) := by
  unfold executiveClearMatchingActionAndEnv
  exact matching_exact s hr hle fun el => decide (el.action = a) && decide (el.env = env)

/-- At a concrete input of the theorem above: events (action 10, env 100),
(action 10, env 0), (action 11, env 100) and (action 10, env 100) are pending;
clearing action 10 with env 100 removes the first and the last and returns 2. -/
theorem clear_matching_action_env_exact_witness :
    executiveClearMatchingActionAndEnv
        ⟨⟨1, [⟨3, 1, ⟨1, 0⟩, 10, 100, 0⟩, ⟨4, 1, ⟨2, 0⟩, 10, 0, 0⟩,
          ⟨5, 1, ⟨3, 0⟩, 11, 100, 0⟩, ⟨6, 1, ⟨4, 0⟩, 10, 100, 0⟩,
          ⟨2, 0, ARMAGEDDON, 0, 0, 0⟩], ⟨2, 0, ARMAGEDDON, 0, 0, 0⟩⟩, []⟩ 10 100 =
      .ok (⟨⟨1, [⟨4, 1, ⟨2, 0⟩, 10, 0, 0⟩, ⟨5, 1, ⟨3, 0⟩, 11, 100, 0⟩,
          ⟨2, 0, ARMAGEDDON, 0, 0, 0⟩], ⟨2, 0, ARMAGEDDON, 0, 0, 0⟩⟩, []⟩, 2) :=
  clear_matching_action_env_exact
    ⟨⟨1, [⟨3, 1, ⟨1, 0⟩, 10, 100, 0⟩, ⟨4, 1, ⟨2, 0⟩, 10, 0, 0⟩,
      ⟨5, 1, ⟨3, 0⟩, 11, 100, 0⟩, ⟨6, 1, ⟨4, 0⟩, 10, 100, 0⟩,
      ⟨2, 0, ARMAGEDDON, 0, 0, 0⟩], ⟨2, 0, ARMAGEDDON, 0, 0, 0⟩⟩, []⟩
    ⟨1, 2, _, [.addWithEnv 3 ⟨1, 0⟩ 10 100, .add 4 ⟨2, 0⟩ 10, .addWithEnv 5 ⟨3, 0⟩ 11 100,
      .addWithEnv 6 ⟨4, 0⟩ 10 100], rfl, rfl, rfl⟩ 10 100
    (by
      intro e he
      simp only [List.mem_cons, List.mem_singleton, List.not_mem_nil, or_false] at he
      rcases he with rfl | rfl | rfl | rfl | rfl <;> decide)

/-! ## Destructors and actions on the disposal paths -/

theorem eventFree_nil (e : Event) :
    executiveEventFree e [] =
      if e.env ≠ 0 ∧ e.envFree ≠ 0 then [Call.envFree e.envFree e.env] else [] := by
  unfold executiveEventFree
  split <;> simp

theorem disposals_eq (l : List Event) :
    disposals l =
      (l.filter fun e => decide (e.env ≠ 0 ∧ e.envFree ≠ 0)).map
        fun e => Call.envFree e.envFree e.env := by
  induction l with
  | nil => rfl
  | cons x xs ih =>
    have hd : disposals (x :: xs) = executiveEventFree x [] ++ disposals xs := by
      simp [disposals, List.flatMap_cons]
    rw [hd, ih, eventFree_nil]
    by_cases hx : x.env ≠ 0 ∧ x.envFree ≠ 0
    · simp [List.filter_cons, hx]
    · rw [if_neg hx]
      simp only [List.filter_cons, hx, decide_False, Bool.false_eq_true, if_false,
        List.nil_append]

theorem envFreeCalls_acts (removed : List Event) (now : Timeval) :
    envFreeCalls (removed.flatMap fun x =>
      if x.action ≠ 0 then [Call.action x.action x now] else []) = [] := by
  induction removed with
  | nil => rfl
  | cons x xs ih =>
    simp only [List.flatMap_cons, envFreeCalls_append, ih, List.append_nil]
    split <;> simp [envFreeCalls]

/-- C14 (as stated, refuted): an event is added with executiveAddWithFreeFunc
with the non-null destructor 200 and a null env; executiveClear then disposes
it (only the sentinel is left) and the log holds no destructor call. -/
theorem destructor_once_counterexample :
    ∃ ex, executiveNew 1 2 = some ex ∧
      allocsOk noReentry (fresh ex) [.addWithFreeFunc 3 ⟨10, 0⟩ 10 0 200, .clear] = true ∧
      (run noReentry (fresh ex) [.addWithFreeFunc 3 ⟨10, 0⟩ 10 0 200, .clear]).map
        (fun s => (s.exec.events, envFreeCalls s.log)) =
        .ok ([⟨2, 0, ARMAGEDDON, 0, 0, 0⟩], []) :=
  ⟨_, rfl, rfl, rfl⟩

/-- C14 (amended): in every reachable scheduler, executiveFire, executiveClear
and each clear-matching operation return, and the destructor calls they add to
the log are, in list order, exactly one call `envFree (env)` for each event
that left the list with a non-null destructor and a non-null env, and none for
the events that left with a null destructor (or a null env). -/
theorem destructor_once (s : State) (hr : Reachable s) (op : Op) (hop : op.alloc = none) :
    ∃ s1 r removed, step noReentry s op = .ok (s1, r) ∧
      s.exec.events.Perm (removed ++ s1.exec.events) ∧
      envFreeCalls s1.log = envFreeCalls s.log ++
        (removed.filter fun e => decide (e.env ≠ 0 ∧ e.envFree ≠ 0)).map
          fun e => Call.envFree e.envFree e.env := by
  obtain ⟨s1, r, removed, acts, h1, -, h3, -, h5, h6⟩ := step_disposes s hr op hop
  refine ⟨s1, r, removed, h1, h3, ?_⟩
  have hacts : envFreeCalls acts = [] := by
    rcases h6 with ⟨now, -, -, -, h7⟩ | ⟨-, h7, -⟩
    · rw [h7]; exact envFreeCalls_acts removed now
    · rw [h7]; rfl
  rw [h5, envFreeCalls_append, envFreeCalls_append, hacts, envFreeCalls_disposals,
    disposals_eq]
  simp

/-- C14 (amended), at a concrete input: a heap block at address 100 is added
with destructor 200 at {10,0}; clear returns 1 and the log gains the single
call 200 (100). -/
theorem destructor_once_witness :
    (∃ s1 r removed,
      step noReentry
          ⟨⟨1, [⟨3, 1, ⟨10, 0⟩, 10, 100, 200⟩, ⟨2, 0, ARMAGEDDON, 0, 0, 0⟩],
            ⟨2, 0, ARMAGEDDON, 0, 0, 0⟩⟩, []⟩ Op.clear = .ok (s1, r) ∧
      (⟨⟨1, [⟨3, 1, ⟨10, 0⟩, 10, 100, 200⟩, ⟨2, 0, ARMAGEDDON, 0, 0, 0⟩],
            ⟨2, 0, ARMAGEDDON, 0, 0, 0⟩⟩, []⟩ : State).exec.events.Perm
          (removed ++ s1.exec.events) ∧
      envFreeCalls s1.log = envFreeCalls [] ++
        (removed.filter fun e => decide (e.env ≠ 0 ∧ e.envFree ≠ 0)).map
          fun e => Call.envFree e.envFree e.env) ∧
    (step noReentry
          ⟨⟨1, [⟨3, 1, ⟨10, 0⟩, 10, 100, 200⟩, ⟨2, 0, ARMAGEDDON, 0, 0, 0⟩],
            ⟨2, 0, ARMAGEDDON, 0, 0, 0⟩⟩, []⟩ Op.clear).map
        (fun v => (v.1.log, v.2)) = .ok ([Call.envFree 200 100], 1) :=
  ⟨destructor_once
      ⟨⟨1, [⟨3, 1, ⟨10, 0⟩, 10, 100, 200⟩, ⟨2, 0, ARMAGEDDON, 0, 0, 0⟩],
        ⟨2, 0, ARMAGEDDON, 0, 0, 0⟩⟩, []⟩
      ⟨1, 2, _, [.addWithFreeFunc 3 ⟨10, 0⟩ 10 100 200], rfl, rfl, rfl⟩ Op.clear rfl,
    rfl⟩

/-- C15 (the code at the failing input): an event with env 100 and destructor
200 is pending in a reachable scheduler; executiveFree returns the log as it
was, so neither that destructor nor anything else is called for the pending
event. -/
theorem executiveFree_skips_pending :
    ∃ s, Reachable s ∧
      (∃ e ∈ userEvents s.exec, e.env = 100 ∧ e.envFree = 200) ∧
      s.log = [] ∧ executiveFree s = [] :=
  ⟨⟨⟨1, [⟨3, 1, ⟨10, 0⟩, 10, 100, 200⟩, ⟨2, 0, ARMAGEDDON, 0, 0, 0⟩],
      ⟨2, 0, ARMAGEDDON, 0, 0, 0⟩⟩, []⟩,
    ⟨1, 2, _, [.addWithFreeFunc 3 ⟨10, 0⟩ 10 100 200], rfl, rfl, rfl⟩,
    ⟨⟨3, 1, ⟨10, 0⟩, 10, 100, 200⟩, by decide, rfl, rfl⟩, rfl, rfl⟩

/-- C16: executiveEventFree calls the destructor if and only if both the env
and the destructor of the event are non-null, and then with that env as the
argument; and on every disposal path of a reachable scheduler (fire, clear,
the clear-matching operations) the log gains, after the action call of a fire,
exactly these calls for the events that leave the list, in list order. -/
theorem destructor_condition (s : State) (hr : Reachable s) (op : Op)
    (hop : op.alloc = none) :
    (∀ (e : Event) (log : List Call),
      executiveEventFree e log = log ++
        if e.env ≠ 0 ∧ e.envFree ≠ 0 then [Call.envFree e.envFree e.env] else []) ∧
    ∃ s1 r removed acts, step noReentry s op = .ok (s1, r) ∧
      s.exec.events.Perm (removed ++ s1.exec.events) ∧
      actionCalls acts = acts ∧
      s1.log = s.log ++ acts ++ removed.flatMap fun e =>
        if e.env ≠ 0 ∧ e.envFree ≠ 0 then [Call.envFree e.envFree e.env] else [] := by
  constructor
  · intro e log
    rw [eventFree_eq, eventFree_nil]
  · obtain ⟨s1, r, removed, acts, h1, -, h3, -, h5, h6⟩ := step_disposes s hr op hop
    refine ⟨s1, r, removed, acts, h1, h3, ?_, ?_⟩
    · rcases h6 with ⟨now, -, -, -, h7⟩ | ⟨-, h7, -⟩
      · rw [h7]
        clear h7 h3 h5
        induction removed with
        | nil => rfl
        | cons x xs ih =>
          simp only [List.flatMap_cons, actionCalls_append, ih]
          split <;> simp [actionCalls]
      · rw [h7]; rfl
    · rw [h5]
      rfl

/-- C16, at a concrete input: the head has env 100 and destructor 200; one
fire calls its action 7 and then the destructor 200 with 100. -/
theorem destructor_condition_witness :
    ((∀ (e : Event) (log : List Call),
      executiveEventFree e log = log ++
        if e.env ≠ 0 ∧ e.envFree ≠ 0 then [Call.envFree e.envFree e.env] else []) ∧
    ∃ s1 r removed acts,
      step noReentry
          ⟨⟨1, [⟨3, 1, ⟨10, 0⟩, 7, 100, 200⟩, ⟨2, 0, ARMAGEDDON, 0, 0, 0⟩],
            ⟨2, 0, ARMAGEDDON, 0, 0, 0⟩⟩, []⟩ (Op.fire ⟨50, 0⟩) = .ok (s1, r) ∧
      (⟨⟨1, [⟨3, 1, ⟨10, 0⟩, 7, 100, 200⟩, ⟨2, 0, ARMAGEDDON, 0, 0, 0⟩],
            ⟨2, 0, ARMAGEDDON, 0, 0, 0⟩⟩, []⟩ : State).exec.events.Perm
          (removed ++ s1.exec.events) ∧
      actionCalls acts = acts ∧
      s1.log = [] ++ acts ++ removed.flatMap fun e =>
        if e.env ≠ 0 ∧ e.envFree ≠ 0 then [Call.envFree e.envFree e.env] else []) ∧
    (step noReentry
          ⟨⟨1, [⟨3, 1, ⟨10, 0⟩, 7, 100, 200⟩, ⟨2, 0, ARMAGEDDON, 0, 0, 0⟩],
            ⟨2, 0, ARMAGEDDON, 0, 0, 0⟩⟩, []⟩ (Op.fire ⟨50, 0⟩)).map (fun v => v.1.log) =
      .ok [Call.action 7 ⟨3, 1, ⟨10, 0⟩, 7, 100, 200⟩ ⟨50, 0⟩, Call.envFree 200 100] :=
  ⟨destructor_condition
      ⟨⟨1, [⟨3, 1, ⟨10, 0⟩, 7, 100, 200⟩, ⟨2, 0, ARMAGEDDON, 0, 0, 0⟩],
        ⟨2, 0, ARMAGEDDON, 0, 0, 0⟩⟩, []⟩
      ⟨1, 2, _, [.addWithFreeFunc 3 ⟨10, 0⟩ 7 100 200], rfl, rfl, rfl⟩ (Op.fire ⟨50, 0⟩) rfl,
    rfl⟩

/-- A clear operation on a reachable scheduler returns and adds no action call
to the log. -/
theorem clear_op_no_action (s : State) (hr : Reachable s) (op : Op)
    (hop : op.alloc = none) (hnf : ∀ now, op ≠ Op.fire now) :
    ∃ s1 r, step noReentry s op = .ok (s1, r) ∧ actionCalls s1.log = actionCalls s.log := by
  obtain ⟨s1, r, removed, acts, h1, -, -, -, h5, h6⟩ := step_disposes s hr op hop
  refine ⟨s1, r, h1, ?_⟩
  rcases h6 with ⟨now, h7, -⟩ | ⟨-, h7, -⟩
  · exact absurd h7 (hnf now)
  · rw [h5, h7, actionCalls_append, actionCalls_append, actionCalls_disposals]
    simp [actionCalls]

/-- C17: on every reachable scheduler each of executiveClear,
executiveClearMatchingTime, executiveClearMatchingAction,
executiveClearMatchingEnv and executiveClearMatchingActionAndEnv returns and
leaves the trace of action calls as it was. -/
theorem cancel_skips_action (s : State) (hr : Reachable s) (tv : Timeval) (a env : Nat) :
    (∃ s1 r, executiveClear s = .ok (s1, r) ∧ actionCalls s1.log = actionCalls s.log) ∧
    (∃ s1 r, executiveClearMatchingTime s tv = .ok (s1, r) ∧
      actionCalls s1.log = actionCalls s.log) ∧
    (∃ s1 r, executiveClearMatchingAction s a = .ok (s1, r) ∧
      actionCalls s1.log = actionCalls s.log) ∧
    (∃ s1 r, executiveClearMatchingEnv s env = .ok (s1, r) ∧
      actionCalls s1.log = actionCalls s.log) ∧
    (∃ s1 r, executiveClearMatchingActionAndEnv s a env = .ok (s1, r) ∧
      actionCalls s1.log = actionCalls s.log) :=
  ⟨clear_op_no_action s hr Op.clear rfl (fun _ h => by cases h),
    clear_op_no_action s hr (Op.clearMatchingTime tv) rfl (fun _ h => by cases h),
    clear_op_no_action s hr (Op.clearMatchingAction a) rfl (fun _ h => by cases h),
    clear_op_no_action s hr (Op.clearMatchingEnv env) rfl (fun _ h => by cases h),
    clear_op_no_action s hr (Op.clearMatchingActionAndEnv a env) rfl (fun _ h => by cases h)⟩

/-- C17, at a concrete input: an action call is already in the log and two
events are pending; none of the five clear operations adds an action call. -/
theorem cancel_skips_action_witness :
    (∃ s1 r, executiveClear
        ⟨⟨1, [⟨4, 1, ⟨2, 0⟩, 11, 100, 200⟩, ⟨5, 1, ⟨3, 0⟩, 10, 0, 0⟩,
          ⟨2, 0, ARMAGEDDON, 0, 0, 0⟩], ⟨2, 0, ARMAGEDDON, 0, 0, 0⟩⟩,
          [Call.action 10 ⟨3, 1, ⟨1, 0⟩, 10, 0, 0⟩ ⟨9, 0⟩]⟩ = .ok (s1, r) ∧
      actionCalls s1.log = actionCalls [Call.action 10 ⟨3, 1, ⟨1, 0⟩, 10, 0, 0⟩ ⟨9, 0⟩]) ∧
    (∃ s1 r, executiveClearMatchingTime
        ⟨⟨1, [⟨4, 1, ⟨2, 0⟩, 11, 100, 200⟩, ⟨5, 1, ⟨3, 0⟩, 10, 0, 0⟩,
          ⟨2, 0, ARMAGEDDON, 0, 0, 0⟩], ⟨2, 0, ARMAGEDDON, 0, 0, 0⟩⟩,
          [Call.action 10 ⟨3, 1, ⟨1, 0⟩, 10, 0, 0⟩ ⟨9, 0⟩]⟩ ⟨2, 0⟩ = .ok (s1, r) ∧
      actionCalls s1.log = actionCalls [Call.action 10 ⟨3, 1, ⟨1, 0⟩, 10, 0, 0⟩ ⟨9, 0⟩]) ∧
    (∃ s1 r, executiveClearMatchingAction
        ⟨⟨1, [⟨4, 1, ⟨2, 0⟩, 11, 100, 200⟩, ⟨5, 1, ⟨3, 0⟩, 10, 0, 0⟩,
          ⟨2, 0, ARMAGEDDON, 0, 0, 0⟩], ⟨2, 0, ARMAGEDDON, 0, 0, 0⟩⟩,
          [Call.action 10 ⟨3, 1, ⟨1, 0⟩, 10, 0, 0⟩ ⟨9, 0⟩]⟩ 11 = .ok (s1, r) ∧
      actionCalls s1.log = actionCalls [Call.action 10 ⟨3, 1, ⟨1, 0⟩, 10, 0, 0⟩ ⟨9, 0⟩]) ∧
    (∃ s1 r, executiveClearMatchingEnv
        ⟨⟨1, [⟨4, 1, ⟨2, 0⟩, 11, 100, 200⟩, ⟨5, 1, ⟨3, 0⟩, 10, 0, 0⟩,
          ⟨2, 0, ARMAGEDDON, 0, 0, 0⟩], ⟨2, 0, ARMAGEDDON, 0, 0, 0⟩⟩,
          [Call.action 10 ⟨3, 1, ⟨1, 0⟩, 10, 0, 0⟩ ⟨9, 0⟩]⟩ 100 = .ok (s1, r) ∧
      actionCalls s1.log = actionCalls [Call.action 10 ⟨3, 1, ⟨1, 0⟩, 10, 0, 0⟩ ⟨9, 0⟩]) ∧
    (∃ s1 r, executiveClearMatchingActionAndEnv
        ⟨⟨1, [⟨4, 1, ⟨2, 0⟩, 11, 100, 200⟩, ⟨5, 1, ⟨3, 0⟩, 10, 0, 0⟩,
          ⟨2, 0, ARMAGEDDON, 0, 0, 0⟩], ⟨2, 0, ARMAGEDDON, 0, 0, 0⟩⟩,
          [Call.action 10 ⟨3, 1, ⟨1, 0⟩, 10, 0, 0⟩ ⟨9, 0⟩]⟩ 11 100 = .ok (s1, r) ∧
      actionCalls s1.log = actionCalls [Call.action 10 ⟨3, 1, ⟨1, 0⟩, 10, 0, 0⟩ ⟨9, 0⟩]) :=
  cancel_skips_action
    ⟨⟨1, [⟨4, 1, ⟨2, 0⟩, 11, 100, 200⟩, ⟨5, 1, ⟨3, 0⟩, 10, 0, 0⟩,
      ⟨2, 0, ARMAGEDDON, 0, 0, 0⟩], ⟨2, 0, ARMAGEDDON, 0, 0, 0⟩⟩,
      [Call.action 10 ⟨3, 1, ⟨1, 0⟩, 10, 0, 0⟩ ⟨9, 0⟩]⟩
    ⟨1, 2, _, [.add 3 ⟨1, 0⟩ 10, .addWithFreeFunc 4 ⟨2, 0⟩ 11 100 200, .add 5 ⟨3, 0⟩ 10,
      .fire ⟨9, 0⟩], rfl, rfl, rfl⟩ ⟨2, 0⟩ 11 100

/-! ## The sentinel -/

theorem newEvent_time (a : Nat) (op : Op) (e : Event) (h : op.newEvent a = some e) :
    op.addTime = some e.scheduledTime := by
  cases op <;> simp only [Op.newEvent, Option.some.injEq] at h <;> first
    | (subst h; rfl)
    | cases h

/-- The events of the list after a call were there before or are the event the
call adds. -/
theorem stepRel_mem {a : Nat} {op : Op} {pre post pre2 post2 : List Event}
    {log log2 : List Call} {r : Nat}
    (hrel : StepRel a op pre post log pre2 post2 log2 r) :
    ∀ x ∈ pre2 ++ post2, x ∈ pre ++ post ∨ op.newEvent a = some x := by
  intro x hx
  cases hne : op.newEvent a with
  | none =>
    obtain ⟨removed, acts, hperm, -, hpost, -⟩ := stepRel_removed hrel hne
    subst hpost
    left
    rcases List.mem_append.1 hx with hx | hx
    · exact List.mem_append.2 (Or.inl (hperm.mem_iff.2 (List.mem_append.2 (Or.inr hx))))
    · exact List.mem_append.2 (Or.inr hx)
  | some e =>
    simp only [StepRel, hne] at hrel
    obtain ⟨-, -, hpl⟩ := hrel
    rcases hpl with ⟨-, h1, h2⟩ | ⟨-, h1, h2⟩
    · subst h1 h2
      rcases List.mem_append.1 hx with hx | hx
      · rcases (mem_insert_sorted _ _ _ _).1 hx with rfl | hx
        · exact Or.inr rfl
        · exact Or.inl (List.mem_append.2 (Or.inl hx))
      · exact Or.inl (List.mem_append.2 (Or.inr hx))
    · subst h1 h2
      rcases List.mem_append.1 hx with hx | hx
      · exact Or.inl (List.mem_append.2 (Or.inl hx))
      · rcases (mem_insert_sorted _ _ _ _).1 hx with rfl | hx
        · exact Or.inr rfl
        · exact Or.inl (List.mem_append.2 (Or.inr hx))

/-- C18 (the code at the failing input): after one add at {2147483648, 0},
one second after INT_MAX, the last element of the list is the added event and
the sentinel is in front of it. -/
theorem sentinel_not_last :
    ∃ ex s, executiveNew 1 2 = some ex ∧
      allocsOk noReentry (fresh ex) [.add 3 ⟨2147483648, 0⟩ 10] = true ∧
      run noReentry (fresh ex) [.add 3 ⟨2147483648, 0⟩ 10] = .ok s ∧
      s.exec.events.getLast? = some ⟨3, 1, ⟨2147483648, 0⟩, 10, 0, 0⟩ ∧
      s.exec.events.getLast? ≠ some s.exec.sentinel :=
  ⟨_, _, rfl, rfl, rfl, rfl, by decide⟩

/-- For every sequence of operations on a fresh scheduler in
which no add passes a time later than armageddon (allocations succeeding,
actions not re-entering), the run returns and the sentinel is the last element
of the event list. -/
theorem sentinel_last (self p : Nat) (ex : Executive) (ops : List Op)
    (hnew : executiveNew self p = some ex)
    (htimes : ∀ op ∈ ops, ∀ tv, op.addTime = some tv → lexLe tv ARMAGEDDON)
    (hal : allocsOk noReentry (fresh ex) ops = true) :
    ∃ s, run noReentry (fresh ex) ops = .ok s ∧
      s.exec.events.getLast? = some s.exec.sentinel := by
  obtain ⟨hex, hsh⟩ := new_shape hnew
  subst hex
  obtain ⟨pre2, post2, log2, hrun, -, hP⟩ :=
    run_invariant (fun op => ∀ tv, op.addTime = some tv → lexLe tv ARMAGEDDON)
      (fun _ post _ => post = [])
      (by
        intro op pre post log pre2 post2 log2 r hq _ hP hrel _
        subst hP
        exact (stepRel_tally (S := executiveEventInit p 0 ARMAGEDDON 0 0 0) ⟨0, 0, 0⟩
          hrel hq).1)
      ops [] [] [] hsh rfl htimes hal
  subst hP
  refine ⟨_, hrun, ?_⟩
  simp

/-- At a concrete input of the theorem above: adds at {3,0}, at armageddon itself
and at {1,0}, a fire and a clear by time. -/
theorem sentinel_last_witness :
    (∃ s, run noReentry (fresh ⟨1, [⟨2, 0, ARMAGEDDON, 0, 0, 0⟩], ⟨2, 0, ARMAGEDDON, 0, 0, 0⟩⟩)
        [.add 3 ⟨3, 0⟩ 10, .add 4 ARMAGEDDON 10, .add 5 ⟨1, 0⟩ 10, .fire ⟨9, 0⟩,
          .clearMatchingTime ⟨3, 0⟩] = .ok s ∧
      s.exec.events.getLast? = some s.exec.sentinel) ∧
    (run noReentry (fresh ⟨1, [⟨2, 0, ARMAGEDDON, 0, 0, 0⟩], ⟨2, 0, ARMAGEDDON, 0, 0, 0⟩⟩)
        [.add 3 ⟨3, 0⟩ 10, .add 4 ARMAGEDDON 10, .add 5 ⟨1, 0⟩ 10, .fire ⟨9, 0⟩,
          .clearMatchingTime ⟨3, 0⟩]).map (fun s => s.exec.events.map Event.addr) =
      .ok [4, 2] :=
  ⟨sentinel_last 1 2 ⟨1, [⟨2, 0, ARMAGEDDON, 0, 0, 0⟩], ⟨2, 0, ARMAGEDDON, 0, 0, 0⟩⟩
      [.add 3 ⟨3, 0⟩ 10, .add 4 ARMAGEDDON 10, .add 5 ⟨1, 0⟩ 10, .fire ⟨9, 0⟩,
        .clearMatchingTime ⟨3, 0⟩] rfl
      (by
        intro op hop tv htv
        simp only [List.mem_cons, List.mem_singleton, List.not_mem_nil, or_false] at hop
        rcases hop with rfl | rfl | rfl | rfl | rfl <;>
          simp only [Op.addTime, Option.some.injEq] at htv <;> first
            | (subst htv; decide)
            | cases htv)
      rfl,
    rfl⟩

/-- A property of the parts of the list and of the log that holds for a fresh
scheduler and is kept by every call holds in every reachable state. -/
theorem Reachable.invariant {s : State} (h : Reachable s)
    (P : Nat → Event → List Event → List Event → List Call → Prop)
    (hinit : ∀ a S, P a S [] [] [])
    (hstep : ∀ a S op pre post log pre2 post2 log2 r, Shape a S pre post →
      P a S pre post log → StepRel a op pre post log pre2 post2 log2 r →
      Shape a S pre2 post2 → P a S pre2 post2 log2) :
    ∃ a S pre post log, s = ⟨⟨a, pre ++ S :: post, S⟩, log⟩ ∧ Shape a S pre post ∧
      P a S pre post log := by
  obtain ⟨self, p, ex, ops, hnew, hal, hrun⟩ := h
  obtain ⟨hex, hsh⟩ := new_shape hnew
  subst hex
  obtain ⟨pre2, post2, log2, h2, hsh2, hP⟩ :=
    run_invariant (fun _ => True) (P self (executiveEventInit p 0 ARMAGEDDON 0 0 0))
      (fun op pre post log pre2 post2 log2 r _ h1 h2 h3 h4 =>
        hstep self _ op pre post log pre2 post2 log2 r h1 h2 h3 h4)
      ops [] [] [] hsh (hinit _ _) (fun _ _ => trivial) hal
  unfold fresh at hrun
  rw [h2] at hrun
  cases hrun
  exact ⟨self, _, pre2, post2, log2, rfl, hsh2, hP⟩

theorem firedEvents_append (l1 l2 : List Call) :
    firedEvents (l1 ++ l2) = firedEvents l1 ++ firedEvents l2 := by
  simp [firedEvents, List.filterMap_append]

theorem firedEvents_disposals (l : List Event) : firedEvents (disposals l) = [] := by
  have := firedEvents_freeLog l []
  rw [freeLog_eq] at this
  simpa [firedEvents] using this

/-- The handles a call passes to actions are events of the front part. -/
theorem stepRel_fired {a : Nat} {op : Op} {pre post pre2 post2 : List Event}
    {log log2 : List Call} {r : Nat}
    (hrel : StepRel a op pre post log pre2 post2 log2 r) :
    ∀ x ∈ firedEvents log2, x ∈ firedEvents log ∨ x ∈ pre := by
  intro x hx
  cases hne : op.newEvent a with
  | some e =>
    simp only [StepRel, hne] at hrel
    rw [hrel.1] at hx
    exact Or.inl hx
  | none =>
    obtain ⟨removed, acts, -, hsub, -, hlog, halt⟩ := stepRel_removed hrel hne
    rw [hlog, firedEvents_append, firedEvents_append, firedEvents_disposals,
      List.append_nil] at hx
    rcases List.mem_append.1 hx with hx | hx
    · exact Or.inl hx
    · right
      rcases halt with ⟨now, -, -, h4⟩ | ⟨-, h4, -⟩
      · rcases h4 with ⟨-, h5, -⟩ | ⟨y, h5, -, h6⟩
        · rw [h5] at hx; simp [firedEvents] at hx
        · rw [h6] at hx
          by_cases hy : y.action ≠ 0
          · rw [if_pos hy] at hx
            simp only [firedEvents, List.filterMap_cons, List.filterMap_nil,
              List.mem_singleton] at hx
            subst hx
            exact hsub.subset (by rw [h5]; simp)
          · rw [if_neg hy] at hx; simp [firedEvents] at hx
      · rw [h4] at hx; simp [firedEvents] at hx

/-- C19: in every reachable scheduler exactly one node of the list holds the
sentinel pointer, and no handle passed to an action is the sentinel; every
operation (with any time, action or env argument, armageddon and null
included) returns, keeps the sentinel pointer and keeps the sentinel in the
list, and the count returned by a clear operation is the number of user events
that left the list, so the sentinel is never counted. -/
theorem sentinel_never_removed (s : State) (hr : Reachable s) :
    s.exec.events.filter (fun e => decide (e.addr = s.exec.sentinel.addr)) =
        [s.exec.sentinel] ∧
    (∀ e ∈ firedEvents s.log, e.addr ≠ s.exec.sentinel.addr) ∧
    ∀ op, allocOk s op = true →
      ∃ s1 r, step noReentry s op = .ok (s1, r) ∧
        s1.exec.sentinel = s.exec.sentinel ∧
        s1.exec.events.filter (fun e => decide (e.addr = s1.exec.sentinel.addr)) =
          [s1.exec.sentinel] ∧
        (∀ e ∈ firedEvents s1.log, e.addr ≠ s1.exec.sentinel.addr) ∧
        (op.alloc = none → (∀ now, op ≠ Op.fire now) →
          (userEvents s1.exec).length + r = (userEvents s.exec).length) := by
  obtain ⟨a, S, pre, post, log, rfl, hsh, hP⟩ :=
    hr.invariant (fun _ S _ _ log => ∀ e ∈ firedEvents log, e.addr ≠ S.addr)
      (by intro a S e he; simp [firedEvents] at he)
      (by
        intro a S op pre post log pre2 post2 log2 r hsh hP hrel _ e he
        rcases stepRel_fired hrel e he with h | h
        · exact hP e h
        · exact hsh.pre_ne e h)
  have honce : ∀ (pre post : List Event), Shape a S pre post →
      (pre ++ S :: post).filter (fun e => decide (e.addr = S.addr)) = [S] := by
    intro pre post h
    have e1 : pre.filter (fun e => decide (e.addr = S.addr)) = [] := by
      rw [List.filter_eq_nil_iff]
      intro x hx
      simpa using h.pre_ne x hx
    have e2 : post.filter (fun e => decide (e.addr = S.addr)) = [] := by
      rw [List.filter_eq_nil_iff]
      intro x hx
      simpa using h.post_ne x hx
    simp [List.filter_append, List.filter_cons, e1, e2]
  refine ⟨honce pre post hsh, hP, ?_⟩
  intro op hal
  obtain ⟨pre2, post2, log2, r, h1, hsh2, hrel⟩ := step_shape log op hsh hal
  refine ⟨_, r, h1, rfl, honce pre2 post2 hsh2, ?_, ?_⟩
  · intro e he
    rcases stepRel_fired hrel e he with h | h
    · exact hP e h
    · exact hsh.pre_ne e h
  · intro hop hnf
    obtain ⟨removed, acts, hperm, -, hpost, -, halt⟩ :=
      stepRel_removed hrel ((newEvent_none_iff a op).2 hop)
    rw [userEvents_shape hsh, userEvents_shape hsh2, hpost]
    rcases halt with ⟨now, h2, -⟩ | ⟨-, -, h4, -⟩
    · exact absurd h2 (hnf now)
    · have := hperm.length_eq
      simp only [List.length_append] at this ⊢
      omega

/-- C19, at a concrete input: a user event at armageddon with a null action and
a null env is pending next to an event at {1,0}, one action call is in the
log; clearing the null action returns 1 and the sentinel is still in the
list. -/
theorem sentinel_never_removed_witness :
    ((⟨⟨1, [⟨3, 1, ⟨1, 0⟩, 10, 0, 0⟩, ⟨4, 1, ARMAGEDDON, 0, 0, 0⟩,
          ⟨2, 0, ARMAGEDDON, 0, 0, 0⟩], ⟨2, 0, ARMAGEDDON, 0, 0, 0⟩⟩,
          [Call.action 10 ⟨5, 1, ⟨0, 5⟩, 10, 0, 0⟩ ⟨9, 0⟩]⟩ : State).exec.events.filter
        (fun e => decide (e.addr = (2 : Nat))) = [⟨2, 0, ARMAGEDDON, 0, 0, 0⟩]) ∧
    (step noReentry
        ⟨⟨1, [⟨3, 1, ⟨1, 0⟩, 10, 0, 0⟩, ⟨4, 1, ARMAGEDDON, 0, 0, 0⟩,
          ⟨2, 0, ARMAGEDDON, 0, 0, 0⟩], ⟨2, 0, ARMAGEDDON, 0, 0, 0⟩⟩,
          [Call.action 10 ⟨5, 1, ⟨0, 5⟩, 10, 0, 0⟩ ⟨9, 0⟩]⟩
        (.clearMatchingAction 0)).map (fun v => (v.1.exec.events.map Event.addr, v.2)) =
      .ok ([3, 2], 1) :=
  ⟨(sentinel_never_removed
      ⟨⟨1, [⟨3, 1, ⟨1, 0⟩, 10, 0, 0⟩, ⟨4, 1, ARMAGEDDON, 0, 0, 0⟩,
        ⟨2, 0, ARMAGEDDON, 0, 0, 0⟩], ⟨2, 0, ARMAGEDDON, 0, 0, 0⟩⟩,
        [Call.action 10 ⟨5, 1, ⟨0, 5⟩, 10, 0, 0⟩ ⟨9, 0⟩]⟩
      ⟨1, 2, _, [.add 5 ⟨0, 5⟩ 10, .add 3 ⟨1, 0⟩ 10, .add 4 ARMAGEDDON 0, .fire ⟨9, 0⟩],
        rfl, rfl, rfl⟩).1,
    rfl⟩

/-- C20 (as stated, refuted): after one add at armageddon itself
(INT_MAX seconds, 999999 microseconds) the list holds a user event whose
scheduled time equals armageddon, in front of the sentinel. -/
theorem sentinel_time_unique_counterexample :
    ∃ s, Reachable s ∧
      ∃ e ∈ s.exec.events, e.scheduledTime = ARMAGEDDON ∧ e ≠ s.exec.sentinel ∧
        e.addr ≠ s.exec.sentinel.addr :=
  ⟨⟨⟨1, [⟨3, 1, ARMAGEDDON, 10, 0, 0⟩, ⟨2, 0, ARMAGEDDON, 0, 0, 0⟩],
      ⟨2, 0, ARMAGEDDON, 0, 0, 0⟩⟩, []⟩,
    ⟨1, 2, _, [.add 3 ARMAGEDDON 10], rfl, rfl, rfl⟩,
    ⟨3, 1, ARMAGEDDON, 10, 0, 0⟩, by decide, rfl, by decide, by decide⟩

/-- C20 (amended): for every sequence of operations on a fresh scheduler in
which no add passes the time armageddon itself (allocations succeeding, actions
not re-entering), the run returns, the sentinel is in the list with time
armageddon, and it is the only element of the list whose scheduled time equals
armageddon. -/
theorem sentinel_time_unique (self p : Nat) (ex : Executive) (ops : List Op)
    (hnew : executiveNew self p = some ex)
    (htimes : ∀ op ∈ ops, op.addTime ≠ some ARMAGEDDON)
    (hal : allocsOk noReentry (fresh ex) ops = true) :
    ∃ s, run noReentry (fresh ex) ops = .ok s ∧
      s.exec.sentinel ∈ s.exec.events ∧ s.exec.sentinel.scheduledTime = ARMAGEDDON ∧
      ∀ e ∈ s.exec.events, e.scheduledTime = ARMAGEDDON → e = s.exec.sentinel := by
  obtain ⟨hex, hsh⟩ := new_shape hnew
  subst hex
  obtain ⟨pre2, post2, log2, hrun, hsh2, hP⟩ :=
    run_invariant (fun op => op.addTime ≠ some ARMAGEDDON)
      (fun pre post _ => ∀ e ∈ pre ++ post, e.scheduledTime ≠ ARMAGEDDON)
      (by
        intro op pre post log pre2 post2 log2 r hq _ hP hrel _ e he
        rcases stepRel_mem hrel e he with h | h
        · exact hP e h
        · intro heq
          apply hq
          rw [newEvent_time _ op e h, heq])
      ops [] [] [] hsh (by simp) htimes hal
  refine ⟨_, hrun, by simp, hsh2.sentinel_time, ?_⟩
  intro e he heq
  simp only [List.mem_append, List.mem_cons] at he
  rcases he with he | rfl | he
  · exact absurd heq (hP e (List.mem_append.2 (Or.inl he)))
  · rfl
  · exact absurd heq (hP e (List.mem_append.2 (Or.inr he)))

/-- C20 (amended), at a concrete input: adds at {3,0}, one microsecond before
armageddon and one second after INT_MAX, then a fire. -/
theorem sentinel_time_unique_witness :
    (∃ s, run noReentry (fresh ⟨1, [⟨2, 0, ARMAGEDDON, 0, 0, 0⟩], ⟨2, 0, ARMAGEDDON, 0, 0, 0⟩⟩)
        [.add 3 ⟨3, 0⟩ 10, .add 4 ⟨INT_MAX, 999998⟩ 10, .add 5 ⟨2147483648, 0⟩ 10,
          .fire ⟨9, 0⟩] = .ok s ∧
      s.exec.sentinel ∈ s.exec.events ∧ s.exec.sentinel.scheduledTime = ARMAGEDDON ∧
      ∀ e ∈ s.exec.events, e.scheduledTime = ARMAGEDDON → e = s.exec.sentinel) ∧
    (run noReentry (fresh ⟨1, [⟨2, 0, ARMAGEDDON, 0, 0, 0⟩], ⟨2, 0, ARMAGEDDON, 0, 0, 0⟩⟩)
        [.add 3 ⟨3, 0⟩ 10, .add 4 ⟨INT_MAX, 999998⟩ 10, .add 5 ⟨2147483648, 0⟩ 10,
          .fire ⟨9, 0⟩]).map (fun s => s.exec.events.map Event.addr) = .ok [4, 2, 5] :=
  ⟨sentinel_time_unique 1 2 ⟨1, [⟨2, 0, ARMAGEDDON, 0, 0, 0⟩], ⟨2, 0, ARMAGEDDON, 0, 0, 0⟩⟩
      [.add 3 ⟨3, 0⟩ 10, .add 4 ⟨INT_MAX, 999998⟩ 10, .add 5 ⟨2147483648, 0⟩ 10,
        .fire ⟨9, 0⟩] rfl
      (by
        intro op hop
        simp only [List.mem_cons, List.mem_singleton, List.not_mem_nil, or_false] at hop
        rcases hop with rfl | rfl | rfl | rfl <;> decide)
      rfl,
    rfl⟩

/-! ## The empty scheduler -/

/-- A reachable scheduler of length 0 holds the sentinel and nothing else. -/
theorem Reachable.empty_events {s : State} (hr : Reachable s)
    (hlen : executiveLength s.exec = 0) :
    s.exec.events = [s.exec.sentinel] ∧ s.exec.sentinel.scheduledTime = ARMAGEDDON := by
  obtain ⟨a, S, pre, post, log, rfl, hsh⟩ := hr.shape
  rw [executiveLength_shape] at hlen
  have h1 : pre = [] := List.length_eq_zero.1 (by omega)
  have h2 : post = [] := List.length_eq_zero.1 (by omega)
  subst h1 h2
  exact ⟨rfl, hsh.sentinel_time⟩

/-- C21: on a fresh scheduler, and on every reachable scheduler with
executiveLength 0, executivePeek returns the armageddon time, whose seconds are
INT_MAX (2147483647) and whose microseconds are 999999. -/
theorem peek_empty (s : State) (hr : Reachable s) (hlen : executiveLength s.exec = 0) :
    executivePeek s.exec = (s.exec, some ARMAGEDDON) ∧
    (∀ self p ex, executiveNew self p = some ex →
      executiveLength ex = 0 ∧ executivePeek ex = (ex, some ARMAGEDDON)) ∧
    ARMAGEDDON.tv_sec = INT_MAX ∧ INT_MAX = 2147483647 ∧ ARMAGEDDON.tv_usec = 999999 := by
  refine ⟨?_, ?_, rfl, rfl, rfl⟩
  · obtain ⟨h1, h2⟩ := hr.empty_events hlen
    simp only [executivePeek, h1, g_list_nth_data, Option.map_some', h2]
  · intro self p ex hnew
    obtain ⟨hex, -⟩ := new_shape hnew
    subst hex
    exact ⟨rfl, rfl⟩

/-- C21, at a concrete input: one event was added and fired; the scheduler is
empty again and peek returns armageddon. -/
theorem peek_empty_witness :
    executivePeek (⟨⟨1, [⟨2, 0, ARMAGEDDON, 0, 0, 0⟩], ⟨2, 0, ARMAGEDDON, 0, 0, 0⟩⟩,
        [Call.action 10 ⟨3, 1, ⟨1, 0⟩, 10, 0, 0⟩ ⟨9, 0⟩]⟩ : State).exec =
      ((⟨⟨1, [⟨2, 0, ARMAGEDDON, 0, 0, 0⟩], ⟨2, 0, ARMAGEDDON, 0, 0, 0⟩⟩,
        [Call.action 10 ⟨3, 1, ⟨1, 0⟩, 10, 0, 0⟩ ⟨9, 0⟩]⟩ : State).exec,
        some ⟨2147483647, 999999⟩) :=
  (peek_empty
    ⟨⟨1, [⟨2, 0, ARMAGEDDON, 0, 0, 0⟩], ⟨2, 0, ARMAGEDDON, 0, 0, 0⟩⟩,
      [Call.action 10 ⟨3, 1, ⟨1, 0⟩, 10, 0, 0⟩ ⟨9, 0⟩]⟩
    ⟨1, 2, _, [.add 3 ⟨1, 0⟩ 10, .fire ⟨9, 0⟩], rfl, rfl, rfl⟩ (by decide)).1

/-- C22: on every reachable scheduler with executiveLength 0, for every actual
time and whatever the actions would do, executiveFire returns the state it was
given: the event list and the log of action and destructor calls are
unchanged, and executiveLength is still 0. -/
theorem fire_empty (act : ActionSem) (s : State) (hr : Reachable s)
    (hlen : executiveLength s.exec = 0) (actual : Timeval) :
    ∃ s1, executiveFire act s actual = .ok s1 ∧ s1.exec.events = s.exec.events ∧
      s1.log = s.log ∧ s1 = s ∧ executiveLength s1.exec = 0 := by
  obtain ⟨h1, -⟩ := hr.empty_events hlen
  refine ⟨s, ?_, rfl, rfl, rfl, hlen⟩
  simp only [executiveFire, h1, g_list_nth_data, ptrOf, if_true]

/-- C22, at a concrete input: a fresh scheduler, fired with an action semantics
that would re-schedule. -/
theorem fire_empty_witness :
    ∃ s1, executiveFire (rescheduleAction 9 fun t _ => t)
        (fresh ⟨1, [⟨2, 0, ARMAGEDDON, 0, 0, 0⟩], ⟨2, 0, ARMAGEDDON, 0, 0, 0⟩⟩) ⟨5, 0⟩ =
        .ok s1 ∧
      s1.exec.events =
        (fresh ⟨1, [⟨2, 0, ARMAGEDDON, 0, 0, 0⟩], ⟨2, 0, ARMAGEDDON, 0, 0, 0⟩⟩).exec.events ∧
      s1.log = (fresh ⟨1, [⟨2, 0, ARMAGEDDON, 0, 0, 0⟩], ⟨2, 0, ARMAGEDDON, 0, 0, 0⟩⟩).log ∧
      s1 = fresh ⟨1, [⟨2, 0, ARMAGEDDON, 0, 0, 0⟩], ⟨2, 0, ARMAGEDDON, 0, 0, 0⟩⟩ ∧
      executiveLength s1.exec = 0 :=
  fire_empty (rescheduleAction 9 fun t _ => t)
    (fresh ⟨1, [⟨2, 0, ARMAGEDDON, 0, 0, 0⟩], ⟨2, 0, ARMAGEDDON, 0, 0, 0⟩⟩)
    ⟨1, 2, _, [], rfl, rfl, rfl⟩ (by decide) ⟨5, 0⟩

/-! ## Handles -/

/-- The record an add call stores holds the arguments of the call. -/
theorem newEvent_fields (self : Nat) (op : Op) (e : Event)
    (h : op.newEvent self = some e) :
    executiveEventExecutive e = self ∧
      ((∃ q t ac, op = Op.add q t ac ∧ executiveEventScheduledTime e = t ∧
          executiveEventEnv e = 0 ∧ e.action = ac) ∨
       (∃ q t ac env, op = Op.addWithEnv q t ac env ∧ executiveEventScheduledTime e = t ∧
          executiveEventEnv e = env ∧ e.action = ac) ∨
       (∃ q t ac env fr, op = Op.addWithFreeFunc q t ac env fr ∧
          executiveEventScheduledTime e = t ∧ executiveEventEnv e = env ∧ e.action = ac)) := by
  cases op with
  | add q t ac =>
    simp only [Op.newEvent, Option.some.injEq] at h
    subst h
    exact ⟨rfl, Or.inl ⟨q, t, ac, rfl, rfl, rfl, rfl⟩⟩
  | addWithEnv q t ac env =>
    simp only [Op.newEvent, Option.some.injEq] at h
    subst h
    exact ⟨rfl, Or.inr (Or.inl ⟨q, t, ac, env, rfl, rfl, rfl, rfl⟩)⟩
  | addWithFreeFunc q t ac env fr =>
    simp only [Op.newEvent, Option.some.injEq] at h
    subst h
    exact ⟨rfl, Or.inr (Or.inr ⟨q, t, ac, env, fr, rfl, rfl, rfl, rfl⟩)⟩
  | fire now => cases h
  | clear => cases h
  | clearMatchingTime tv => cases h
  | clearMatchingAction ac => cases h
  | clearMatchingEnv env => cases h
  | clearMatchingActionAndEnv ac env => cases h

/-- The action calls a call adds to the log are calls of the non-null action of
the event that is passed as the handle. -/
theorem stepRel_calls {a : Nat} {op : Op} {pre post pre2 post2 : List Event}
    {log log2 : List Call} {r : Nat}
    (hrel : StepRel a op pre post log pre2 post2 log2 r) :
    ∀ f e now, Call.action f e now ∈ log2 →
      Call.action f e now ∈ log ∨ (f = e.action ∧ f ≠ 0) := by
  intro f e now hc
  cases hne : op.newEvent a with
  | some x =>
    simp only [StepRel, hne] at hrel
    rw [hrel.1] at hc
    exact Or.inl hc
  | none =>
    obtain ⟨removed, acts, -, -, -, hlog, halt⟩ := stepRel_removed hrel hne
    rw [hlog] at hc
    rcases List.mem_append.1 hc with hc | hc
    · rcases List.mem_append.1 hc with hc | hc
      · exact Or.inl hc
      · right
        rcases halt with ⟨now2, -, -, h4⟩ | ⟨-, h4, -⟩
        · rcases h4 with ⟨-, h5, -⟩ | ⟨y, -, -, h6⟩
          · rw [h5] at hc; simp at hc
          · rw [h6] at hc
            by_cases hy : y.action ≠ 0
            · rw [if_pos hy] at hc
              simp only [List.mem_singleton, Call.action.injEq] at hc
              obtain ⟨h7, h8, -⟩ := hc
              subst h7 h8
              exact ⟨rfl, hy⟩
            · rw [if_neg hy] at hc; simp at hc
        · rw [h4] at hc; simp at hc
    · exfalso
      have h1 : Call.action f e now ∈ actionCalls (disposals removed) := by
        simp only [actionCalls, List.mem_filter]
        exact ⟨hc, trivial⟩
      rw [actionCalls_disposals] at h1
      simp at h1

/-- C23: after every sequence of operations on a fresh scheduler at address
`self` (allocations succeeding, actions not re-entering), every handle that
executiveFire passed to an action is the record stored by one of the add calls
of the sequence: its executiveEventExecutive is `self`, and its
executiveEventScheduledTime and executiveEventEnv are the time and the env
passed to that add call (null env for executiveAdd), whatever actual time the
fire was given; and the function called with a handle is the non-null action
stored in that handle. -/
theorem handle_round_trip (self p : Nat) (ex : Executive) (ops : List Op)
    (hnew : executiveNew self p = some ex)
    (hal : allocsOk noReentry (fresh ex) ops = true) :
    ∃ s, run noReentry (fresh ex) ops = .ok s ∧ s.exec.addr = self ∧
      (∀ e ∈ firedEvents s.log,
        executiveEventExecutive e = self ∧
        ((∃ q t ac, Op.add q t ac ∈ ops ∧ executiveEventScheduledTime e = t ∧
            executiveEventEnv e = 0 ∧ e.action = ac) ∨
         (∃ q t ac env, Op.addWithEnv q t ac env ∈ ops ∧
            executiveEventScheduledTime e = t ∧ executiveEventEnv e = env ∧ e.action = ac) ∨
         (∃ q t ac env fr, Op.addWithFreeFunc q t ac env fr ∈ ops ∧
            executiveEventScheduledTime e = t ∧ executiveEventEnv e = env ∧
            e.action = ac))) ∧
      ∀ f e now, Call.action f e now ∈ s.log → f = e.action ∧ f ≠ 0 := by
  obtain ⟨hex, hsh⟩ := new_shape hnew
  subst hex
  obtain ⟨pre2, post2, log2, hrun, -, hP, hC⟩ :=
    run_invariant (fun op => op ∈ ops)
      (fun pre post log => (∀ e, e ∈ pre ++ post ∨ e ∈ firedEvents log →
          ∃ op ∈ ops, op.newEvent self = some e) ∧
        ∀ f e now, Call.action f e now ∈ log → f = e.action ∧ f ≠ 0)
      (by
        intro op pre post log pre2 post2 log2 r hq _ hP hrel _
        refine ⟨?_, ?_⟩
        · intro e he
          rcases he with he | he
          · rcases stepRel_mem hrel e he with h | h
            · exact hP.1 e (Or.inl h)
            · exact ⟨op, hq, h⟩
          · rcases stepRel_fired hrel e he with h | h
            · exact hP.1 e (Or.inr h)
            · exact hP.1 e (Or.inl (List.mem_append.2 (Or.inl h)))
        · intro f e now hc
          rcases stepRel_calls hrel f e now hc with h | h
          · exact hP.2 f e now h
          · exact h)
      ops [] [] [] hsh (by simp [firedEvents]) (fun _ h => h) hal
  refine ⟨_, hrun, rfl, ?_, hC⟩
  intro e he
  obtain ⟨op, hop, hne⟩ := hP e (Or.inr he)
  obtain ⟨h1, h2⟩ := newEvent_fields self op e hne
  refine ⟨h1, ?_⟩
  rcases h2 with ⟨q, t, ac, rfl, h3⟩ | ⟨q, t, ac, env, rfl, h3⟩ | ⟨q, t, ac, env, fr, rfl, h3⟩
  · exact Or.inl ⟨q, t, ac, hop, h3⟩
  · exact Or.inr (Or.inl ⟨q, t, ac, env, hop, h3⟩)
  · exact Or.inr (Or.inr ⟨q, t, ac, env, fr, hop, h3⟩)

/-- C23, at a concrete input: an add with env 100 at {21,22} and an add
without env at {5,0}, both fired at {50,0}; the handles carry {5,0} with a null
env and {21,22} with env 100, and the scheduler address 1. -/
theorem handle_round_trip_witness :
    (∃ s, run noReentry (fresh ⟨1, [⟨2, 0, ARMAGEDDON, 0, 0, 0⟩], ⟨2, 0, ARMAGEDDON, 0, 0, 0⟩⟩)
        [.addWithEnv 3 ⟨21, 22⟩ 7 100, .add 4 ⟨5, 0⟩ 8, .fire ⟨50, 0⟩, .fire ⟨50, 0⟩] =
        .ok s ∧ s.exec.addr = 1 ∧
      (∀ e ∈ firedEvents s.log,
        executiveEventExecutive e = 1 ∧
        ((∃ q t ac, Op.add q t ac ∈
              [Op.addWithEnv 3 ⟨21, 22⟩ 7 100, .add 4 ⟨5, 0⟩ 8, .fire ⟨50, 0⟩,
                .fire ⟨50, 0⟩] ∧
            executiveEventScheduledTime e = t ∧ executiveEventEnv e = 0 ∧ e.action = ac) ∨
         (∃ q t ac env, Op.addWithEnv q t ac env ∈
              [Op.addWithEnv 3 ⟨21, 22⟩ 7 100, .add 4 ⟨5, 0⟩ 8, .fire ⟨50, 0⟩,
                .fire ⟨50, 0⟩] ∧
            executiveEventScheduledTime e = t ∧ executiveEventEnv e = env ∧ e.action = ac) ∨
         (∃ q t ac env fr, Op.addWithFreeFunc q t ac env fr ∈
              [Op.addWithEnv 3 ⟨21, 22⟩ 7 100, .add 4 ⟨5, 0⟩ 8, .fire ⟨50, 0⟩,
                .fire ⟨50, 0⟩] ∧
            executiveEventScheduledTime e = t ∧ executiveEventEnv e = env ∧
            e.action = ac))) ∧
      ∀ f e now, Call.action f e now ∈ s.log → f = e.action ∧ f ≠ 0) ∧
    (run noReentry (fresh ⟨1, [⟨2, 0, ARMAGEDDON, 0, 0, 0⟩], ⟨2, 0, ARMAGEDDON, 0, 0, 0⟩⟩)
        [.addWithEnv 3 ⟨21, 22⟩ 7 100, .add 4 ⟨5, 0⟩ 8, .fire ⟨50, 0⟩, .fire ⟨50, 0⟩]).map
      (fun s => (firedEvents s.log).map fun e =>
        (executiveEventScheduledTime e, executiveEventExecutive e, executiveEventEnv e)) =
      .ok [(⟨5, 0⟩, 1, 0), (⟨21, 22⟩, 1, 100)] :=
  ⟨handle_round_trip 1 2 ⟨1, [⟨2, 0, ARMAGEDDON, 0, 0, 0⟩], ⟨2, 0, ARMAGEDDON, 0, 0, 0⟩⟩
      [.addWithEnv 3 ⟨21, 22⟩ 7 100, .add 4 ⟨5, 0⟩ 8, .fire ⟨50, 0⟩, .fire ⟨50, 0⟩] rfl rfl,
    rfl⟩

/-! ## Events added at or before the head time -/

theorem newEvent_alloc (a : Nat) (op : Op) (e : Event) (h : op.newEvent a = some e) :
    op.alloc = some e.addr := by
  cases op <;> simp only [Op.newEvent, Option.some.injEq] at h <;> first
    | (subst h; rfl)
    | cases h

/-- C24 (as stated, refuted): an event at {1,0} is pending, now is {10,0}, and
an event is added at {5,0}, which is not later than now; the next fire at now
hands the event at {1,0} to its action, not the newly added one, and the peek
in between returns {1,0}, not {5,0}. -/
theorem late_event_counterexample :
    ∃ s s1 s2, Reachable s ∧ lexLe (⟨5, 0⟩ : Timeval) ⟨10, 0⟩ ∧
      step noReentry s (.add 4 ⟨5, 0⟩ 11) = .ok (s1, 2) ∧
      (executivePeek s1.exec).2 = some ⟨1, 0⟩ ∧
      executiveFire noReentry s1 ⟨10, 0⟩ = .ok s2 ∧
      firedEvents s2.log = [⟨3, 1, ⟨1, 0⟩, 10, 0, 0⟩] ∧
      (⟨4, 1, ⟨5, 0⟩, 11, 0, 0⟩ : Event) ∈ s2.exec.events :=
  ⟨⟨⟨1, [⟨3, 1, ⟨1, 0⟩, 10, 0, 0⟩, ⟨2, 0, ARMAGEDDON, 0, 0, 0⟩],
      ⟨2, 0, ARMAGEDDON, 0, 0, 0⟩⟩, []⟩, _, _,
    ⟨1, 2, _, [.add 3 ⟨1, 0⟩ 10], rfl, rfl, rfl⟩, by decide, rfl, rfl, rfl, rfl, by decide⟩

/-- C24 (amended): in every reachable scheduler, for every time now and every
event added (allocation succeeding) with a scheduled time `t` that is not
later than now and not later than the time executivePeek returned before the
add, the executivePeek after the add returns `t` and the next executiveFire at
now removes the newly added event, calls its action if it has one, and leaves
the list as it was before the add. -/
theorem late_event_fires_next (s : State) (hr : Reachable s) (op : Op) (e : Event)
    (he : op.newEvent s.exec.addr = some e) (hal : allocOk s op = true)
    (head : Timeval) (hpeek : executivePeek s.exec = (s.exec, some head))
    (hhead : lexLe e.scheduledTime head) (now : Timeval)
    (_hnow : lexLe e.scheduledTime now) :
    ∃ s1 r, step noReentry s op = .ok (s1, r) ∧
      s1.exec.events = e :: s.exec.events ∧
      executivePeek s1.exec = (s1.exec, some e.scheduledTime) ∧
      executiveFire noReentry s1 now =
        .ok ⟨s.exec, executiveEventFree e
          (if e.action ≠ 0 then s.log ++ [Call.action e.action e now] else s.log)⟩ := by
  obtain ⟨a, S, pre, post, log, rfl, hsh⟩ := hr.shape
  have hp : e.addr ≠ 0 ∧ e.addr ∉ (pre ++ S :: post).map Event.addr :=
    (allocOk_iff _ op e.addr (newEvent_alloc _ op e he)).1 hal
  have hfront : g_list_insert_sorted (pre ++ S :: post) e executiveEventComparator
      = e :: (pre ++ S :: post) := by
    cases hl : pre ++ S :: post with
    | nil => simp at hl
    | cons x xs =>
      have hx : head = x.scheduledTime := by
        simp only [executivePeek, hl, g_list_nth_data, Option.map_some', Prod.mk.injEq,
          Option.some.injEq, true_and] at hpeek
        exact hpeek.symm
      have hstop : ¬ executiveEventComparator e x > 0 := by
        rw [comparator_pos_iff, ← hx]
        exact (not_lexLt_iff _ _).2 hhead
      simp [g_list_insert_sorted, hstop]
  have heS : e.addr ≠ S.addr := by
    intro h
    apply hp.2
    rw [h]
    simp
  refine ⟨_, _, step_add_eq noReentry _ op e he hp.1, ?_, ?_, ?_⟩
  · simp only [State.setEvents, hfront]
  · simp only [State.setEvents, hfront, executivePeek, g_list_nth_data, Option.map_some']
  · simp only [State.setEvents, hfront]
    exact fire_head a e S (pre ++ S :: post) log now heS

/-- C24 (amended), at a concrete input: an event at {5,0} is pending, now is
{10,0}, and an event is added at {5,0}; it is the next to fire. -/
theorem late_event_fires_next_witness :
    ∃ s1 r, step noReentry
        ⟨⟨1, [⟨3, 1, ⟨5, 0⟩, 10, 0, 0⟩, ⟨2, 0, ARMAGEDDON, 0, 0, 0⟩],
          ⟨2, 0, ARMAGEDDON, 0, 0, 0⟩⟩, []⟩ (.add 4 ⟨5, 0⟩ 11) = .ok (s1, r) ∧
      s1.exec.events = ⟨4, 1, ⟨5, 0⟩, 11, 0, 0⟩ ::
        (⟨⟨1, [⟨3, 1, ⟨5, 0⟩, 10, 0, 0⟩, ⟨2, 0, ARMAGEDDON, 0, 0, 0⟩],
          ⟨2, 0, ARMAGEDDON, 0, 0, 0⟩⟩, []⟩ : State).exec.events ∧
      executivePeek s1.exec = (s1.exec, some (⟨4, 1, ⟨5, 0⟩, 11, 0, 0⟩ : Event).scheduledTime) ∧
      executiveFire noReentry s1 ⟨10, 0⟩ =
        .ok ⟨(⟨⟨1, [⟨3, 1, ⟨5, 0⟩, 10, 0, 0⟩, ⟨2, 0, ARMAGEDDON, 0, 0, 0⟩],
          ⟨2, 0, ARMAGEDDON, 0, 0, 0⟩⟩, []⟩ : State).exec,
          executiveEventFree ⟨4, 1, ⟨5, 0⟩, 11, 0, 0⟩
            (if (⟨4, 1, ⟨5, 0⟩, 11, 0, 0⟩ : Event).action ≠ 0 then
              [] ++ [Call.action (⟨4, 1, ⟨5, 0⟩, 11, 0, 0⟩ : Event).action
                ⟨4, 1, ⟨5, 0⟩, 11, 0, 0⟩ ⟨10, 0⟩]
             else [])⟩ :=
  late_event_fires_next
    ⟨⟨1, [⟨3, 1, ⟨5, 0⟩, 10, 0, 0⟩, ⟨2, 0, ARMAGEDDON, 0, 0, 0⟩],
      ⟨2, 0, ARMAGEDDON, 0, 0, 0⟩⟩, []⟩
    ⟨1, 2, _, [.add 3 ⟨5, 0⟩ 10], rfl, rfl, rfl⟩ (.add 4 ⟨5, 0⟩ 11)
    ⟨4, 1, ⟨5, 0⟩, 11, 0, 0⟩ rfl rfl ⟨5, 0⟩ rfl (by decide) ⟨10, 0⟩ (by decide)

/-! ## Allocation failure -/

/-- C25 (the code at the failing input): on a fresh scheduler, when the
allocation of the event record fails (malloc result 0), each of the three add
functions passes the null pointer to the sorted insert, whose comparator
dereferences it: the call faults instead of returning the unchanged length. -/
theorem add_alloc_failure_faults :
    executiveAdd (fresh ⟨1, [⟨2, 0, ARMAGEDDON, 0, 0, 0⟩], ⟨2, 0, ARMAGEDDON, 0, 0, 0⟩⟩) 0
        ⟨10, 0⟩ 10 = .error Fault.nullDeref ∧
    executiveAddWithEnv (fresh ⟨1, [⟨2, 0, ARMAGEDDON, 0, 0, 0⟩], ⟨2, 0, ARMAGEDDON, 0, 0, 0⟩⟩)
        0 ⟨10, 0⟩ 10 100 = .error Fault.nullDeref ∧
    executiveAddWithFreeFunc
        (fresh ⟨1, [⟨2, 0, ARMAGEDDON, 0, 0, 0⟩], ⟨2, 0, ARMAGEDDON, 0, 0, 0⟩⟩)
        0 ⟨10, 0⟩ 10 100 200 = .error Fault.nullDeref ∧
    executiveNew 1 2 = some ⟨1, [⟨2, 0, ARMAGEDDON, 0, 0, 0⟩], ⟨2, 0, ARMAGEDDON, 0, 0, 0⟩⟩ :=
  ⟨rfl, rfl, rfl, rfl⟩

/-! ## The comparator -/

/-- C26: executiveEventComparator returns -1, 0 or 1; -1 exactly when the
scheduled time of the first event is strictly smaller in the lexicographic
order on (tv_sec, tv_usec), 1 exactly when it is strictly greater, 0 exactly
when both fields are equal; compare (a, b) = - compare (b, a), and the relation
"compare is not positive" is transitive and total. -/
theorem comparator_order (a b c : Event) :
    (executiveEventComparator a b = -1 ∨ executiveEventComparator a b = 0 ∨
      executiveEventComparator a b = 1) ∧
    (executiveEventComparator a b = -1 ↔ lexLt a.scheduledTime b.scheduledTime) ∧
    (executiveEventComparator a b = 1 ↔ lexLt b.scheduledTime a.scheduledTime) ∧
    (executiveEventComparator a b = 0 ↔
      a.scheduledTime.tv_sec = b.scheduledTime.tv_sec ∧
        a.scheduledTime.tv_usec = b.scheduledTime.tv_usec) ∧
    executiveEventComparator a b = - executiveEventComparator b a ∧
    (executiveEventComparator a b ≤ 0 → executiveEventComparator b c ≤ 0 →
      executiveEventComparator a c ≤ 0) ∧
    (executiveEventComparator a b ≤ 0 ∨ executiveEventComparator b a ≤ 0) := by
  have key : ∀ x y : Event,
      (lexLt x.scheduledTime y.scheduledTime ∧ executiveEventComparator x y = -1) ∨
      (lexLt y.scheduledTime x.scheduledTime ∧ executiveEventComparator x y = 1) ∨
      ((x.scheduledTime.tv_sec = y.scheduledTime.tv_sec ∧
          x.scheduledTime.tv_usec = y.scheduledTime.tv_usec) ∧
        executiveEventComparator x y = 0) := by
    intro x y
    unfold executiveEventComparator
    by_cases h1 : lexLt x.scheduledTime y.scheduledTime
    · left
      exact ⟨h1, by simp [(timercmp_lt_iff _ _).2 h1]⟩
    · have h1b : timercmp_lt x.scheduledTime y.scheduledTime = false := by
        cases h : timercmp_lt x.scheduledTime y.scheduledTime
        · rfl
        · exact absurd ((timercmp_lt_iff _ _).1 h) h1
      by_cases h2 : lexLt y.scheduledTime x.scheduledTime
      · right; left
        exact ⟨h2, by simp [h1b, (timercmp_gt_iff _ _).2 h2]⟩
      · have h2b : timercmp_gt x.scheduledTime y.scheduledTime = false := by
          cases h : timercmp_gt x.scheduledTime y.scheduledTime
          · rfl
          · exact absurd ((timercmp_gt_iff _ _).1 h) h2
        right; right
        refine ⟨?_, by simp [h1b, h2b]⟩
        unfold lexLt at h1 h2
        omega
  have hab := key a b
  have hba := key b a
  have hbc := key b c
  have hac := key a c
  simp only [lexLt] at hab hba hbc hac ⊢
  omega

/-- C26, at concrete events with times {5,7}, {5,9} and {6,0}. -/
theorem comparator_order_witness :
    executiveEventComparator ⟨3, 1, ⟨5, 7⟩, 0, 0, 0⟩ ⟨4, 1, ⟨5, 9⟩, 0, 0, 0⟩ = -1 ∧
    executiveEventComparator ⟨4, 1, ⟨5, 9⟩, 0, 0, 0⟩ ⟨3, 1, ⟨5, 7⟩, 0, 0, 0⟩ = 1 ∧
    executiveEventComparator ⟨3, 1, ⟨5, 7⟩, 0, 0, 0⟩ ⟨9, 1, ⟨5, 7⟩, 8, 0, 0⟩ = 0 ∧
    (executiveEventComparator ⟨3, 1, ⟨5, 7⟩, 0, 0, 0⟩ ⟨4, 1, ⟨5, 9⟩, 0, 0, 0⟩ ≤ 0 →
      executiveEventComparator ⟨4, 1, ⟨5, 9⟩, 0, 0, 0⟩ ⟨5, 1, ⟨6, 0⟩, 0, 0, 0⟩ ≤ 0 →
      executiveEventComparator ⟨3, 1, ⟨5, 7⟩, 0, 0, 0⟩ ⟨5, 1, ⟨6, 0⟩, 0, 0, 0⟩ ≤ 0) :=
  ⟨by decide, by decide, by decide,
    (comparator_order ⟨3, 1, ⟨5, 7⟩, 0, 0, 0⟩ ⟨4, 1, ⟨5, 9⟩, 0, 0, 0⟩
      ⟨5, 1, ⟨6, 0⟩, 0, 0, 0⟩).2.2.2.2.2.1⟩

/-! ## Re-entrant actions -/

/-- The walk of the sorted insert, as a split of the list at the first event
that is not strictly earlier than the new one. -/
theorem insert_sorted_takeWhile (l : List Event) (e : Event) :
    g_list_insert_sorted l e executiveEventComparator =
      l.takeWhile (fun x => decide (lexLt x.scheduledTime e.scheduledTime)) ++
        e :: l.dropWhile (fun x => decide (lexLt x.scheduledTime e.scheduledTime)) := by
  induction l with
  | nil => rfl
  | cons x xs ih =>
    by_cases hx : lexLt x.scheduledTime e.scheduledTime
    · have hc : executiveEventComparator e x > 0 := (comparator_pos_iff _ _).2 hx
      simp [g_list_insert_sorted, hc, List.takeWhile_cons, List.dropWhile_cons, hx, ih]
    · have hc : ¬ executiveEventComparator e x > 0 := fun h =>
        hx ((comparator_pos_iff _ _).1 h)
      simp [g_list_insert_sorted, hc, List.takeWhile_cons, List.dropWhile_cons, hx]

theorem dropWhile_not_earlier (l : List Event) (t : Timeval) (hs : TimeSorted l) :
    ∀ x ∈ l.dropWhile (fun x => decide (lexLt x.scheduledTime t)),
      lexLe t x.scheduledTime := by
  induction l with
  | nil => intro x hx; simp at hx
  | cons y ys ih =>
    intro x hx
    have hs2 : TimeSorted ys := (List.pairwise_cons.1 hs).2
    by_cases hy : lexLt y.scheduledTime t
    · simp only [List.dropWhile_cons, hy, decide_True, if_true] at hx
      exact ih hs2 x hx
    · simp only [List.dropWhile_cons, hy, decide_False, Bool.false_eq_true, if_false] at hx
      have hty : lexLe t y.scheduledTime := (not_lexLt_iff _ _).1 hy
      rcases List.mem_cons.1 hx with rfl | hx
      · exact hty
      · exact lexLe_trans hty ((List.pairwise_cons.1 hs).1 x hx)

/-- C28: for every time-ordered list, executiveAddImpl (allocation succeeding)
links the new event after the leading events that are strictly earlier than
the new time and immediately in front of the first existing event whose time
is equal to or later than the new time, hence in front of any existing events
with an equal time; the new event is appended at the end exactly when every
existing event is strictly earlier. -/
theorem tie_placement (s : State) (hs : TimeSorted s.exec.events) (p : Nat) (hp : p ≠ 0)
    (t : Timeval) (ac env fr : Nat) :
    executiveAddImpl s p t ac env fr =
      .ok (s.setEvents
        (s.exec.events.takeWhile (fun x => decide (lexLt x.scheduledTime t)) ++
          executiveEventInit p s.exec.addr t ac env fr ::
            s.exec.events.dropWhile (fun x => decide (lexLt x.scheduledTime t))),
        s.exec.events.length) ∧
    (∀ x ∈ s.exec.events.takeWhile (fun x => decide (lexLt x.scheduledTime t)),
      lexLt x.scheduledTime t) ∧
    (∀ x ∈ s.exec.events.dropWhile (fun x => decide (lexLt x.scheduledTime t)),
      lexLe t x.scheduledTime) ∧
    (s.exec.events.dropWhile (fun x => decide (lexLt x.scheduledTime t)) = [] ↔
      ∀ x ∈ s.exec.events, lexLt x.scheduledTime t) := by
  refine ⟨?_, ?_, dropWhile_not_earlier _ t hs, ?_⟩
  · have h1 := insert_sorted_takeWhile s.exec.events
      (executiveEventInit p s.exec.addr t ac env fr)
    have h2 : (executiveEventInit p s.exec.addr t ac env fr).scheduledTime = t := rfl
    rw [h2] at h1
    have hlen : executiveLength (s.setEvents (g_list_insert_sorted s.exec.events
        (executiveEventInit p s.exec.addr t ac env fr) executiveEventComparator)).exec =
        s.exec.events.length := by
      simp only [executiveLength, State.setEvents, g_list_length_eq, insert_sorted_length]
      omega
    simp only [executiveAddImpl, executiveEventNew, hp, if_false, hlen]
    rw [h1]
  · intro x hx
    simpa using List.mem_takeWhile_imp hx
  · rw [List.dropWhile_eq_nil_iff]
    simp

/-- C28, at a concrete input: events at {1,0}, {5,0}, {5,0}, {7,0} are pending
and an event at {5,0} is added; it is linked in front of both events at {5,0}. -/
theorem tie_placement_witness :
    executiveAddImpl
        ⟨⟨1, [⟨3, 1, ⟨1, 0⟩, 10, 0, 0⟩, ⟨5, 1, ⟨5, 0⟩, 10, 0, 0⟩, ⟨4, 1, ⟨5, 0⟩, 10, 0, 0⟩,
          ⟨6, 1, ⟨7, 0⟩, 10, 0, 0⟩, ⟨2, 0, ARMAGEDDON, 0, 0, 0⟩],
          ⟨2, 0, ARMAGEDDON, 0, 0, 0⟩⟩, []⟩ 7 ⟨5, 0⟩ 11 0 0 =
      .ok (⟨⟨1, [⟨3, 1, ⟨1, 0⟩, 10, 0, 0⟩, ⟨7, 1, ⟨5, 0⟩, 11, 0, 0⟩, ⟨5, 1, ⟨5, 0⟩, 10, 0, 0⟩,
          ⟨4, 1, ⟨5, 0⟩, 10, 0, 0⟩, ⟨6, 1, ⟨7, 0⟩, 10, 0, 0⟩, ⟨2, 0, ARMAGEDDON, 0, 0, 0⟩],
          ⟨2, 0, ARMAGEDDON, 0, 0, 0⟩⟩, []⟩, 5) :=
  (tie_placement
    ⟨⟨1, [⟨3, 1, ⟨1, 0⟩, 10, 0, 0⟩, ⟨5, 1, ⟨5, 0⟩, 10, 0, 0⟩, ⟨4, 1, ⟨5, 0⟩, 10, 0, 0⟩,
      ⟨6, 1, ⟨7, 0⟩, 10, 0, 0⟩, ⟨2, 0, ARMAGEDDON, 0, 0, 0⟩],
      ⟨2, 0, ARMAGEDDON, 0, 0, 0⟩⟩, []⟩
    (by
      simp only [TimeSorted, List.pairwise_cons, List.mem_cons, List.mem_singleton,
        forall_eq_or_imp, forall_eq, List.not_mem_nil, false_implies, implies_true,
        List.Pairwise.nil, and_true]
      decide)
    7 (by decide) ⟨5, 0⟩ 11 0 0).1

/-! ## Times up to armageddon -/

/-- A run on a fresh scheduler in which no add is later than armageddon
returns a state with nothing behind the sentinel. -/
theorem run_bounded_shape (self p : Nat) (ex : Executive) (ops : List Op)
    (hnew : executiveNew self p = some ex)
    (htimes : ∀ op ∈ ops, ∀ tv, op.addTime = some tv → lexLe tv ARMAGEDDON)
    (hal : allocsOk noReentry (fresh ex) ops = true) :
    ∃ S pre log, run noReentry (fresh ex) ops = .ok ⟨⟨self, pre ++ [S], S⟩, log⟩ ∧
      Shape self S pre [] := by
  obtain ⟨hex, hsh⟩ := new_shape hnew
  subst hex
  obtain ⟨pre2, post2, log2, hrun, hsh2, hP⟩ :=
    run_invariant (fun op => ∀ tv, op.addTime = some tv → lexLe tv ARMAGEDDON)
      (fun _ post _ => post = [])
      (by
        intro op pre post log pre2 post2 log2 r hq _ hP hrel _
        subst hP
        exact (stepRel_tally (S := executiveEventInit p 0 ARMAGEDDON 0 0 0) ⟨0, 0, 0⟩
          hrel hq).1)
      ops [] [] [] hsh rfl htimes hal
  subst hP
  exact ⟨_, pre2, log2, hrun, hsh2⟩

/-- C29: if every scheduled time passed to an add call is lexicographically
not later than armageddon, then after any sequence of add, fire and clear
operations on a fresh scheduler (allocations succeeding, actions not
re-entering) the run returns, the sentinel is the last element of the list and
every user event precedes it, executiveClear returns exactly executiveLength
and leaves length 0, and executiveFire removes the head event whenever
executiveLength > 0. -/
theorem bounded_times_sentinel_last (self p : Nat) (ex : Executive) (ops : List Op)
    (hnew : executiveNew self p = some ex)
    (htimes : ∀ op ∈ ops, ∀ tv, op.addTime = some tv → lexLe tv ARMAGEDDON)
    (hal : allocsOk noReentry (fresh ex) ops = true) :
    ∃ s, run noReentry (fresh ex) ops = .ok s ∧
      s.exec.events.getLast? = some s.exec.sentinel ∧
      s.exec.events = userEvents s.exec ++ [s.exec.sentinel] ∧
      (∃ s1, executiveClear s = .ok (s1, executiveLength s.exec) ∧
        executiveLength s1.exec = 0 ∧ s1.exec.events = [s.exec.sentinel]) ∧
      (∀ now, 0 < executiveLength s.exec →
        ∃ s1 h, executiveFire noReentry s now = .ok s1 ∧
          s.exec.events = h :: s1.exec.events ∧ h.addr ≠ s.exec.sentinel.addr ∧
          executiveLength s1.exec + 1 = executiveLength s.exec) := by
  obtain ⟨S, pre, log, hrun, hsh⟩ := run_bounded_shape self p ex ops hnew htimes hal
  refine ⟨_, hrun, by simp, ?_, ?_, ?_⟩
  · have := userEvents_shape hsh
    simp only [List.append_nil] at this
    simp only [this]
  · have h1 := clearLoop_spec pre ((pre ++ [S]).length + 1) self S [] log 0 hsh.pre_ne
      (by simp; omega)
    have h3 := executiveLength_shape self S pre []
    refine ⟨⟨⟨self, [S], S⟩, freeLog pre log⟩, ?_, ?_, rfl⟩
    · simp only [executiveClear, h1, h3]
      simp
    · simp [executiveLength, g_list_length]
  · intro now hlen
    rw [executiveLength_shape] at hlen
    cases pre with
    | nil => simp at hlen
    | cons x xs =>
      have hx : x.addr ≠ S.addr := hsh.pre_ne x (by simp)
      refine ⟨⟨⟨self, xs ++ [S], S⟩, executiveEventFree x
          (if x.action ≠ 0 then log ++ [Call.action x.action x now] else log)⟩, x,
        fire_head _ _ _ _ _ _ hx, rfl, hx, ?_⟩
      have e1 := executiveLength_shape self S xs []
      have e2 := executiveLength_shape self S (x :: xs) []
      simp only [List.length_nil, List.length_cons] at e1 e2
      rw [e1, e2]

/-- C29, at a concrete input: adds at {3,0}, at armageddon itself and at
{1,0}, then a fire; two user events remain in front of the sentinel. -/
theorem bounded_times_sentinel_last_witness :
    (∃ s, run noReentry (fresh ⟨1, [⟨2, 0, ARMAGEDDON, 0, 0, 0⟩], ⟨2, 0, ARMAGEDDON, 0, 0, 0⟩⟩)
        [.add 3 ⟨3, 0⟩ 10, .addWithEnv 4 ARMAGEDDON 10 100, .add 5 ⟨1, 0⟩ 10,
          .fire ⟨9, 0⟩] = .ok s ∧
      s.exec.events.getLast? = some s.exec.sentinel ∧
      s.exec.events = userEvents s.exec ++ [s.exec.sentinel] ∧
      (∃ s1, executiveClear s = .ok (s1, executiveLength s.exec) ∧
        executiveLength s1.exec = 0 ∧ s1.exec.events = [s.exec.sentinel]) ∧
      (∀ now, 0 < executiveLength s.exec →
        ∃ s1 h, executiveFire noReentry s now = .ok s1 ∧
          s.exec.events = h :: s1.exec.events ∧ h.addr ≠ s.exec.sentinel.addr ∧
          executiveLength s1.exec + 1 = executiveLength s.exec)) ∧
    (run noReentry (fresh ⟨1, [⟨2, 0, ARMAGEDDON, 0, 0, 0⟩], ⟨2, 0, ARMAGEDDON, 0, 0, 0⟩⟩)
        [.add 3 ⟨3, 0⟩ 10, .addWithEnv 4 ARMAGEDDON 10 100, .add 5 ⟨1, 0⟩ 10,
          .fire ⟨9, 0⟩]).map (fun s => s.exec.events.map Event.addr) = .ok [3, 4, 2] :=
  ⟨bounded_times_sentinel_last 1 2
      ⟨1, [⟨2, 0, ARMAGEDDON, 0, 0, 0⟩], ⟨2, 0, ARMAGEDDON, 0, 0, 0⟩⟩
      [.add 3 ⟨3, 0⟩ 10, .addWithEnv 4 ARMAGEDDON 10 100, .add 5 ⟨1, 0⟩ 10, .fire ⟨9, 0⟩] rfl
      (by
        intro op hop tv htv
        simp only [List.mem_cons, List.mem_singleton, List.not_mem_nil, or_false] at hop
        rcases hop with rfl | rfl | rfl | rfl <;>
          simp only [Op.addTime, Option.some.injEq] at htv <;> first
            | (subst htv; decide)
            | cases htv)
      rfl,
    rfl⟩

/-! ## Survivors of a cancellation -/

/-- C30: in every reachable scheduler, each of the four clear-matching
operations (by time, by action, by env, by action and env) returns; the events
`removed` all pass the test of the operation, the new list is the old list with
exactly the removed events filtered out (so the survivors keep their order and,
being the same records, their time, action, env and destructor), the returned
count is the number of removed events, and the scheduler address and the
sentinel pointer are unchanged. -/
theorem survivors_untouched (s : State) (hr : Reachable s) (op : Op)
    (test : Event → Bool) (hm : op.matcher = some test) :
    ∃ s1 r removed, step noReentry s op = .ok (s1, r) ∧
      (∀ e ∈ removed, test e = true ∧ e ∈ userEvents s.exec) ∧
      s.exec.events.Perm (removed ++ s1.exec.events) ∧
      s1.exec.events = s.exec.events.filter (fun e => decide (e ∉ removed)) ∧
      r = removed.length ∧ s1.exec.addr = s.exec.addr ∧
      s1.exec.sentinel = s.exec.sentinel := by
  obtain ⟨a, S, pre, post, log, rfl, hsh⟩ := hr.shape
  have hno : op.alloc = none := by
    cases op <;> simp [Op.matcher] at hm <;> rfl
  obtain ⟨pre2, post2, log2, r, h1, -, hrel⟩ :=
    step_shape log op hsh (allocOk_of_alloc_none _ op hno)
  simp only [StepRel, (newEvent_none_iff a op).2 hno, hm] at hrel
  obtain ⟨hp, hq, -, hr2⟩ := hrel
  subst hp hq hr2
  refine ⟨_, _, pre.filter test, h1, ?_, ?_, ?_, rfl, rfl, rfl⟩
  · intro e he
    rw [userEvents_shape hsh]
    exact ⟨(List.mem_filter.1 he).2,
      List.mem_append.2 (Or.inl (List.mem_filter.1 he).1)⟩
  · show (pre ++ S :: post2).Perm
      (pre.filter test ++ (pre.filter (fun e => !test e) ++ S :: post2))
    rw [← List.append_assoc]
    exact List.Perm.append_right _ (List.filter_append_perm test pre).symm
  · show pre.filter (fun e => !test e) ++ S :: post2 =
      (pre ++ S :: post2).filter (fun e => decide (e ∉ pre.filter test))
    have hn := hsh.nodup
    rw [List.map_append, List.nodup_append] at hn
    have hrest : ∀ x ∈ S :: post2, x ∉ pre := by
      intro x hx hxp
      exact hn.2.2 (List.mem_map_of_mem _ hxp) (List.mem_map_of_mem _ hx)
    have e1 : pre.filter (fun e => decide (e ∉ pre.filter test))
        = pre.filter (fun e => !test e) := by
      apply List.filter_congr
      intro x hx
      simp [List.mem_filter, hx]
    have e2 : (S :: post2).filter (fun e => decide (e ∉ pre.filter test)) = S :: post2 := by
      rw [List.filter_eq_self]
      intro x hx
      have := hrest x hx
      simp [List.mem_filter, this]
    rw [List.filter_append, e1, e2]

/-- C30, at a concrete input: events with env 100, 0, 100 in front of the
sentinel and an event one second after INT_MAX behind it; clearing env 100
keeps the second event, the sentinel and the late event, in that order. -/
theorem survivors_untouched_witness :
    (∃ s1 r removed,
      step noReentry
          ⟨⟨1, [⟨3, 1, ⟨1, 0⟩, 10, 100, 0⟩, ⟨4, 1, ⟨2, 0⟩, 11, 0, 0⟩,
            ⟨5, 1, ⟨3, 0⟩, 12, 100, 0⟩, ⟨2, 0, ARMAGEDDON, 0, 0, 0⟩,
            ⟨6, 1, ⟨2147483648, 0⟩, 13, 100, 0⟩], ⟨2, 0, ARMAGEDDON, 0, 0, 0⟩⟩, []⟩
          (.clearMatchingEnv 100) = .ok (s1, r) ∧
      (∀ e ∈ removed, (fun e : Event => decide (e.env = 100)) e = true ∧
        e ∈ userEvents (⟨⟨1, [⟨3, 1, ⟨1, 0⟩, 10, 100, 0⟩, ⟨4, 1, ⟨2, 0⟩, 11, 0, 0⟩,
            ⟨5, 1, ⟨3, 0⟩, 12, 100, 0⟩, ⟨2, 0, ARMAGEDDON, 0, 0, 0⟩,
            ⟨6, 1, ⟨2147483648, 0⟩, 13, 100, 0⟩], ⟨2, 0, ARMAGEDDON, 0, 0, 0⟩⟩, []⟩ :
              State).exec) ∧
      (⟨⟨1, [⟨3, 1, ⟨1, 0⟩, 10, 100, 0⟩, ⟨4, 1, ⟨2, 0⟩, 11, 0, 0⟩,
            ⟨5, 1, ⟨3, 0⟩, 12, 100, 0⟩, ⟨2, 0, ARMAGEDDON, 0, 0, 0⟩,
            ⟨6, 1, ⟨2147483648, 0⟩, 13, 100, 0⟩], ⟨2, 0, ARMAGEDDON, 0, 0, 0⟩⟩, []⟩ :
              State).exec.events.Perm (removed ++ s1.exec.events) ∧
      s1.exec.events =
        (⟨⟨1, [⟨3, 1, ⟨1, 0⟩, 10, 100, 0⟩, ⟨4, 1, ⟨2, 0⟩, 11, 0, 0⟩,
            ⟨5, 1, ⟨3, 0⟩, 12, 100, 0⟩, ⟨2, 0, ARMAGEDDON, 0, 0, 0⟩,
            ⟨6, 1, ⟨2147483648, 0⟩, 13, 100, 0⟩], ⟨2, 0, ARMAGEDDON, 0, 0, 0⟩⟩, []⟩ :
              State).exec.events.filter (fun e => decide (e ∉ removed)) ∧
      r = removed.length ∧ s1.exec.addr = 1 ∧
      s1.exec.sentinel = ⟨2, 0, ARMAGEDDON, 0, 0, 0⟩) ∧
    (step noReentry
          ⟨⟨1, [⟨3, 1, ⟨1, 0⟩, 10, 100, 0⟩, ⟨4, 1, ⟨2, 0⟩, 11, 0, 0⟩,
            ⟨5, 1, ⟨3, 0⟩, 12, 100, 0⟩, ⟨2, 0, ARMAGEDDON, 0, 0, 0⟩,
            ⟨6, 1, ⟨2147483648, 0⟩, 13, 100, 0⟩], ⟨2, 0, ARMAGEDDON, 0, 0, 0⟩⟩, []⟩
          (.clearMatchingEnv 100)).map (fun v => (v.1.exec.events, v.2)) =
      .ok ([⟨4, 1, ⟨2, 0⟩, 11, 0, 0⟩, ⟨2, 0, ARMAGEDDON, 0, 0, 0⟩,
        ⟨6, 1, ⟨2147483648, 0⟩, 13, 100, 0⟩], 2) :=
  ⟨survivors_untouched
      ⟨⟨1, [⟨3, 1, ⟨1, 0⟩, 10, 100, 0⟩, ⟨4, 1, ⟨2, 0⟩, 11, 0, 0⟩,
        ⟨5, 1, ⟨3, 0⟩, 12, 100, 0⟩, ⟨2, 0, ARMAGEDDON, 0, 0, 0⟩,
        ⟨6, 1, ⟨2147483648, 0⟩, 13, 100, 0⟩], ⟨2, 0, ARMAGEDDON, 0, 0, 0⟩⟩, []⟩
      ⟨1, 2, _, [.addWithEnv 3 ⟨1, 0⟩ 10 100, .add 4 ⟨2, 0⟩ 11, .addWithEnv 5 ⟨3, 0⟩ 12 100,
        .addWithEnv 6 ⟨2147483648, 0⟩ 13 100], rfl, rfl, rfl⟩
      (.clearMatchingEnv 100) (fun e => decide (e.env = 100)) rfl,
    rfl⟩

/-! ## Safety and termination of the scans -/

theorem nth_data_lt {l : List Event} {i : Nat} {e : Event}
    (h : g_list_nth_data l i = some e) : i < l.length := by
  induction l generalizing i with
  | nil => cases i <;> simp [g_list_nth_data] at h
  | cons x xs ih =>
    cases i with
    | zero => simp
    | succ j =>
      simp only [g_list_nth_data] at h
      have := ih h
      simp only [List.length_cons]
      omega

theorem nth_data_of_lt {l : List Event} {i : Nat} (h : i < l.length) :
    ∃ e, g_list_nth_data l i = some e := by
  induction l generalizing i with
  | nil => simp at h
  | cons x xs ih =>
    cases i with
    | zero => exact ⟨x, rfl⟩
    | succ j =>
      simp only [List.length_cons] at h
      obtain ⟨e, he⟩ := ih (i := j) (by omega)
      exact ⟨e, by simpa [g_list_nth_data] using he⟩

theorem nth_data_of_mem {l : List Event} {e : Event} (h : e ∈ l) :
    ∃ i, g_list_nth_data l i = some e := by
  induction l with
  | nil => simp at h
  | cons x xs ih =>
    rcases List.mem_cons.1 h with rfl | h
    · exact ⟨0, rfl⟩
    · obtain ⟨i, hi⟩ := ih h
      exact ⟨i + 1, by simpa [g_list_nth_data] using hi⟩

/-- Removing the pointer found at position `i` unlinks exactly one node. -/
theorem remove_found_length {l : List Event} {i : Nat} {el : Event}
    (h : g_list_nth_data l i = some el) :
    (g_list_remove l el.addr).length + 1 = l.length := by
  induction l generalizing i with
  | nil => cases i <;> simp [g_list_nth_data] at h
  | cons x xs ih =>
    by_cases hx : x.addr = el.addr
    · simp [g_list_remove, hx]
    · cases i with
      | zero =>
        simp only [g_list_nth_data, Option.some.injEq] at h
        exact absurd (by rw [h]) hx
      | succ j =>
        simp only [g_list_nth_data] at h
        have := ih h
        simp only [g_list_remove, hx, if_false, List.length_cons]
        omega

/-- Removing the pointer found at position `i` moves the node at a later
position `k` to position `k - 1`. -/
theorem remove_found_shift {l : List Event} {i k : Nat} {el e : Event}
    (h : g_list_nth_data l i = some el) (hik : i < k)
    (hk : g_list_nth_data l k = some e) :
    g_list_nth_data (g_list_remove l el.addr) (k - 1) = some e := by
  induction l generalizing i k with
  | nil => cases k <;> simp [g_list_nth_data] at hk
  | cons x xs ih =>
    obtain ⟨k1, rfl⟩ : ∃ k1, k = k1 + 1 := ⟨k - 1, by omega⟩
    simp only [g_list_nth_data] at hk
    by_cases hx : x.addr = el.addr
    · simpa [g_list_remove, hx] using hk
    · cases i with
      | zero =>
        simp only [g_list_nth_data, Option.some.injEq] at h
        exact absurd (by rw [h]) hx
      | succ j =>
        simp only [g_list_nth_data] at h
        have hjk : j < k1 := by omega
        have ih2 := ih h hjk hk
        obtain ⟨k2, rfl⟩ : ∃ k2, k1 = k2 + 1 := ⟨k1 - 1, by omega⟩
        simp only [g_list_remove, hx, if_false, Nat.add_sub_cancel, g_list_nth_data] at ih2 ⊢
        exact ih2

theorem ScanInv.lookup {s : State} {index : Nat} (h : ScanInv s index) :
    index < s.exec.events.length ∧ ∃ el, g_list_nth_data s.exec.events index = some el := by
  obtain ⟨k, e, hk1, hk2, -⟩ := h
  have hlt : index < s.exec.events.length := Nat.lt_of_le_of_lt hk1 (nth_data_lt hk2)
  exact ⟨hlt, nth_data_of_lt hlt⟩

/-- The invariant of the scans after the node found at `index`, which is not
the sentinel, has been removed. -/
theorem ScanInv.remove {s : State} {index : Nat} {el : Event} (log2 : List Call)
    (h : ScanInv s index) (hel : g_list_nth_data s.exec.events index = some el)
    (hne : el.addr ≠ s.exec.sentinel.addr) :
    ScanInv { (s.setEvents (g_list_remove s.exec.events el.addr)) with log := log2 } index := by
  obtain ⟨k, e, hk1, hk2, hk3⟩ := h
  have hk : index < k := by
    rcases Nat.lt_or_ge index k with h1 | h1
    · exact h1
    · have : k = index := Nat.le_antisymm h1 hk1
      subst this
      rw [hel] at hk2
      cases hk2
      exact absurd hk3 hne
  exact ⟨k - 1, e, by omega, remove_found_shift hel hk hk2, hk3⟩

/-- The invariant of the scans after the index has moved past a node that is
not the sentinel. -/
theorem ScanInv.advance {s : State} {index : Nat} {el : Event}
    (h : ScanInv s index) (hel : g_list_nth_data s.exec.events index = some el)
    (hne : el.addr ≠ s.exec.sentinel.addr) : ScanInv s (index + 1) := by
  obtain ⟨k, e, hk1, hk2, hk3⟩ := h
  refine ⟨k, e, ?_, hk2, hk3⟩
  rcases Nat.lt_or_ge index k with h1 | h1
  · exact h1
  · have : k = index := Nat.le_antisymm h1 hk1
    subst this
    rw [hel] at hk2
    cases hk2
    exact absurd hk3 hne

theorem clearLoop_iter (s : State) (h : ScanInv s 0) :
    IterOk (fun fuel st _ result => executiveClearLoop fuel st result) s 0 := by
  obtain ⟨hlt, el, hel⟩ := h.lookup
  refine ⟨hlt, ⟨el, hel⟩, ?_⟩
  intro fuel result
  by_cases hS : el.addr = s.exec.sentinel.addr
  · left
    simp only [executiveClearLoop, hel, ptrOf, hS, if_true]
  · right; left
    refine ⟨{ (s.setEvents (g_list_remove s.exec.events el.addr)) with
        log := executiveEventFree el (s.setEvents (g_list_remove s.exec.events el.addr)).log },
      ?_, ScanInv.remove _ h hel hS, ?_⟩
    · simpa [State.setEvents] using remove_found_length hel
    · simp only [executiveClearLoop, hel, ptrOf, hS, if_false]

theorem clearMatchingLoop_iter (test : Event → Bool) (s : State) (index : Nat)
    (h : ScanInv s index) : IterOk (executiveClearMatchingLoop test) s index := by
  obtain ⟨hlt, el, hel⟩ := h.lookup
  refine ⟨hlt, ⟨el, hel⟩, ?_⟩
  intro fuel result
  by_cases hS : el.addr = s.exec.sentinel.addr
  · left
    simp only [executiveClearMatchingLoop, hel, ptrOf, hS, if_true]
  · by_cases ht : test el = true
    · right; left
      refine ⟨{ (s.setEvents (g_list_remove s.exec.events el.addr)) with
          log := executiveEventFree el
            (s.setEvents (g_list_remove s.exec.events el.addr)).log },
        ?_, ScanInv.remove _ h hel hS, ?_⟩
      · simpa [State.setEvents] using remove_found_length hel
      · simp only [executiveClearMatchingLoop, hel, ptrOf, hS, if_false, ht, if_true]
    · right; right
      refine ⟨ScanInv.advance h hel hS, ?_⟩
      have ht2 : test el = false := by simpa using ht
      simp only [executiveClearMatchingLoop, hel, ptrOf, hS, if_false, ht2,
        Bool.false_eq_true]

theorem clearMatchingTimeLoop_iter (tv : Timeval) (s : State) (index : Nat)
    (h : ScanInv s index) :
    IterOk (fun fuel st i result => executiveClearMatchingTimeLoop fuel st tv i result)
      s index := by
  obtain ⟨hlt, el, hel⟩ := h.lookup
  refine ⟨hlt, ⟨el, hel⟩, ?_⟩
  intro fuel result
  by_cases hS : el.addr = s.exec.sentinel.addr
  · left
    simp only [executiveClearMatchingTimeLoop, hel, ptrOf, hS, if_true]
  · by_cases hgt : timercmp_gt el.scheduledTime tv = true
    · left
      simp only [executiveClearMatchingTimeLoop, hel, ptrOf, hS, if_false, hgt, if_true]
    · have hgt2 : timercmp_gt el.scheduledTime tv = false := by simpa using hgt
      by_cases ht : timercmp_eq el.scheduledTime tv = true
      · right; left
        refine ⟨{ (s.setEvents (g_list_remove s.exec.events el.addr)) with
            log := executiveEventFree el
              (s.setEvents (g_list_remove s.exec.events el.addr)).log },
          ?_, ScanInv.remove _ h hel hS, ?_⟩
        · simpa [State.setEvents] using remove_found_length hel
        · simp only [executiveClearMatchingTimeLoop, hel, ptrOf, hS, if_false, hgt2, ht,
            if_true, Bool.false_eq_true]
      · right; right
        refine ⟨ScanInv.advance h hel hS, ?_⟩
        have ht2 : timercmp_eq el.scheduledTime tv = false := by simpa using ht
        simp only [executiveClearMatchingTimeLoop, hel, ptrOf, hS, if_false, hgt2, ht2,
          Bool.false_eq_true]

/-- A loop whose iterations are all safe and make progress returns, without a
fault, once the fuel covers the distance from the index to the end of the
list. -/
theorem scan_returns (loop : Nat → State → Nat → Nat → Except Fault (State × Nat))
    (hiter : ∀ s index, ScanInv s index → IterOk loop s index) :
    ∀ (fuel : Nat) (s : State) (index result : Nat), ScanInv s index →
      s.exec.events.length - index ≤ fuel →
      ∃ r, loop fuel s index result = .ok r := by
  intro fuel
  induction fuel with
  | zero =>
    intro s index result hinv hf
    have := (hiter s index hinv).1
    omega
  | succ f ih =>
    intro s index result hinv hf
    obtain ⟨hlt, -, hstep⟩ := hiter s index hinv
    rcases hstep f result with h | ⟨s1, h1, h2, h3⟩ | ⟨h2, h3⟩
    · exact ⟨_, h⟩
    · rw [h3]
      exact ih s1 index (result + 1) h2 (by omega)
    · rw [h3]
      exact ih s (index + 1) result h2 (by omega)

theorem scanInv_zero (s : State)
    (hS : ∃ e ∈ s.exec.events, e.addr = s.exec.sentinel.addr) : ScanInv s 0 := by
  obtain ⟨e, he, hea⟩ := hS
  obtain ⟨i, hi⟩ := nth_data_of_mem he
  exact ⟨i, e, Nat.zero_le _, hi, hea⟩

/-- The loop of executiveClear returns, without a fault, once the fuel covers
the length of a list that holds the sentinel pointer. -/
theorem clearLoop_returns : ∀ (fuel : Nat) (s : State) (result : Nat), ScanInv s 0 →
    s.exec.events.length ≤ fuel → ∃ r, executiveClearLoop fuel s result = .ok r := by
  intro fuel
  induction fuel with
  | zero =>
    intro s result hinv hf
    have := hinv.lookup.1
    omega
  | succ f ih =>
    intro s result hinv hf
    obtain ⟨-, el, hel⟩ := hinv.lookup
    by_cases hS : el.addr = s.exec.sentinel.addr
    · exact ⟨(s, result), by simp only [executiveClearLoop, hel, ptrOf, hS, if_true]⟩
    · have hlen := remove_found_length hel
      have h2 := ih
        { (s.setEvents (g_list_remove s.exec.events el.addr)) with
          log := executiveEventFree el (s.setEvents (g_list_remove s.exec.events el.addr)).log }
        (result + 1) (ScanInv.remove _ hinv hel hS)
        (by simp only [State.setEvents]; omega)
      obtain ⟨r, hr⟩ := h2
      exact ⟨r, by simp only [executiveClearLoop, hel, ptrOf, hS, if_false]; exact hr⟩

/-- C31: the scan loops are safe and terminate. For every state whose event
list holds a node with the sentinel pointer, executiveClear,
executiveClearMatchingTime, executiveClearMatchingAction,
executiveClearMatchingEnv and executiveClearMatchingActionAndEnv all return a
result: the loop neither runs on for ever nor dereferences an absent element.
The sentinel pointer is at or behind index 0 when a loop starts, and at every
iteration that starts with the sentinel pointer at or behind the index, in each
of the three loop shapes, the index is smaller than the list length, the
lookup yields an element, and the iteration either leaves the loop, or goes on
with one node less at the same index, or goes on with the same list at the
next index, the sentinel pointer being at or behind the index again. -/
theorem scan_loops_safe (s : State) (tv : Timeval) (a env : Nat)
    (hS : ∃ e ∈ s.exec.events, e.addr = s.exec.sentinel.addr) :
    ((∃ r, executiveClear s = .ok r) ∧
      (∃ r, executiveClearMatchingTime s tv = .ok r) ∧
      (∃ r, executiveClearMatchingAction s a = .ok r) ∧
      (∃ r, executiveClearMatchingEnv s env = .ok r) ∧
      (∃ r, executiveClearMatchingActionAndEnv s a env = .ok r)) ∧
    ScanInv s 0 ∧
    (∀ (st : State) (index : Nat), ScanInv st index →
      IterOk (fun fuel x _ result => executiveClearLoop fuel x result) st 0 ∧
      IterOk (fun fuel x i result => executiveClearMatchingTimeLoop fuel x tv i result)
        st index ∧
      ∀ test, IterOk (executiveClearMatchingLoop test) st index) := by
  have h0 := scanInv_zero s hS
  have hzero : ∀ (st : State) (index : Nat), ScanInv st index → ScanInv st 0 := by
    rintro st index ⟨k, e, -, hk, he⟩
    exact ⟨k, e, Nat.zero_le _, hk, he⟩
  have hfuel : s.exec.events.length - 0 ≤ s.exec.events.length + 1 := by omega
  refine ⟨⟨?_, ?_, ?_, ?_, ?_⟩, h0, ?_⟩
  · exact clearLoop_returns _ s 0 h0 (Nat.le_succ _)
  · exact scan_returns _ (clearMatchingTimeLoop_iter tv) _ s 0 0 h0 hfuel
  · exact scan_returns _ (clearMatchingLoop_iter _) _ s 0 0 h0 hfuel
  · exact scan_returns _ (clearMatchingLoop_iter _) _ s 0 0 h0 hfuel
  · exact scan_returns _ (clearMatchingLoop_iter _) _ s 0 0 h0 hfuel
  · intro st index h
    exact ⟨clearLoop_iter st (hzero st index h), clearMatchingTimeLoop_iter tv st index h,
      fun test => clearMatchingLoop_iter test st index h⟩

/-- C31, at a concrete input: a list of two events, the sentinel and one
more event behind it; all five clear functions return a result. -/
theorem scan_loops_safe_witness :
    (∃ e ∈ [(⟨3, 1, ⟨1, 0⟩, 10, 7, 0⟩ : Event), ⟨4, 1, ⟨2, 0⟩, 0, 0, 0⟩,
        ⟨2, 0, ARMAGEDDON, 0, 0, 0⟩, ⟨5, 1, ⟨2147483648, 0⟩, 10, 7, 0⟩], e.addr = 2) ∧
    ((∃ r, executiveClear
        ⟨⟨1, [⟨3, 1, ⟨1, 0⟩, 10, 7, 0⟩, ⟨4, 1, ⟨2, 0⟩, 0, 0, 0⟩,
          ⟨2, 0, ARMAGEDDON, 0, 0, 0⟩, ⟨5, 1, ⟨2147483648, 0⟩, 10, 7, 0⟩],
          ⟨2, 0, ARMAGEDDON, 0, 0, 0⟩⟩, []⟩ = .ok r) ∧
      (∃ r, executiveClearMatchingTime
        ⟨⟨1, [⟨3, 1, ⟨1, 0⟩, 10, 7, 0⟩, ⟨4, 1, ⟨2, 0⟩, 0, 0, 0⟩,
          ⟨2, 0, ARMAGEDDON, 0, 0, 0⟩, ⟨5, 1, ⟨2147483648, 0⟩, 10, 7, 0⟩],
          ⟨2, 0, ARMAGEDDON, 0, 0, 0⟩⟩, []⟩ ⟨2, 0⟩ = .ok r) ∧
      (∃ r, executiveClearMatchingAction
        ⟨⟨1, [⟨3, 1, ⟨1, 0⟩, 10, 7, 0⟩, ⟨4, 1, ⟨2, 0⟩, 0, 0, 0⟩,
          ⟨2, 0, ARMAGEDDON, 0, 0, 0⟩, ⟨5, 1, ⟨2147483648, 0⟩, 10, 7, 0⟩],
          ⟨2, 0, ARMAGEDDON, 0, 0, 0⟩⟩, []⟩ 10 = .ok r) ∧
      (∃ r, executiveClearMatchingEnv
        ⟨⟨1, [⟨3, 1, ⟨1, 0⟩, 10, 7, 0⟩, ⟨4, 1, ⟨2, 0⟩, 0, 0, 0⟩,
          ⟨2, 0, ARMAGEDDON, 0, 0, 0⟩, ⟨5, 1, ⟨2147483648, 0⟩, 10, 7, 0⟩],
          ⟨2, 0, ARMAGEDDON, 0, 0, 0⟩⟩, []⟩ 7 = .ok r) ∧
      (∃ r, executiveClearMatchingActionAndEnv
        ⟨⟨1, [⟨3, 1, ⟨1, 0⟩, 10, 7, 0⟩, ⟨4, 1, ⟨2, 0⟩, 0, 0, 0⟩,
          ⟨2, 0, ARMAGEDDON, 0, 0, 0⟩, ⟨5, 1, ⟨2147483648, 0⟩, 10, 7, 0⟩],
          ⟨2, 0, ARMAGEDDON, 0, 0, 0⟩⟩, []⟩ 10 7 = .ok r)) :=
  ⟨⟨⟨2, 0, ARMAGEDDON, 0, 0, 0⟩, by decide, rfl⟩,
    (scan_loops_safe
      ⟨⟨1, [⟨3, 1, ⟨1, 0⟩, 10, 7, 0⟩, ⟨4, 1, ⟨2, 0⟩, 0, 0, 0⟩,
        ⟨2, 0, ARMAGEDDON, 0, 0, 0⟩, ⟨5, 1, ⟨2147483648, 0⟩, 10, 7, 0⟩],
        ⟨2, 0, ARMAGEDDON, 0, 0, 0⟩⟩, []⟩ ⟨2, 0⟩ 10 7
      ⟨⟨2, 0, ARMAGEDDON, 0, 0, 0⟩, by decide, rfl⟩).1⟩

end Exec
